import Mathlib

/-
Shallow embedding of the Infineon kv-store core (src/mtb_kvstore.c,
src/mtb_kvstore.h) and verification of its specification claims.

Modelling conventions, fixed once here:
- Machine integers are Nat.  The C code works in uint8/uint16/uint32.  All
  quantities that the theorems reason about stay far below 2^32 under their
  stated hypotheses; the one place where 16-bit wraparound is semantically
  relevant (the area version counter) is modelled with an explicit mod 2^16.
  The consumed-size bookkeeping uses Nat subtraction; the C uses uint32
  subtraction which wraps, and the two agree exactly when the subtrahend does
  not exceed the minuend, which the well-formedness hypotheses of the theorems
  below guarantee (and which the concrete counterexample states satisfy).
- Keys and payloads are lists of byte values (Nat below 256 at every concrete
  instance).  A C string key is its byte list without the terminating NUL; a
  NULL pointer argument is modelled with Option.  Note: the C validator
  _mtb_kvstore_is_valid_key evaluates strlen(key) before its key != NULL test,
  so a genuinely NULL key is undefined behavior in C; the model returns the
  value of the guard expression (false) and the theorems about invalid keys
  only quantify over non-null keys.
- The block device is the media map itself: an association list from absolute
  byte address to the record programmed at that address.  Records are
  programmed and copied whole; the C streams them through the transaction
  buffer in program-size chunks, but every claim treated here observes media
  only at record granularity (a record is either fully present or absent), and
  the RAM-side updates in the C happen strictly after the last chunk of a
  record is programmed.  Reading an address with no binding models reading
  erased flash (magic bytes 0xFF.. , the ERASED outcome).  Device failures are
  injected per logical operation (erase, per-record copy, record program); a
  failed operation leaves the model media unchanged - partially programmed
  bytes in the not-yet-committed spare area are not observable by any claim.
- Heap allocation (transaction buffer, RAM-table growth in
  _mtb_kvstore_increment_max_keys) is modelled as always succeeding, so the
  RAM table is an unbounded list; the max_entries capacity field has no
  observable effect outside the allocation-failure paths, which no claim here
  exercises.
- The mutex layer compiles to no-ops in the non-RTOS configuration and is not
  modelled.
-/

namespace KvSpec

set_option maxRecDepth 100000

/-- Error outcomes of mtb_kvstore.h. `dev c` stands for an error code
propagated verbatim from the block-device layer. -/
inductive KvErr where
  | badParam
  | alignment
  | memAlloc
  | invalidData
  | erasedData
  | itemNotFound
  | storageFull
  | dev (code : Nat)
deriving DecidableEq

/-- Header magic constant 0xFACEFACE. -/
def MAGIC : Nat := 0xFACEFACE

/-- MTB_KVSTORE_MAX_KEY_SIZE (default 64). -/
def MAX_KEY_SIZE : Nat := 64

/-- The delete flag bit, 1 << 7. -/
def DELETE_FLAG : Nat := 128

/-- CRC initial value 0xFFFF. -/
def CRC_INIT : Nat := 0xFFFF

/-- One shift step of the CRC-16/CCITT-0 inner loop:
crc = (crc & 0x8000) ? (crc << 1) ^ 0x1021 : crc << 1. -/
def crcShift (c : Nat) : Nat :=
  if c &&& 0x8000 ≠ 0 then (c <<< 1) ^^^ 0x1021 else c <<< 1

/-- Processing of one input byte: crc ^= b << 8 followed by eight shift
steps. -/
def crcFeed (c b : Nat) : Nat :=
  crcShift (crcShift (crcShift (crcShift (crcShift (crcShift (crcShift
    (crcShift (c ^^^ (b <<< 8)))))))))

/-- _mtb_kvstore_crc16: CRC-16/CCITT-0 over a byte list, chained from
init_crc, masked to 16 bits on return exactly as the C function returns
crc & 0xffff.  The C accumulates in a uint32; its wrap at 2^32 only discards
bits that can never flow back below bit 16, so the low 16 bits agree with this
Nat computation. -/
def _mtb_kvstore_crc16 (data : List Nat) (init_crc : Nat) : Nat :=
  (data.foldl crcFeed init_crc) &&& 0xFFFF

/-- The on-media record header, field for field the C struct
_mtb_kvstore_record_header_t.  crc is declared uint32_t in C but holds a
16-bit CRC zero-extended (the struct is memset to 0 before the fields are
assigned). -/
structure RecordHeader where
  magic : Nat
  format_version : Nat
  flags : Nat
  header_size : Nat
  key_size : Nat
  data_size : Nat
  crc : Nat
deriving DecidableEq

/-- Little-endian bytes of a 16-bit value (the target is little-endian ARM;
_mtb_kvstore_get_header_crc feeds the raw bytes of each field). -/
def le16 (v : Nat) : List Nat := [v % 256, v / 256 % 256]

/-- Little-endian bytes of a 32-bit value. -/
def le32 (v : Nat) : List Nat :=
  [v % 256, v / 256 % 256, v / 65536 % 256, v / 16777216 % 256]

/-- C struct layout under the standard rules (each field padded to its
alignment, total size padded to the largest alignment).  Fields are given as
(size, alignment) pairs.  Used to compute sizeof(_mtb_kvstore_record_header_t)
on the natural-alignment ABIs this code targets (ARM EABI). -/
def structSizeC (fields : List (Nat × Nat)) : Nat :=
  let step : (Nat × Nat) → (Nat × Nat) → (Nat × Nat) := fun acc f =>
    (((acc.1 + f.2 - 1) / f.2) * f.2 + f.1, max acc.2 f.2)
  let fin := fields.foldl step (0, 1)
  ((fin.1 + fin.2 - 1) / fin.2) * fin.2

/-- sizeof(_mtb_kvstore_record_header_t): uint32, uint8, uint8, uint16,
uint16, uint32, uint32 with natural alignment.  The fields sum to 18 bytes and
2 padding bytes precede data_size, giving 20. -/
def headerSizeof : Nat :=
  structSizeC [(4, 4), (1, 1), (1, 1), (2, 2), (2, 2), (4, 4), (4, 4)]

/-- _mtb_kvstore_align_up: (((val - 1) / size) + 1) * size (Nat division;
the C computes the same value for the val >= 1 arguments it is called on). -/
def _mtb_kvstore_align_up (val size : Nat) : Nat :=
  (((val - 1) / size) + 1) * size

/-- _mtb_kvstore_is_aligned: (val & (size - 1)) == 0. -/
def _mtb_kvstore_is_aligned (val size : Nat) : Bool :=
  decide (val &&& (size - 1) = 0)

/-- _mtb_kvstore_get_record_size.  The program size is uniform over the
region per the init contract, so it is a plain parameter here instead of a
per-address device query. -/
def _mtb_kvstore_get_record_size (prog_size key_size data_size : Nat) : Nat :=
  _mtb_kvstore_align_up (headerSizeof + key_size + data_size) prog_size

/-- A record as programmed on media: its header followed by the key bytes
and the payload bytes.  `key` and `data` are the byte ranges the C would read
at key_addr (key_size bytes) and data_addr (data_size bytes); every record
built by the writer satisfies key.length = header.key_size and
data.length = header.data_size. -/
structure Record where
  header : RecordHeader
  key : List Nat
  data : List Nat
deriving DecidableEq

/-- One RAM index entry (mtb_kvstore_ram_table_entry_t). -/
structure RamEntry where
  hash : Nat
  offset : Nat
deriving DecidableEq

/-- The kv-store instance state (the subset of mtb_kvstore_t the claims
observe), together with the media contents of the backing region. -/
structure KVState where
  start_addr : Nat
  length : Nat
  prog_size : Nat
  erase_size : Nat
  media : List (Nat × Record)
  ram_table : List RamEntry
  consumed_size : Nat
  free_space_offset : Nat
  active_area_addr : Nat
  gc_area_addr : Nat
  active_area_version : Nat
deriving DecidableEq

/-- _MTB_KVSTORE_AREA_SIZE(obj): obj->length / 2. -/
def areaSize (st : KVState) : Nat := st.length / 2

/-- Media read at an absolute address: the most recently programmed record
starting at that address, if any. -/
def mlookup : List (Nat × Record) → Nat → Option Record
  | [], _ => none
  | (a, r) :: rest, x => if x = a then some r else mlookup rest x

/-- _mtb_kvstore_get_header_crc: CRC over the six header fields
magic, format_version, flags, header_size, key_size, data_size, in that
order, fed as their raw little-endian bytes.  The crc field itself (and the
2 alignment padding bytes before data_size) are not covered, exactly as the C
feeds each field address separately. -/
def _mtb_kvstore_get_header_crc (h : RecordHeader) (init_crc : Nat) : Nat :=
  _mtb_kvstore_crc16 (le32 h.data_size)
    (_mtb_kvstore_crc16 (le16 h.key_size)
      (_mtb_kvstore_crc16 (le16 h.header_size)
        (_mtb_kvstore_crc16 [h.flags]
          (_mtb_kvstore_crc16 [h.format_version]
            (_mtb_kvstore_crc16 (le32 h.magic) init_crc)))))

/-- _mtb_kvstore_get_record_crc: header CRC, then the key bytes, then the
payload bytes; the data contribution is skipped when data is NULL or
data_size is 0, as in the C. -/
def _mtb_kvstore_get_record_crc (h : RecordHeader) (key : List Nat)
    (dataPtr : Option (List Nat)) : Nat :=
  let c := _mtb_kvstore_get_header_crc h CRC_INIT
  let c := _mtb_kvstore_crc16 key c
  match dataPtr with
  | some d => if h.data_size ≠ 0 then _mtb_kvstore_crc16 d c else c
  | none => c

/-- The three mutation operations (_mtb_kvstore_operation_t). -/
inductive KvOp where
  | add
  | delete
  | update
deriving DecidableEq

/-- _mtb_kvstore_setup_record_header: the struct is zeroed, the fields are
assigned (magic, format_version 0, header_size = sizeof the header,
delete flag for a tombstone, key_size = strlen(key), data_size), and the CRC
is computed over the result with the crc field still 0. -/
def _mtb_kvstore_setup_record_header (key : List Nat)
    (dataPtr : Option (List Nat)) (data_size : Nat) (op : KvOp) :
    RecordHeader :=
  let h0 : RecordHeader :=
    { magic := MAGIC
      format_version := 0
      flags := if op = KvOp.delete then DELETE_FLAG else 0
      header_size := headerSizeof
      key_size := key.length
      data_size := data_size
      crc := 0 }
  { h0 with crc := _mtb_kvstore_get_record_crc h0 key dataPtr }

/-- _mtb_kvstore_update_ram_table: remove-at-index with tail shift, insert-
at-index with tail shift, or overwrite-in-place. -/
def _mtb_kvstore_update_ram_table (tbl : List RamEntry) (op : KvOp)
    (idx : Nat) (e : RamEntry) : List RamEntry :=
  match op with
  | KvOp.delete => tbl.eraseIdx idx
  | KvOp.add => tbl.insertIdx idx e
  | KvOp.update => tbl.set idx e

/-- _mtb_kvstore_update_consumed_size.  Subtraction is Nat subtraction; see
the header comment for the relation to the uint32 arithmetic of the C. -/
def _mtb_kvstore_update_consumed_size (consumed : Nat) (op : KvOp)
    (old_record_size new_record_size : Nat) : Nat :=
  match op with
  | KvOp.delete => consumed - old_record_size
  | KvOp.update => consumed - old_record_size + new_record_size
  | KvOp.add => consumed + new_record_size

/-- Key mode of _mtb_kvstore_read_record: the C key/validate_key parameter
pair.  `validate k` is key != NULL with validate_key true (lookups);
`readOut` is key != NULL with validate_key false (the scanner reading the key
into key_buffer); `anon` is key == NULL (buffered CRC only). -/
inductive KeyMode where
  | validate (k : List Nat)
  | readOut
  | anon
deriving DecidableEq

/-- Outputs of _mtb_kvstore_read_record: the result, the key bytes copied to
the caller buffer (readOut mode), the payload bytes copied to the caller
buffer, the value written back through the data_size pointer, and the header
read from media. -/
structure ReadOut where
  res : Option KvErr
  keyOut : List Nat
  dataOut : Option (List Nat)
  sizeOut : Option Nat
  hdr : Option RecordHeader
deriving DecidableEq

/-- The size-too-small test of _mtb_kvstore_read_record:
data != NULL && data_size != NULL && *data_size < header.data_size
(the wantData conjunct is applied at the call site). -/
def sizeTooSmall : Option Nat → Nat → Bool
  | some s, ds => decide (s < ds)
  | none, _ => false

/-- Tail of _mtb_kvstore_read_record after the key phase: CRC over the
payload bytes (read into the caller buffer when data and data_size are both
non-null, streamed through the transaction buffer otherwise - the same bytes
either way), the final CRC comparison, and the data_size write-back on
success. -/
def _mtb_kvstore_read_record_tail (r : Record) (h : RecordHeader)
    (crcIn : Nat) (keyOut : List Nat) (wantData : Bool)
    (sizeIn : Option Nat) : ReadOut :=
  let dataRead := wantData && sizeIn.isSome
  let crc2 := _mtb_kvstore_crc16 r.data crcIn
  let dOut : Option (List Nat) := if dataRead then some r.data else none
  if h.crc ≠ crc2 then ⟨some KvErr.invalidData, keyOut, dOut, none, some h⟩
  else ⟨none, keyOut, dOut, sizeIn.map (fun _ => h.data_size), some h⟩

/-- _mtb_kvstore_read_record.  An address with no programmed record reads as
erased flash: magic 0xFFFFFFFF, the ERASED outcome.  The magic, key-size and
buffer-size checks, the key validation or copy, and the streamed CRC follow
the C line for line; `wantData` is data != NULL. -/
def _mtb_kvstore_read_record (st : KVState) (area_address offset : Nat)
    (km : KeyMode) (wantData : Bool) (sizeIn : Option Nat) : ReadOut :=
  match mlookup st.media (area_address + offset) with
  | none => ⟨some KvErr.erasedData, [], none, none, none⟩
  | some r =>
    let h := r.header
    if h.magic = 0xFFFFFFFF ∨ h.magic = 0 then
      ⟨some KvErr.erasedData, [], none, none, some h⟩
    else if h.magic ≠ MAGIC then
      ⟨some KvErr.invalidData, [], none, none, some h⟩
    else if h.key_size = 0 ∨ MAX_KEY_SIZE ≤ h.key_size then
      ⟨some KvErr.invalidData, [], none, none, some h⟩
    else if wantData && sizeTooSmall sizeIn h.data_size then
      ⟨some KvErr.invalidData, [], none, some h.data_size, some h⟩
    else
      let crc0 := _mtb_kvstore_get_header_crc h CRC_INIT
      match km with
      | KeyMode.validate k =>
        if k.length ≠ h.key_size then
          ⟨some KvErr.itemNotFound, [], none, none, some h⟩
        else if k ≠ r.key then
          ⟨some KvErr.itemNotFound, [], none, none, some h⟩
        else
          _mtb_kvstore_read_record_tail r h (_mtb_kvstore_crc16 k crc0) []
            wantData sizeIn
      | KeyMode.readOut =>
        _mtb_kvstore_read_record_tail r h (_mtb_kvstore_crc16 r.key crc0)
          r.key wantData sizeIn
      | KeyMode.anon =>
        _mtb_kvstore_read_record_tail r h (_mtb_kvstore_crc16 r.key crc0) []
          wantData sizeIn

/-- Result bundle of _mtb_kvstore_find_record_in_ram_table: the final value
of *ram_table_idx, the scan result, and the *data_size output (0 unless a
record was read successfully, matching the callers which initialize it
to 0). -/
structure FindOut where
  idx : Nat
  res : Option KvErr
  ds : Nat
deriving DecidableEq

/-- The validating read issued by the RAM-table scan for an entry whose hash
equals the key hash: _mtb_kvstore_read_record(obj, active_area, entry.offset,
header, key, true, NULL, data_size). -/
def readV (st : KVState) (key : List Nat) (e : RamEntry) : ReadOut :=
  _mtb_kvstore_read_record st st.active_area_addr e.offset
    (KeyMode.validate key) false (some 0)

/-- The scan loop of _mtb_kvstore_find_record_in_ram_table, entry list and
running index made explicit.  Entries with hash above the key hash are
skipped (continue), the first entry with hash below it stops the scan with
ITEM_NOT_FOUND, and an entry with equal hash is validated by a key-equality
read, continuing past it on a key mismatch. -/
def findFrom (st : KVState) (key : List Nat) (hash : Nat) :
    List RamEntry → Nat → FindOut
  | [], idx => ⟨idx, some KvErr.itemNotFound, 0⟩
  | e :: rest, idx =>
    if hash < e.hash then findFrom st key hash rest (idx + 1)
    else if e.hash < hash then ⟨idx, some KvErr.itemNotFound, 0⟩
    else
      let ro := readV st key e
      if ro.res = some KvErr.itemNotFound then
        findFrom st key hash rest (idx + 1)
      else ⟨idx, ro.res, ro.sizeOut.getD 0⟩

/-- _mtb_kvstore_find_record_in_ram_table: computes the key hash and runs
the scan; returns (key hash, scan result). -/
def _mtb_kvstore_find_record_in_ram_table (st : KVState) (key : List Nat) :
    Nat × FindOut :=
  let hash := _mtb_kvstore_crc16 key CRC_INIT
  (hash, findFrom st key hash st.ram_table 0)

/-- The (ram table info, consumed size info) pair passed to
_mtb_kvstore_write_record for a non-anchor record. -/
structure RamTblInfo where
  ram_tbl_idx : Nat
  entry : RamEntry
deriving DecidableEq

/-- _mtb_kvstore_update_consumed_size_info_t. -/
structure SizeInfo where
  old_record_size : Nat
  new_record_size : Nat
deriving DecidableEq

/-- _mtb_kvstore_write_record: builds the header, programs header+key+data
at area_address + offset (devFail injects a failing program, which leaves the
RAM state untouched since the C updates it only after the last program
succeeds), then, for a non-anchor offset, applies the ram-table and
consumed-size updates. -/
def _mtb_kvstore_write_record (st : KVState) (area_address offset : Nat)
    (key : List Nat) (dataPtr : Option (List Nat)) (data_size : Nat)
    (op : KvOp) (info : Option (RamTblInfo × SizeInfo))
    (devFail : Option Nat) : Option KvErr × KVState :=
  match devFail with
  | some c => (some (KvErr.dev c), st)
  | none =>
    let h := _mtb_kvstore_setup_record_header key dataPtr data_size op
    let r : Record := ⟨h, key, dataPtr.getD []⟩
    let st1 := { st with media := (area_address + offset, r) :: st.media }
    if offset ≠ 0 then
      match info with
      | some (rti, si) =>
        (none, { st1 with
          ram_table :=
            _mtb_kvstore_update_ram_table st1.ram_table op rti.ram_tbl_idx
              rti.entry
          consumed_size :=
            _mtb_kvstore_update_consumed_size st1.consumed_size op
              si.old_record_size si.new_record_size })
      | none => (none, st1)
    else (none, st1)

/-- The reserved anchor key "MTBAREAIDX" as bytes. -/
def areaRecKey : List Nat := [77, 84, 66, 65, 82, 69, 65, 73, 68, 88]

/-- The 4-byte anchor payload {version : u16, format_version : u16},
little-endian. -/
def areaRecData (version : Nat) : List Nat := le16 version ++ le16 0

/-- _mtb_kvstore_get_area_header_record_size: the padded size of the anchor
record (10-byte key, 4-byte payload). -/
def anchorRecordSize (prog_size : Nat) : Nat :=
  _mtb_kvstore_get_record_size prog_size areaRecKey.length 4

/-- _mtb_kvstore_write_area_record: writes the anchor record at offset 0 of
the given area (no ram-table or consumed-size update). -/
def _mtb_kvstore_write_area_record (st : KVState) (area_address version : Nat)
    (devFail : Option Nat) : Option KvErr × KVState :=
  _mtb_kvstore_write_record st area_address 0 areaRecKey
    (some (areaRecData version)) 4 KvOp.add none devFail

/-- _mtb_kvstore_erase_area: on success every binding inside
[area_address, area_address + area size) disappears.  The C erases the
non-first sectors and then the first sector; a failure (devFail) aborts with
the media conservatively unchanged - the claims only observe the erased spare
area after a successful compaction commit. -/
def _mtb_kvstore_erase_area (st : KVState) (area_address : Nat)
    (devFail : Option Nat) : Option KvErr × KVState :=
  match devFail with
  | some c => (some (KvErr.dev c), st)
  | none =>
    (none, { st with
      media := st.media.filter
        (fun p => decide (p.1 < area_address ∨ area_address + areaSize st ≤ p.1)) })

/-- _mtb_kvstore_copy_record: reads the header at the source (erased flash
reads as key_size 0xFFFF, data_size 0xFFFFFFFF), computes the padded record
size, checks that the destination offset plus that size fits the area
(STORAGE_FULL otherwise), and copies the record bytes.  devFail injects a
failing device transfer, which touches nothing the claims observe. -/
def _mtb_kvstore_copy_record (st : KVState) (src_area src_off dst_area dst_off : Nat)
    (devFail : Option Nat) : Option KvErr × KVState × Nat :=
  match devFail with
  | some c => (some (KvErr.dev c), st, dst_off)
  | none =>
    match mlookup st.media (src_area + src_off) with
    | none =>
      let record_size := _mtb_kvstore_get_record_size st.prog_size 0xFFFF 0xFFFFFFFF
      if areaSize st < dst_off + record_size then
        (some KvErr.storageFull, st, dst_off)
      else (none, st, dst_off + record_size)
    | some r =>
      let record_size :=
        _mtb_kvstore_get_record_size st.prog_size r.header.key_size r.header.data_size
      if areaSize st < dst_off + record_size then
        (some KvErr.storageFull, st, dst_off)
      else
        (none, { st with media := (dst_area + dst_off, r) :: st.media },
          dst_off + record_size)

/-- _mtb_kvstore_update_record_info_t: a pending update injected into the
compactor. -/
structure UpdateRecInfo where
  key : List Nat
  dataPtr : Option (List Nat)
  data_size : Nat
  key_hash : Nat
deriving DecidableEq

/-- _mtb_kvstore_record_info_t: the pending mutation descriptor passed to the
compactor (update when update_rec_info is some, delete when none). -/
structure GcRecordInfo where
  ram_tbl_idx : Nat
  size_info : SizeInfo
  update_rec_info : Option UpdateRecInfo

/-- Failure injection for the device operations issued by one compaction run:
the spare-area erase, the copy of the idx-th iteration, the program of a
pending update record, and the program of the new anchor. -/
structure GcDev where
  eraseFail : Option Nat
  copyFail : Nat → Option Nat
  pendingFail : Option Nat
  anchorFail : Option Nat

/-- The all-success device. -/
def allOkGc : GcDev := ⟨none, fun _ => none, none, none⟩

/-- The copy loop of _mtb_kvstore_garbage_collection: for idx from 0 to
num_entries - 1, skip the pending index, otherwise copy the record at the
entry offset from the active area to dst_offset in the GC area and redirect
the entry offset to dst_offset.  The fuel argument is the iteration budget;
the callers pass the table length, which the loop preserves. -/
def gcCopyLoop (dev : GcDev) (skip : Option Nat) :
    Nat → KVState → Nat → Nat → Option KvErr × KVState × Nat
  | 0, st, _, dst => (none, st, dst)
  | fuel + 1, st, idx, dst =>
    if hlt : idx < st.ram_table.length then
      if skip = some idx then gcCopyLoop dev skip fuel st (idx + 1) dst
      else
        let e := st.ram_table.get ⟨idx, hlt⟩
        match _mtb_kvstore_copy_record st st.active_area_addr e.offset
          st.gc_area_addr dst (dev.copyFail idx) with
        | (some err, st1, _) => (some err, st1, dst)
        | (none, st1, next) =>
          let st2 := { st1 with
            ram_table := st1.ram_table.set idx { e with offset := dst } }
          gcCopyLoop dev skip fuel st2 (idx + 1) next
    else (none, st, dst)

/-- _mtb_kvstore_garbage_collection.  Steps, in C order: the capacity guard
for a pending update; erase of the GC area; the copy loop; injection of the
pending update (a record program into the GC area that also updates the RAM
table and consumed size) or the pending delete (RAM-only); the version
increment (uint16, hence mod 2^16); the anchor program into the GC area; and
only after that program succeeds, the free_space_offset assignment and the
active/GC address swap. -/
def _mtb_kvstore_garbage_collection (st : KVState)
    (info : Option GcRecordInfo) (dev : GcDev) : Option KvErr × KVState :=
  let fullCheck : Bool :=
    match info with
    | some i =>
      i.update_rec_info.isSome &&
        decide (areaSize st <
          st.consumed_size - i.size_info.old_record_size +
            i.size_info.new_record_size)
    | none => false
  if fullCheck then (some KvErr.storageFull, st)
  else
    match _mtb_kvstore_erase_area st st.gc_area_addr dev.eraseFail with
    | (some e, st1) => (some e, st1)
    | (none, st1) =>
      let dst0 := anchorRecordSize st1.prog_size
      match gcCopyLoop dev (info.map (fun i => i.ram_tbl_idx))
        st1.ram_table.length st1 0 dst0 with
      | (some e, st2, _) => (some e, st2)
      | (none, st2, dst1) =>
        let afterPending : Option KvErr × KVState × Nat :=
          match info with
          | none => (none, st2, dst1)
          | some i =>
            match i.update_rec_info with
            | some u =>
              let rti : RamTblInfo := ⟨i.ram_tbl_idx, ⟨u.key_hash, dst1⟩⟩
              match _mtb_kvstore_write_record st2 st2.gc_area_addr dst1 u.key
                u.dataPtr u.data_size KvOp.update (some (rti, i.size_info))
                dev.pendingFail with
              | (some e, st3) => (some e, st3, dst1)
              | (none, st3) => (none, st3, dst1 + i.size_info.new_record_size)
            | none =>
              let st3 := { st2 with
                ram_table :=
                  _mtb_kvstore_update_ram_table st2.ram_table KvOp.delete
                    i.ram_tbl_idx ⟨0, 0⟩
                consumed_size :=
                  _mtb_kvstore_update_consumed_size st2.consumed_size
                    KvOp.delete i.size_info.old_record_size
                    i.size_info.new_record_size }
              (none, st3, dst1)
        match afterPending with
        | (some e, st3, _) => (some e, st3)
        | (none, st3, dst2) =>
          let st4 := { st3 with
            active_area_version := (st3.active_area_version + 1) % 65536 }
          match _mtb_kvstore_write_area_record st4 st4.gc_area_addr
            st4.active_area_version dev.anchorFail with
          | (some e, st5) => (some e, st5)
          | (none, st5) =>
            (none, { st5 with
              free_space_offset := dst2
              active_area_addr := st5.gc_area_addr
              gc_area_addr := st5.active_area_addr })

/-- Failure injection for one _mtb_kvstore_write_with_flags run: the devices
used by a triggered compaction and the program of the appended record. -/
structure WDev where
  gc : GcDev
  appendFail : Option Nat

/-- The all-success device for the mutation path. -/
def allOkW : WDev := ⟨allOkGc, none⟩

/-- The append step of _mtb_kvstore_write_with_flags: program the record at
free_space_offset of the active area with the classified operation applied to
the RAM table and consumed size, then advance free_space_offset by the record
size on success. -/
def appendStep (st : KVState) (key : List Nat) (dataPtr : Option (List Nat))
    (size : Nat) (op : KvOp) (idx hash old_record_size record_size : Nat)
    (devFail : Option Nat) : Option KvErr × KVState :=
  let rti : RamTblInfo := ⟨idx, ⟨hash, st.free_space_offset⟩⟩
  let si : SizeInfo := ⟨old_record_size, record_size⟩
  match _mtb_kvstore_write_record st st.active_area_addr st.free_space_offset
    key dataPtr size op (some (rti, si)) devFail with
  | (some e, st1) => (some e, st1)
  | (none, st1) =>
    (none, { st1 with
      free_space_offset := st1.free_space_offset + record_size })

/-- Body of _mtb_kvstore_write_with_flags after the lookup classified the
key as found or not found. -/
def wwfBody (st : KVState) (key : List Nat) (dataPtr : Option (List Nat))
    (size : Nat) (del found : Bool) (idx hash ds : Nat) (dev : WDev) :
    Option KvErr × KVState :=
  let op : KvOp :=
    if del then KvOp.delete else if found then KvOp.update else KvOp.add
  let record_size := _mtb_kvstore_get_record_size st.prog_size key.length size
  let old_record_size :=
    if op = KvOp.add then 0
    else _mtb_kvstore_get_record_size st.prog_size key.length ds
  if (op = KvOp.update ∨ op = KvOp.add) ∧
      areaSize st < st.consumed_size - old_record_size + record_size then
    (some KvErr.storageFull, st)
  else if areaSize st < st.free_space_offset + record_size then
    let info : Option GcRecordInfo :=
      if op = KvOp.add then none
      else some ⟨idx, ⟨old_record_size, record_size⟩,
        if op = KvOp.update then some ⟨key, dataPtr, size, hash⟩ else none⟩
    match _mtb_kvstore_garbage_collection st info dev.gc with
    | (some e, st1) => (some e, st1)
    | (none, st1) =>
      if found then (none, st1)
      else appendStep st1 key dataPtr size op idx hash old_record_size
        record_size dev.appendFail
  else
    appendStep st key dataPtr size op idx hash old_record_size record_size
      dev.appendFail

/-- _mtb_kvstore_write_with_flags: look the key up; a delete of a missing key
succeeds as a no-op; classify add/update/delete; (index growth is modelled as
always succeeding); the direct space check for add/update; the append check,
triggering compaction with the pending mutation folded in for update/delete
and plain compaction for add; and the append.  After compaction the function
returns immediately on error or when the key was found (the compactor already
performed the mutation). -/
def _mtb_kvstore_write_with_flags (st : KVState) (key : List Nat)
    (dataPtr : Option (List Nat)) (size : Nat) (del : Bool) (dev : WDev) :
    Option KvErr × KVState :=
  let fr := _mtb_kvstore_find_record_in_ram_table st key
  let hash := fr.1
  let f := fr.2
  match f.res with
  | some e =>
    if e = KvErr.itemNotFound then
      if del then (none, st)
      else wwfBody st key dataPtr size del false f.idx hash f.ds dev
    else (some e, st)
  | none => wwfBody st key dataPtr size del true f.idx hash f.ds dev

/-- _mtb_kvstore_is_valid_key on a possibly-NULL key: non-null, nonempty,
shorter than MTB_KVSTORE_MAX_KEY_SIZE.  (The C computes strlen(key) before
the NULL test, so the NULL case is undefined behavior in C; this returns the
value of the guard expression.) -/
def _mtb_kvstore_is_valid_key (keyPtr : Option (List Nat)) : Bool :=
  match keyPtr with
  | none => false
  | some k => decide (0 < k.length) && decide (k.length < MAX_KEY_SIZE)

/-- mtb_kvstore_write: the key/data/size validity check, then
_mtb_kvstore_write_with_flags with the tombstone flag clear. -/
def mtb_kvstore_write (st : KVState) (keyPtr : Option (List Nat))
    (dataPtr : Option (List Nat)) (size : Nat) (dev : WDev) :
    Option KvErr × KVState :=
  if ¬ _mtb_kvstore_is_valid_key keyPtr ∨ (dataPtr = none ∧ size ≠ 0) then
    (some KvErr.badParam, st)
  else
    match keyPtr with
    | some key => _mtb_kvstore_write_with_flags st key dataPtr size false dev
    | none => (some KvErr.badParam, st)

/-- mtb_kvstore_delete: no key validation; straight into
_mtb_kvstore_write_with_flags with the tombstone flag set.  (A NULL key
pointer would be undefined behavior inside the lookup; the model takes a
non-null key.) -/
def mtb_kvstore_delete (st : KVState) (key : List Nat) (dev : WDev) :
    Option KvErr × KVState :=
  _mtb_kvstore_write_with_flags st key none 0 true dev

/-- Outputs of mtb_kvstore_read: the result, the payload copied to the
caller buffer, the value written back through size_in_out.  The state is
unchanged by a read. -/
structure PubReadOut where
  res : Option KvErr
  dataOut : Option (List Nat)
  sizeOut : Option Nat
deriving DecidableEq

/-- mtb_kvstore_read: key validity check; BAD_PARAM when a data buffer is
supplied with a NULL or zero size_in_out; lookup; then the full validating
read of the found record.  `wantData` is data != NULL, `sizeIn` the
size_in_out pointer (none = NULL). -/
def mtb_kvstore_read (st : KVState) (keyPtr : Option (List Nat))
    (wantData : Bool) (sizeIn : Option Nat) : PubReadOut :=
  if ¬ _mtb_kvstore_is_valid_key keyPtr then ⟨some KvErr.badParam, none, none⟩
  else if wantData && (sizeIn = none ∨ sizeIn = some 0 : Bool) then
    ⟨some KvErr.badParam, none, none⟩
  else
    match keyPtr with
    | none => ⟨some KvErr.badParam, none, none⟩
    | some key =>
      let fr := _mtb_kvstore_find_record_in_ram_table st key
      match fr.2.res with
      | some e => ⟨some e, none, none⟩
      | none =>
        match st.ram_table.get? fr.2.idx with
        | none => ⟨some KvErr.itemNotFound, none, none⟩
        | some e =>
          let ro := _mtb_kvstore_read_record st st.active_area_addr e.offset
            (KeyMode.validate key) wantData sizeIn
          ⟨ro.res, ro.dataOut, ro.sizeOut⟩

/-- mtb_kvstore_size. -/
def mtb_kvstore_size (st : KVState) : Nat := st.consumed_size

/-- mtb_kvstore_remaining_size. -/
def mtb_kvstore_remaining_size (st : KVState) : Nat :=
  areaSize st - st.consumed_size

/-- mtb_kvstore_reset: clear the RAM table, run plain compaction, and set
consumed_size to the resulting free_space_offset. -/
def mtb_kvstore_reset (st : KVState) (dev : GcDev) : Option KvErr × KVState :=
  let st1 := { st with ram_table := [] }
  match _mtb_kvstore_garbage_collection st1 none dev with
  | (some e, st2) => (some e, st2)
  | (none, st2) => (none, { st2 with consumed_size := st2.free_space_offset })

/-- _mtb_kvstore_check_area_valid: the validating read of the anchor record
at offset 0 of an area, with a 4-byte payload buffer; on success the area
version is decoded from the first two payload bytes (little-endian u16). -/
def _mtb_kvstore_check_area_valid (st : KVState) (area_address : Nat) :
    Option KvErr × Nat :=
  let ro := _mtb_kvstore_read_record st area_address 0
    (KeyMode.validate areaRecKey) true (some 4)
  match ro.res with
  | none =>
    match ro.dataOut with
    | some d => (none, d.getD 0 0 + 256 * d.getD 1 0)
    | none => (none, 0)
  | some e => (some e, 0)

/-- The probe-result filter of _mtb_kvstore_setup_areas: only a genuine
device error aborts init; ERASED, INVALID and ITEM_NOT_FOUND outcomes just
mean the area is not valid. -/
def areaProbeFatal : Option KvErr → Bool
  | none => false
  | some KvErr.erasedData => false
  | some KvErr.invalidData => false
  | some KvErr.itemNotFound => false
  | some _ => true

/-- _mtb_kvstore_setup_areas: probe both areas; both valid - pick by version
with the rule (area1_version > area2_version) || (area1_version == 0);
exactly one valid - pick it; neither valid - erase area 1, write an anchor
with version 1 into it and make it active.  eraseFail/anchorFail of the
device apply to the fresh-initialization path. -/
def _mtb_kvstore_setup_areas (st : KVState) (dev : GcDev) :
    Option KvErr × KVState :=
  let area1 := st.start_addr
  let area2 := st.start_addr + areaSize st
  let p1 := _mtb_kvstore_check_area_valid st area1
  if areaProbeFatal p1.1 then (p1.1, st)
  else
    let p2 := _mtb_kvstore_check_area_valid st area2
    if areaProbeFatal p2.1 then (p2.1, st)
    else
      let area1_valid := p1.1 = none
      let area2_valid := p2.1 = none
      if area1_valid ∧ area2_valid then
        if p1.2 > p2.2 ∨ p1.2 = 0 then
          (none, { st with
            active_area_addr := area1
            active_area_version := p1.2
            gc_area_addr := area2 })
        else
          (none, { st with
            active_area_addr := area2
            active_area_version := p2.2
            gc_area_addr := area1 })
      else if area1_valid then
        (none, { st with
          active_area_addr := area1
          active_area_version := p1.2
          gc_area_addr := area2 })
      else if area2_valid then
        (none, { st with
          active_area_addr := area2
          active_area_version := p2.2
          gc_area_addr := area1 })
      else
        match _mtb_kvstore_erase_area st area1 dev.eraseFail with
        | (some e, st1) => (some e, st1)
        | (none, st1) =>
          match _mtb_kvstore_write_area_record st1 area1 1 dev.anchorFail with
          | (some e, st2) => (some e, st2)
          | (none, st2) =>
            (none, { st2 with
              active_area_addr := area1
              active_area_version := 1
              gc_area_addr := area2 })

/-- Result of the scanner loop: the loop result, the final state, and the
offset to store into free_space_offset afterwards (none on the recovery path,
where the compactor has already set free_space_offset and
_mtb_kvstore_build_ram_table returns its result directly). -/
structure BuildRes where
  res : Option KvErr
  st : KVState
  setFs : Option Nat

/-- The scan loop of _mtb_kvstore_build_ram_table.  While
offset + sizeof(header) < free_space_offset: read the record at offset
(copying its key out); ERASED stops the scan (success); INVALID triggers
recovery by plain compaction, whose result is returned directly; any other
error stops the scan and is surfaced; on success, look the key up, advance
offset by the padded record size, ignore a tombstone for an unknown key, and
otherwise apply the classified add/update/delete to the RAM table and
consumed size.  fuel bounds the iteration count; the callers pass the area
size, which exceeds the number of records an area can hold. -/
def buildLoop (dev : GcDev) : Nat → KVState → Nat → BuildRes
  | 0, st, offset => ⟨none, st, some offset⟩
  | fuel + 1, st, offset =>
    if st.free_space_offset ≤ offset + headerSizeof then ⟨none, st, some offset⟩
    else
      let ro := _mtb_kvstore_read_record st st.active_area_addr offset
        KeyMode.readOut false none
      match ro.res with
      | some KvErr.erasedData => ⟨none, st, some offset⟩
      | some KvErr.invalidData =>
        let g := _mtb_kvstore_garbage_collection st none dev
        ⟨g.1, g.2, none⟩
      | some e => ⟨some e, st, some offset⟩
      | none =>
        match ro.hdr with
        | none => ⟨some KvErr.invalidData, st, some offset⟩
        | some h =>
          let key := ro.keyOut
          let fr := _mtb_kvstore_find_record_in_ram_table st key
          let f := fr.2
          if f.res ≠ none ∧ f.res ≠ some KvErr.itemNotFound then
            ⟨f.res, st, some offset⟩
          else
            let curr := offset
            let record_size :=
              _mtb_kvstore_get_record_size st.prog_size h.key_size h.data_size
            let offset1 := offset + record_size
            let isDel := h.flags &&& DELETE_FLAG ≠ 0
            let found := f.res ≠ some KvErr.itemNotFound
            if isDel ∧ ¬ found then buildLoop dev fuel st offset1
            else
              let op : KvOp :=
                if isDel then KvOp.delete
                else if found then KvOp.update else KvOp.add
              let old_record_size :=
                if op = KvOp.add then 0
                else _mtb_kvstore_get_record_size st.prog_size key.length f.ds
              let st1 := { st with
                ram_table :=
                  _mtb_kvstore_update_ram_table st.ram_table op f.idx
                    ⟨fr.1, curr⟩
                consumed_size :=
                  _mtb_kvstore_update_consumed_size st.consumed_size op
                    old_record_size record_size }
              buildLoop dev fuel st1 offset1

/-- _mtb_kvstore_build_ram_table: start with an empty RAM table,
free_space_offset = area size, consumed_size = anchor record size, and scan
from the end of the anchor record; afterwards free_space_offset is set to the
final scan offset (except on the compaction-recovery path, which set it
already). -/
def _mtb_kvstore_build_ram_table (st0 : KVState) (dev : GcDev) :
    Option KvErr × KVState :=
  let st := { st0 with ram_table := [], free_space_offset := areaSize st0 }
  let rs0 := anchorRecordSize st.prog_size
  let st := { st with consumed_size := rs0 }
  let b := buildLoop dev (areaSize st) st rs0
  match b.setFs with
  | some off => (b.res, { b.st with free_space_offset := off })
  | none => (b.res, b.st)

/-- mtb_kvstore_init: parameter and alignment checks (start and
start + length on erase-sector boundaries, a nonzero even sector count),
then area selection and the RAM-table build.  The transaction-buffer
allocation is modelled as succeeding; `media` is the initial contents of the
backing region and `prog`/`erase_sz` its uniform geometry. -/
def mtb_kvstore_init (start_addr length prog erase_sz : Nat)
    (media : List (Nat × Record)) (dev : GcDev) : Option KvErr × KVState :=
  let st0 : KVState :=
    { start_addr := start_addr, length := length, prog_size := prog,
      erase_size := erase_sz, media := media, ram_table := [],
      consumed_size := 0, free_space_offset := 0, active_area_addr := 0,
      gc_area_addr := 0, active_area_version := 0 }
  if length = 0 then (some KvErr.badParam, st0)
  else if ¬ (_mtb_kvstore_is_aligned start_addr erase_sz ∧
      _mtb_kvstore_is_aligned (start_addr + length) erase_sz) then
    (some KvErr.alignment, st0)
  else
    let num_erase_sectors := length / erase_sz
    if num_erase_sectors = 0 ∨ num_erase_sectors % 2 = 1 then
      (some KvErr.alignment, st0)
    else
      match _mtb_kvstore_setup_areas st0 dev with
      | (some e, st) => (some e, st)
      | (none, st) => _mtb_kvstore_build_ram_table st dev

/-! Concrete states used by the counterexamples and witnesses.  All are
reached by running the public operations of the model on an initially erased
backing region of 1024 bytes (two 512-byte erase sectors, program size 1). -/

/-- A freshly initialized empty store: active area at 0, spare at 512,
anchor record (34 bytes) written, consumed_size = free_space_offset = 34. -/
def st0 : KVState := (mtb_kvstore_init 0 1024 1 512 [] allOkGc).2

/-- st0 after write([70], [0]), write([75], [1,2]), delete([70]): one live
key [75] at offset 56 behind a dead record and a tombstone;
consumed_size = 57, free_space_offset = 100. -/
def stLive : KVState :=
  (mtb_kvstore_delete
    (mtb_kvstore_write
      (mtb_kvstore_write st0 (some [70]) (some [0]) 1 allOkW).2
      (some [75]) (some [1, 2]) 2 allOkW).2
    [70] allOkW).2

/-- A device on which every operation succeeds except programming the new
anchor record, which fails with device error code 7. -/
def devAnchorFail : GcDev := ⟨none, fun _ => none, none, some 7⟩

/-- The pending-update descriptor _mtb_kvstore_write_with_flags would hand to
the compactor for an update of key [75] (stored payload size 2) with a new
4-byte payload: index 0, old padded size 23, new padded size 25. -/
def infoUpd75 : GcRecordInfo :=
  ⟨0, ⟨23, 25⟩, some ⟨[75], some [1, 2, 3, 4], 4, _mtb_kvstore_crc16 [75] CRC_INIT⟩⟩

/-- An anchor record carrying the given area version, as
_mtb_kvstore_write_area_record programs it. -/
def anchorRec (v : Nat) : Record :=
  ⟨_mtb_kvstore_setup_record_header areaRecKey (some (areaRecData v)) 4 KvOp.add,
    areaRecKey, areaRecData v⟩

/-- A backing region whose two areas both hold valid anchors, area 1 with
version v1 and area 2 with version v2 (region of 1024 bytes, areas at 0 and
512). -/
def bothValidState (v1 v2 : Nat) : KVState :=
  { start_addr := 0, length := 1024, prog_size := 1, erase_size := 512,
    media := [(0, anchorRec v1), (512, anchorRec v2)], ram_table := [],
    consumed_size := 0, free_space_offset := 0, active_area_addr := 0,
    gc_area_addr := 0, active_area_version := 0 }

/-- A CRC-valid record with a 10-byte payload: its padded size is 31 bytes,
so placed at offset 34 it runs past the end of a 64-byte area. -/
def evilRec : Record :=
  ⟨_mtb_kvstore_setup_record_header [65] (some (List.replicate 10 7)) 10
      KvOp.add,
    [65], List.replicate 10 7⟩

/-- A backing region of two 64-byte areas whose area 1 holds a valid anchor
followed by the oversized record evilRec; area 2 is erased. -/
def evilMedia : List (Nat × Record) := [(0, anchorRec 1), (34, evilRec)]

/-- Insertion position claimed by the specification for a hash-ascending
sorted table: the first slot i with index[i].hash >= hash(key), or the entry
count.  Stated from the words of the spec for comparison with the scan the
code actually performs. -/
def specAscendingInsertionPoint (st : KVState) (key : List Nat) : Nat :=
  (st.ram_table.takeWhile
    (fun e => decide (e.hash < _mtb_kvstore_crc16 key CRC_INIT))).length

/-- The RAM-table state used by the C5 counterexample: one entry whose hash
exceeds the hash of the probed key. -/
def stC5 : KVState :=
  { st0 with ram_table := [⟨_mtb_kvstore_crc16 [65] CRC_INIT + 1, 34⟩] }

/-- The old-record padded size the space check of
_mtb_kvstore_write_with_flags subtracts for the given key: the padded size
computed from the stored data_size when the lookup finds the key, 0 when the
key is absent, none when the lookup fails with any other error. -/
def lookupOldRecordSize (st : KVState) (key : List Nat) : Option Nat :=
  let f := (_mtb_kvstore_find_record_in_ram_table st key).2
  match f.res with
  | none => some (_mtb_kvstore_get_record_size st.prog_size key.length f.ds)
  | some KvErr.itemNotFound => some 0
  | some _ => none

/-! Well-formedness of records and states, and basic lemmas about the media
map and the record reader. -/

/-- The record at the active-area offset of a RAM-index entry. -/
def entryRecord (st : KVState) (e : RamEntry) : Option Record :=
  mlookup st.media (st.active_area_addr + e.offset)

/-- The key stored in the record a RAM-index entry points at. -/
def entryKeyOf (st : KVState) (e : RamEntry) : Option (List Nat) :=
  (entryRecord st e).map (fun r => r.key)

/-- The padded on-media size of the record a RAM-index entry points at,
computed from its header fields as the code does (0 for a dangling entry). -/
def sizeOfEntry (st : KVState) (e : RamEntry) : Nat :=
  match entryRecord st e with
  | some r =>
    _mtb_kvstore_get_record_size st.prog_size r.header.key_size
      r.header.data_size
  | none => 0

/-- Weak well-formedness of an on-media record: valid magic, key size in
range, and the stored CRC matching the recomputation the reader performs
(header fields, then the key bytes, then the payload bytes).  This is exactly
what a successful read certifies. -/
def wfRecordW (r : Record) : Prop :=
  r.header.magic = MAGIC ∧
  0 < r.header.key_size ∧ r.header.key_size < MAX_KEY_SIZE ∧
  r.header.crc =
    _mtb_kvstore_crc16 r.data
      (_mtb_kvstore_crc16 r.key (_mtb_kvstore_get_header_crc r.header CRC_INIT))

/-- Full well-formedness: weak well-formedness plus the header sizes agreeing
with the actual key and payload lengths, as holds for every record the writer
produces. -/
def wfRecord (r : Record) : Prop :=
  wfRecordW r ∧ r.header.key_size = r.key.length ∧
    r.header.data_size = r.data.length

instance (r : Record) : Decidable (wfRecordW r) := by
  unfold wfRecordW; infer_instance

instance (r : Record) : Decidable (wfRecord r) := by
  unfold wfRecord; infer_instance

/-- An entry of the RAM index in good standing: it points at a fully
well-formed record in the active area whose key hashes to the entry hash
(invariant 3 of the specification).  Stated by matching on the media lookup
so that it is decidable on concrete states. -/
def entryOk (st : KVState) (e : RamEntry) : Prop :=
  match entryRecord st e with
  | some r => wfRecord r ∧ e.hash = _mtb_kvstore_crc16 r.key CRC_INIT
  | none => False

instance (st : KVState) (e : RamEntry) : Decidable (entryOk st e) := by
  unfold entryOk
  cases entryRecord st e with
  | none => exact inferInstanceAs (Decidable False)
  | some r => exact inferInstanceAs (Decidable (_ ∧ _))

theorem entryOk_spec (st : KVState) (e : RamEntry) :
    entryOk st e ↔ ∃ r, entryRecord st e = some r ∧ wfRecord r ∧
      e.hash = _mtb_kvstore_crc16 r.key CRC_INIT := by
  unfold entryOk
  cases h : entryRecord st e with
  | none => simp
  | some r => simp

/-- State well-formedness: the invariants of section 3 of the specification
that the mutation engine maintains, phrased over the model state.  Every
field is decidable, so concrete witnesses are checked by evaluation. -/
structure Wf (st : KVState) : Prop where
  prog_pos : 0 < st.prog_size
  area_layout :
    st.active_area_addr = st.start_addr ∧
        st.gc_area_addr = st.start_addr + areaSize st ∨
      st.active_area_addr = st.start_addr + areaSize st ∧
        st.gc_area_addr = st.start_addr
  anchor_le : anchorRecordSize st.prog_size ≤ areaSize st
  cons_le : st.consumed_size ≤ st.free_space_offset
  fs_le : st.free_space_offset ≤ areaSize st
  offs_lt : ∀ e ∈ st.ram_table, e.offset < st.free_space_offset
  entries_ok : ∀ e ∈ st.ram_table, entryOk st e
  sorted : st.ram_table.Pairwise (fun a b => b.hash ≤ a.hash)
  keys_distinct :
    st.ram_table.Pairwise (fun a b => entryKeyOf st a ≠ entryKeyOf st b)
  consumed_eq : st.consumed_size =
    anchorRecordSize st.prog_size + (st.ram_table.map (sizeOfEntry st)).sum

theorem mlookup_cons (a : Nat) (r : Record) (m : List (Nat × Record))
    (x : Nat) :
    mlookup ((a, r) :: m) x = if x = a then some r else mlookup m x := rfl

theorem crc16_lt (data : List Nat) (c : Nat) :
    _mtb_kvstore_crc16 data c < 65536 := by
  have h := Nat.and_le_right (n := data.foldl crcFeed c) (m := 0xFFFF)
  unfold _mtb_kvstore_crc16
  omega

/-- Reading a well-formed record in validating mode without a data buffer:
success exactly when the probed key matches the stored key (both checks of
_mtb_kvstore_validate_key), ITEM_NOT_FOUND otherwise. -/
theorem read_record_validate_of_wf (st : KVState) (a off : Nat)
    (k : List Nat) (r : Record) (si : Option Nat)
    (hm : mlookup st.media (a + off) = some r) (hw : wfRecordW r) :
    _mtb_kvstore_read_record st a off (KeyMode.validate k) false si =
      if k.length = r.header.key_size ∧ k = r.key then
        ⟨none, [], none, si.map (fun _ => r.header.data_size), some r.header⟩
      else ⟨some KvErr.itemNotFound, [], none, none, some r.header⟩ := by
  obtain ⟨hmag, hks0, hks1, hcrc⟩ := hw
  unfold _mtb_kvstore_read_record
  rw [hm]
  dsimp only
  rw [if_neg (show ¬ (r.header.magic = 4294967295 ∨ r.header.magic = 0) by
    rw [hmag]; decide)]
  rw [if_neg (show ¬ r.header.magic ≠ MAGIC by simp [hmag])]
  rw [if_neg (show ¬ (r.header.key_size = 0 ∨ MAX_KEY_SIZE ≤ r.header.key_size)
    by omega)]
  rw [if_neg (show ¬ ((false && sizeTooSmall si r.header.data_size) = true) by
    simp)]
  by_cases h1 : k.length = r.header.key_size
  · by_cases h2 : k = r.key
    · rw [if_neg (show ¬ k.length ≠ r.header.key_size by omega)]
      rw [if_neg (show ¬ k ≠ r.key by simp [h2])]
      rw [if_pos (show k.length = r.header.key_size ∧ k = r.key from ⟨h1, h2⟩)]
      unfold _mtb_kvstore_read_record_tail
      rw [if_neg (show ¬ r.header.crc ≠
        _mtb_kvstore_crc16 r.data (_mtb_kvstore_crc16 k
          (_mtb_kvstore_get_header_crc r.header CRC_INIT)) by
        rw [h2]; omega)]
      simp
    · rw [if_neg (show ¬ k.length ≠ r.header.key_size by omega)]
      rw [if_pos (show k ≠ r.key from h2)]
      rw [if_neg (show ¬ (k.length = r.header.key_size ∧ k = r.key) by
        simp [h2])]
  · rw [if_pos (show k.length ≠ r.header.key_size from h1)]
    rw [if_neg (show ¬ (k.length = r.header.key_size ∧ k = r.key) by
      simp [h1])]

/-- Reading a well-formed record in validating mode with the matching key, a
data buffer, and a sufficient buffer size: success, the payload copied out,
and the stored size written back. -/
theorem read_record_validate_full (st : KVState) (a off : Nat) (r : Record)
    (s : Nat) (w : Bool) (hm : mlookup st.media (a + off) = some r)
    (hw : wfRecordW r) (hlen : r.key.length = r.header.key_size)
    (hs : r.header.data_size ≤ s) :
    _mtb_kvstore_read_record st a off (KeyMode.validate r.key) w (some s) =
      ⟨none, [], if w then some r.data else none,
        some r.header.data_size, some r.header⟩ := by
  obtain ⟨hmag, hks0, hks1, hcrc⟩ := hw
  unfold _mtb_kvstore_read_record
  rw [hm]
  dsimp only
  rw [if_neg (show ¬ (r.header.magic = 4294967295 ∨ r.header.magic = 0) by
    rw [hmag]; decide)]
  rw [if_neg (show ¬ r.header.magic ≠ MAGIC by simp [hmag])]
  rw [if_neg (show ¬ (r.header.key_size = 0 ∨ MAX_KEY_SIZE ≤ r.header.key_size)
    by omega)]
  have hsmall : sizeTooSmall (some s) r.header.data_size = false := by
    unfold sizeTooSmall; simp; omega
  rw [if_neg (show ¬ ((w && sizeTooSmall (some s) r.header.data_size) = true)
    by simp [hsmall])]
  rw [if_neg (show ¬ r.key.length ≠ r.header.key_size by omega)]
  rw [if_neg (show ¬ r.key ≠ r.key by simp)]
  unfold _mtb_kvstore_read_record_tail
  rw [if_neg (show ¬ r.header.crc ≠
    _mtb_kvstore_crc16 r.data (_mtb_kvstore_crc16 r.key
      (_mtb_kvstore_get_header_crc r.header CRC_INIT)) by omega)]
  simp

/-- Reading a well-formed record in key-copying mode (the scanner): always a
success, with the stored key copied out. -/
theorem read_record_readOut_of_wf (st : KVState) (a off : Nat) (r : Record)
    (si : Option Nat) (hm : mlookup st.media (a + off) = some r)
    (hw : wfRecordW r) :
    _mtb_kvstore_read_record st a off KeyMode.readOut false si =
      ⟨none, r.key, none, si.map (fun _ => r.header.data_size),
        some r.header⟩ := by
  obtain ⟨hmag, hks0, hks1, hcrc⟩ := hw
  unfold _mtb_kvstore_read_record
  rw [hm]
  dsimp only
  rw [if_neg (show ¬ (r.header.magic = 4294967295 ∨ r.header.magic = 0) by
    rw [hmag]; decide)]
  rw [if_neg (show ¬ r.header.magic ≠ MAGIC by simp [hmag])]
  rw [if_neg (show ¬ (r.header.key_size = 0 ∨ MAX_KEY_SIZE ≤ r.header.key_size)
    by omega)]
  rw [if_neg (show ¬ ((false && sizeTooSmall si r.header.data_size) = true) by
    simp)]
  unfold _mtb_kvstore_read_record_tail
  rw [if_neg (show ¬ r.header.crc ≠
    _mtb_kvstore_crc16 r.data (_mtb_kvstore_crc16 r.key
      (_mtb_kvstore_get_header_crc r.header CRC_INIT)) by omega)]
  simp

/-- Inversion of a successful validating read (without a data buffer): the
media holds a weakly well-formed record at the probed address whose key is
the probed key, and the read evaluates to the success output determined by
the header. -/
theorem read_record_validate_ok (st : KVState) (a off : Nat) (k : List Nat)
    (si : Option Nat)
    (hok : (_mtb_kvstore_read_record st a off (KeyMode.validate k) false
      si).res = none) :
    ∃ r, mlookup st.media (a + off) = some r ∧ wfRecordW r ∧ k = r.key ∧
      k.length = r.header.key_size ∧
      _mtb_kvstore_read_record st a off (KeyMode.validate k) false si =
        ⟨none, [], none, si.map (fun _ => r.header.data_size),
          some r.header⟩ := by
  unfold _mtb_kvstore_read_record at hok
  cases hm : mlookup st.media (a + off) with
  | none => rw [hm] at hok; simp at hok
  | some r =>
    rw [hm] at hok
    dsimp only at hok
    refine ⟨r, rfl, ?_⟩
    split at hok
    · simp at hok
    split at hok
    · simp at hok
    split at hok
    · simp at hok
    split at hok
    · simp at hok
    split at hok
    · simp at hok
    split at hok
    · simp at hok
    rename_i hmagE hmagV hks hsz hl1 hl2
    unfold _mtb_kvstore_read_record_tail at hok
    dsimp only at hok
    split at hok
    · simp at hok
    rename_i hcrc
    push_neg at hmagV hl1 hl2 hcrc
    have hks2 : 0 < r.header.key_size ∧ r.header.key_size < MAX_KEY_SIZE := by
      constructor <;> omega
    have hw : wfRecordW r := by
      refine ⟨hmagV, hks2.1, hks2.2, ?_⟩
      rw [hl2] at hcrc
      exact hcrc
    refine ⟨hw, hl2, hl1, ?_⟩
    rw [read_record_validate_of_wf st a off k r si hm hw,
      if_pos ⟨hl1, hl2⟩]

/-- Inversion of a successful key-copying read (the scanner): the media
holds a weakly well-formed record whose key was copied into the key buffer
and whose header was read out. -/
theorem read_record_readOut_ok (st : KVState) (a off : Nat) (si : Option Nat)
    (hok : (_mtb_kvstore_read_record st a off KeyMode.readOut false si).res =
      none) :
    ∃ r, mlookup st.media (a + off) = some r ∧ wfRecordW r ∧
      _mtb_kvstore_read_record st a off KeyMode.readOut false si =
        ⟨none, r.key, none, si.map (fun _ => r.header.data_size),
          some r.header⟩ := by
  unfold _mtb_kvstore_read_record at hok
  cases hm : mlookup st.media (a + off) with
  | none => rw [hm] at hok; simp at hok
  | some r =>
    rw [hm] at hok
    dsimp only at hok
    refine ⟨r, rfl, ?_⟩
    split at hok
    · simp at hok
    split at hok
    · simp at hok
    split at hok
    · simp at hok
    split at hok
    · simp at hok
    rename_i hmagE hmagV hks hsz
    unfold _mtb_kvstore_read_record_tail at hok
    dsimp only at hok
    split at hok
    · simp at hok
    rename_i hcrc
    push_neg at hmagV hcrc
    have hw : wfRecordW r := ⟨hmagV, by omega, by omega, hcrc⟩
    exact ⟨hw, read_record_readOut_of_wf st a off r si hm hw⟩

/-! Lemmas about the RAM-table scan. -/

/-- Unfolding equation: the scan over the empty table. -/
theorem findFrom_nil (st : KVState) (key : List Nat) (hash i : Nat) :
    findFrom st key hash [] i = ⟨i, some KvErr.itemNotFound, 0⟩ := rfl

/-- Unfolding equation: one step of the scan. -/
theorem findFrom_cons (st : KVState) (key : List Nat) (hash : Nat)
    (e : RamEntry) (rest : List RamEntry) (i : Nat) :
    findFrom st key hash (e :: rest) i =
      if hash < e.hash then findFrom st key hash rest (i + 1)
      else if e.hash < hash then ⟨i, some KvErr.itemNotFound, 0⟩
      else if (readV st key e).res = some KvErr.itemNotFound then
        findFrom st key hash rest (i + 1)
      else ⟨i, (readV st key e).res, (readV st key e).sizeOut.getD 0⟩ := rfl

/-- The condition under which the scan of
_mtb_kvstore_find_record_in_ram_table passes over an entry: either the entry
hash is above the key hash (the continue branch), or the hashes are equal and
the validating read reports a key mismatch. -/
def scanSkip (st : KVState) (key : List Nat) (hash : Nat) (e : RamEntry) :
    Prop :=
  hash < e.hash ∨
    (e.hash = hash ∧ (readV st key e).res = some KvErr.itemNotFound)

/-- An entry that cannot produce a successful validation for the key: either
its hash differs, or the validating read reports a mismatch. -/
def scanNoMatch (st : KVState) (key : List Nat) (hash : Nat) (e : RamEntry) :
    Prop :=
  e.hash ≠ hash ∨ (readV st key e).res = some KvErr.itemNotFound

/-- Running the scan over a prefix of skipped entries followed by a
validating entry: the scan stops there with success and returns its
position. -/
theorem findFrom_found (st : KVState) (key : List Nat) (hash : Nat)
    (pre : List RamEntry) (e : RamEntry) (rest : List RamEntry) :
    ∀ i : Nat, (∀ p ∈ pre, scanSkip st key hash p) → e.hash = hash →
    (readV st key e).res = none →
    findFrom st key hash (pre ++ e :: rest) i =
      ⟨i + pre.length, none, (readV st key e).sizeOut.getD 0⟩ := by
  induction pre with
  | nil =>
    intro i _ he hv
    rw [List.nil_append, findFrom_cons]
    rw [if_neg (by omega), if_neg (by omega), if_neg (by simp [hv]), hv]
    simp
  | cons p pre ih =>
    intro i hpre he hv
    have hp := hpre p (by simp)
    have hrec := ih (i + 1) (fun q hq => hpre q (by simp [hq])) he hv
    rw [List.cons_append, findFrom_cons]
    rcases hp with hlt | ⟨heq, hnf⟩
    · rw [if_pos hlt, hrec]
      simp
      omega
    · rw [if_neg (by omega), if_neg (by omega), if_pos (by simp [hnf]), hrec]
      simp
      omega

/-- Running the scan over a list with no validating entry: the result is
ITEM_NOT_FOUND. -/
theorem findFrom_absent (st : KVState) (key : List Nat) (hash : Nat)
    (l : List RamEntry) : ∀ i : Nat,
    (∀ e ∈ l, scanNoMatch st key hash e) →
    (findFrom st key hash l i).res = some KvErr.itemNotFound := by
  induction l with
  | nil => intro i _; rfl
  | cons e rest ih =>
    intro i h
    have he := h e (by simp)
    have hrec := ih (i + 1) (fun q hq => h q (by simp [hq]))
    rw [findFrom_cons]
    by_cases hlt : hash < e.hash
    · rw [if_pos hlt]; exact hrec
    · rw [if_neg hlt]
      by_cases hgt : e.hash < hash
      · rw [if_pos hgt]
      · rw [if_neg hgt]
        have hnf : (readV st key e).res = some KvErr.itemNotFound := by
          rcases he with hne | hnf
          · omega
          · exact hnf
        rw [if_pos (by simp [hnf])]
        exact hrec

/-- Full characterization of a not-found scan: when every entry with the key
hash fails validation, the scan returns ITEM_NOT_FOUND at the position just
past the leading entries whose hash is at least the key hash - the insertion
point of a hash-descending table. -/
theorem findFrom_insertion (st : KVState) (key : List Nat) (hash : Nat)
    (l : List RamEntry) : ∀ i : Nat,
    (∀ e ∈ l, e.hash = hash →
      (readV st key e).res = some KvErr.itemNotFound) →
    findFrom st key hash l i =
      ⟨i + (l.takeWhile (fun e => decide (hash ≤ e.hash))).length,
        some KvErr.itemNotFound, 0⟩ := by
  induction l with
  | nil => intro i _; rfl
  | cons e rest ih =>
    intro i h
    have hrec := ih (i + 1) (fun q hq hh => h q (by simp [hq]) hh)
    rw [findFrom_cons]
    by_cases hlt : hash < e.hash
    · rw [if_pos hlt, hrec]
      rw [List.takeWhile_cons_of_pos (by simp; omega)]
      simp
      omega
    · rw [if_neg hlt]
      by_cases hgt : e.hash < hash
      · rw [if_pos hgt]
        rw [List.takeWhile_cons_of_neg (by simp; omega)]
        simp
      · have heq : e.hash = hash := by omega
        rw [if_neg hgt, if_pos (by simp [h e (by simp) heq]), hrec]
        rw [List.takeWhile_cons_of_pos (by simp; omega)]
        simp
        omega

/-- Decomposition of an arbitrary scan run: the table splits into a prefix of
skipped entries and a remainder, the returned position is the prefix length,
and a successful result certifies a validating entry at that position. -/
theorem findFrom_run (st : KVState) (key : List Nat) (hash : Nat)
    (l : List RamEntry) : ∀ i : Nat,
    ∃ pre rest, l = pre ++ rest ∧
      (findFrom st key hash l i).idx = i + pre.length ∧
      (∀ p ∈ pre, scanSkip st key hash p) ∧
      ((findFrom st key hash l i).res = none →
        ∃ e rest2, rest = e :: rest2 ∧ e.hash = hash ∧
          (readV st key e).res = none ∧
          (findFrom st key hash l i).ds =
            (readV st key e).sizeOut.getD 0) := by
  induction l with
  | nil =>
    intro i
    exact ⟨[], [], rfl, by simp [findFrom_nil], by simp,
      by simp [findFrom_nil]⟩
  | cons e rest ih =>
    intro i
    by_cases hlt : hash < e.hash
    · obtain ⟨pre1, rest1, hsplit, hidx, hskips, hres⟩ := ih (i + 1)
      refine ⟨e :: pre1, rest1, by simp [hsplit], ?_, ?_, ?_⟩
      · rw [findFrom_cons, if_pos hlt, hidx]
        simp
        omega
      · intro p hp
        rcases List.mem_cons.mp hp with rfl | hp1
        · exact Or.inl hlt
        · exact hskips p hp1
      · intro hok
        rw [findFrom_cons, if_pos hlt] at hok ⊢
        exact hres hok
    · by_cases hgt : e.hash < hash
      · refine ⟨[], e :: rest, rfl, ?_, by simp, ?_⟩
        · rw [findFrom_cons, if_neg hlt, if_pos hgt]
          simp
        · intro hok
          rw [findFrom_cons, if_neg hlt, if_pos hgt] at hok
          simp at hok
      · have heq : e.hash = hash := by omega
        by_cases hnf : (readV st key e).res = some KvErr.itemNotFound
        · obtain ⟨pre1, rest1, hsplit, hidx, hskips, hres⟩ := ih (i + 1)
          refine ⟨e :: pre1, rest1, by simp [hsplit], ?_, ?_, ?_⟩
          · rw [findFrom_cons, if_neg hlt, if_neg hgt,
              if_pos (by simp [hnf]), hidx]
            simp
            omega
          · intro p hp
            rcases List.mem_cons.mp hp with rfl | hp1
            · exact Or.inr ⟨heq, hnf⟩
            · exact hskips p hp1
          · intro hok
            rw [findFrom_cons, if_neg hlt, if_neg hgt,
              if_pos (by simp [hnf])] at hok ⊢
            exact hres hok
        · refine ⟨[], e :: rest, rfl, ?_, by simp, ?_⟩
          · rw [findFrom_cons, if_neg hlt, if_neg hgt,
              if_neg (by simp [hnf])]
            simp
          · intro hok
            rw [findFrom_cons, if_neg hlt, if_neg hgt,
              if_neg (by simp [hnf])] at hok
            refine ⟨e, rest, rfl, heq, hok, ?_⟩
            rw [findFrom_cons, if_neg hlt, if_neg hgt,
              if_neg (by simp [hnf])]

/-- Under weakly well-formed entries, a scan can only succeed or report
ITEM_NOT_FOUND; no other error escapes. -/
theorem findFrom_ok_or_notFound (st : KVState) (key : List Nat) (hash : Nat)
    (l : List RamEntry) : ∀ i : Nat,
    (∀ e ∈ l, e.hash = hash →
      ∃ r, entryRecord st e = some r ∧ wfRecordW r) →
    (findFrom st key hash l i).res = none ∨
      (findFrom st key hash l i).res = some KvErr.itemNotFound := by
  induction l with
  | nil => intro i _; exact Or.inr rfl
  | cons e rest ih =>
    intro i h
    have hrec := ih (i + 1) (fun q hq hh => h q (by simp [hq]) hh)
    rw [findFrom_cons]
    by_cases hlt : hash < e.hash
    · rw [if_pos hlt]; exact hrec
    · rw [if_neg hlt]
      by_cases hgt : e.hash < hash
      · rw [if_pos hgt]; exact Or.inr rfl
      · rw [if_neg hgt]
        obtain ⟨r, hr, hw⟩ := h e (by simp) (by omega)
        have hev := read_record_validate_of_wf st st.active_area_addr e.offset
          key r (some 0) hr hw
        by_cases hcond : key.length = r.header.key_size ∧ key = r.key
        · have hro : (readV st key e).res = none := by
            unfold readV
            rw [hev, if_pos hcond]
          rw [if_neg (by simp [hro])]
          exact Or.inl hro
        · have hro : (readV st key e).res = some KvErr.itemNotFound := by
            unfold readV
            rw [hev, if_neg hcond]
          rw [if_pos (by simp [hro])]
          exact hrec

/-- Lookup in a table decomposed around a position. -/
theorem get?_append_cons (pre : List RamEntry) (e : RamEntry)
    (rest : List RamEntry) : (pre ++ e :: rest).get? pre.length = some e := by
  induction pre with
  | nil => rfl
  | cons p pre ih => simpa using ih

/-- On a well-formed state, looking up a key that some index entry stores
succeeds at that entry position and returns the stored data size. -/
theorem find_present (st : KVState) (key : List Nat) (pre : List RamEntry)
    (e : RamEntry) (rest : List RamEntry) (r : Record) (hW : Wf st)
    (htbl : st.ram_table = pre ++ e :: rest)
    (hr : entryRecord st e = some r) (hkey : r.key = key) :
    _mtb_kvstore_find_record_in_ram_table st key =
      (_mtb_kvstore_crc16 key CRC_INIT,
        ⟨pre.length, none, r.header.data_size⟩) := by
  have hmem : e ∈ st.ram_table := by rw [htbl]; simp
  obtain ⟨r2, hr2, hwf, hhash⟩ := (entryOk_spec st e).mp (hW.entries_ok e hmem)
  rw [hr] at hr2
  obtain rfl : r = r2 := Option.some.inj hr2
  have hhash2 : e.hash = _mtb_kvstore_crc16 key CRC_INIT := by
    rw [hhash, hkey]
  have hlen : key.length = r.header.key_size := by
    rw [hwf.2.1, hkey]
  have hev := read_record_validate_of_wf st st.active_area_addr e.offset key
    r (some 0) hr hwf.1
  have hro : readV st key e =
      ⟨none, [], none, some r.header.data_size, some r.header⟩ := by
    unfold readV
    rw [hev, if_pos ⟨hlen, hkey.symm⟩]
    rfl
  have hsorted := hW.sorted
  have hdist := hW.keys_distinct
  rw [htbl] at hsorted hdist
  have hskips : ∀ p ∈ pre, scanSkip st key
      (_mtb_kvstore_crc16 key CRC_INIT) p := by
    intro p hp
    have hge : e.hash ≤ p.hash :=
      (List.pairwise_append.mp hsorted).2.2 p hp e (by simp)
    by_cases hgt : _mtb_kvstore_crc16 key CRC_INIT < p.hash
    · exact Or.inl hgt
    · have hpe : p.hash = _mtb_kvstore_crc16 key CRC_INIT := by omega
      obtain ⟨rp, hrp, hwp, _⟩ := (entryOk_spec st p).mp
        (hW.entries_ok p (by rw [htbl]; simp [hp]))
      have hkne : entryKeyOf st p ≠ entryKeyOf st e :=
        (List.pairwise_append.mp hdist).2.2 p hp e (by simp)
      have hkne2 : rp.key ≠ key := by
        intro hcontra
        apply hkne
        simp [entryKeyOf, hrp, hr, hcontra, hkey]
      have hevp := read_record_validate_of_wf st st.active_area_addr p.offset
        key rp (some 0) hrp hwp.1
      refine Or.inr ⟨hpe, ?_⟩
      unfold readV
      rw [hevp, if_neg (by simp; intro _ hk; exact hkne2 hk.symm)]
  unfold _mtb_kvstore_find_record_in_ram_table
  rw [htbl]
  dsimp only
  rw [findFrom_found st key _ pre e rest 0 hskips hhash2 (by rw [hro]), hro]
  simp

/-- On a state with well-formed entries none of which stores the key, the
lookup reports ITEM_NOT_FOUND. -/
theorem find_absent (st : KVState) (key : List Nat)
    (hok : ∀ e ∈ st.ram_table, entryOk st e)
    (habs : ∀ e ∈ st.ram_table, entryKeyOf st e ≠ some key) :
    (_mtb_kvstore_find_record_in_ram_table st key).2.res =
      some KvErr.itemNotFound := by
  unfold _mtb_kvstore_find_record_in_ram_table
  apply findFrom_absent
  intro e hmem
  obtain ⟨r, hr, hwf, hhash⟩ := (entryOk_spec st e).mp (hok e hmem)
  have hkne : r.key ≠ key := by
    intro hcontra
    apply habs e hmem
    simp [entryKeyOf, hr, hcontra]
  have hev := read_record_validate_of_wf st st.active_area_addr e.offset key
    r (some 0) hr hwf.1
  refine Or.inr ?_
  unfold readV
  rw [hev, if_neg (by simp; intro _ hk; exact hkne hk.symm)]

/-! Shape lemmas: which state components each compactor step can touch. -/

/-- Erasing an area touches only the media, whatever its outcome. -/
theorem erase_area_shape (st : KVState) (a : Nat) (df : Option Nat)
    (res : Option KvErr) (stO : KVState)
    (h : _mtb_kvstore_erase_area st a df = (res, stO)) :
    ∃ m, stO = { st with media := m } := by
  unfold _mtb_kvstore_erase_area at h
  cases df with
  | some c =>
    injection h with h1 h2
    exact ⟨st.media, h2.symm⟩
  | none =>
    injection h with h1 h2
    exact ⟨_, h2.symm⟩

/-- Copying one record touches only the media, whatever its outcome. -/
theorem copy_record_shape (st : KVState) (sa so da dof : Nat)
    (df : Option Nat) (res : Option KvErr) (stO : KVState) (d : Nat)
    (h : _mtb_kvstore_copy_record st sa so da dof df = (res, stO, d)) :
    ∃ m, stO = { st with media := m } := by
  unfold _mtb_kvstore_copy_record at h
  cases df with
  | some c =>
    injection h with h1 h2
    injection h2 with h2 h3
    exact ⟨st.media, h2.symm⟩
  | none =>
    cases hm : mlookup st.media (sa + so) with
    | none =>
      rw [hm] at h
      dsimp only at h
      split at h <;>
        (injection h with h1 h2; injection h2 with h2 h3;
          exact ⟨st.media, h2.symm⟩)
    | some r =>
      rw [hm] at h
      dsimp only at h
      split at h
      · injection h with h1 h2
        injection h2 with h2 h3
        exact ⟨st.media, h2.symm⟩
      · injection h with h1 h2
        injection h2 with h2 h3
        exact ⟨_, h2.symm⟩

/-- Writing a record touches only the media, the RAM table, and the consumed
size, whatever its outcome. -/
theorem write_record_shape (st : KVState) (a off : Nat) (key : List Nat)
    (dp : Option (List Nat)) (ds : Nat) (op : KvOp)
    (info : Option (RamTblInfo × SizeInfo)) (df : Option Nat)
    (res : Option KvErr) (stO : KVState)
    (h : _mtb_kvstore_write_record st a off key dp ds op info df =
      (res, stO)) :
    ∃ m t c,
      stO = { st with media := m, ram_table := t, consumed_size := c } := by
  unfold _mtb_kvstore_write_record at h
  cases df with
  | some c =>
    injection h with h1 h2
    exact ⟨st.media, st.ram_table, st.consumed_size, h2.symm⟩
  | none =>
    dsimp only at h
    split at h
    · cases info with
      | some p =>
        injection h with h1 h2
        exact ⟨_, _, _, h2.symm⟩
      | none =>
        injection h with h1 h2
        exact ⟨_, st.ram_table, st.consumed_size, h2.symm⟩
    · injection h with h1 h2
      exact ⟨_, st.ram_table, st.consumed_size, h2.symm⟩

/-- Writing the anchor record touches only the media, whatever its
outcome. -/
theorem write_area_record_shape (st : KVState) (a v : Nat) (df : Option Nat)
    (res : Option KvErr) (stO : KVState)
    (h : _mtb_kvstore_write_area_record st a v df = (res, stO)) :
    ∃ m, stO = { st with media := m } := by
  unfold _mtb_kvstore_write_area_record _mtb_kvstore_write_record at h
  cases df with
  | some c =>
    injection h with h1 h2
    exact ⟨st.media, h2.symm⟩
  | none =>
    dsimp only at h
    rw [if_neg (by omega)] at h
    injection h with h1 h2
    exact ⟨_, h2.symm⟩

/-- The compactor copy loop touches only the media and the RAM table,
whatever its outcome. -/
theorem gcCopyLoop_shape (dev : GcDev) (skip : Option Nat) :
    ∀ (fuel : Nat) (st : KVState) (idx dst : Nat) (res : Option KvErr)
      (stO : KVState) (d : Nat),
    gcCopyLoop dev skip fuel st idx dst = (res, stO, d) →
    ∃ m t, stO = { st with media := m, ram_table := t } := by
  intro fuel
  induction fuel with
  | zero =>
    intro st idx dst res stO d h
    injection h with h1 h2
    injection h2 with h2 h3
    exact ⟨st.media, st.ram_table, h2.symm⟩
  | succ fuel ih =>
    intro st idx dst res stO d h
    unfold gcCopyLoop at h
    split at h
    · split at h
      · exact ih st (idx + 1) dst res stO d h
      · rename_i hlt _
        dsimp only at h
        split at h
        · rename_i e1 st1 d1 hc
          injection h with h1 h2
          injection h2 with h2 h3
          obtain ⟨m1, hm1⟩ := copy_record_shape st st.active_area_addr
            (st.ram_table.get ⟨idx, hlt⟩).offset st.gc_area_addr dst
            (dev.copyFail idx) (some e1) st1 d1 hc
          exact ⟨m1, st.ram_table, by rw [← h2, hm1]⟩
        · rename_i st1 next hc
          obtain ⟨m1, hm1⟩ := copy_record_shape st st.active_area_addr
            (st.ram_table.get ⟨idx, hlt⟩).offset st.gc_area_addr dst
            (dev.copyFail idx) none st1 next hc
          obtain ⟨m2, t2, hrec⟩ := ih _ (idx + 1) next res stO d h
          rw [hrec, hm1]
          exact ⟨m2, t2, rfl⟩
    · injection h with h1 h2
      injection h2 with h2 h3
      exact ⟨st.media, st.ram_table, h2.symm⟩

/-! Bookkeeping for the compactor: positivity of record sizes and the total
padded size of the records the copy loop transfers. -/

theorem align_up_pos (v p : Nat) (hp : 0 < p) :
    0 < _mtb_kvstore_align_up v p :=
  Nat.mul_pos (Nat.succ_pos _) hp

theorem get_record_size_pos (p ks ds : Nat) (hp : 0 < p) :
    0 < _mtb_kvstore_get_record_size p ks ds :=
  align_up_pos _ _ hp

theorem anchorRecordSize_pos (p : Nat) (hp : 0 < p) :
    0 < anchorRecordSize p :=
  align_up_pos _ _ hp

/-- The total padded size of the entries the compactor copy loop transfers,
mirroring the loop structure: entries from position idx on, the skipped
position excluded, each contributing the padded size of the record its
offset points at in the pre-compaction state. -/
def gcCopySizes (s : KVState) (skip : Option Nat) : Nat → Nat → Nat
  | 0, _ => 0
  | fuel + 1, idx =>
    if h : idx < s.ram_table.length then
      if skip = some idx then gcCopySizes s skip fuel (idx + 1)
      else
        sizeOfEntry s (s.ram_table.get ⟨idx, h⟩) +
          gcCopySizes s skip fuel (idx + 1)
    else 0

/-- The contribution of the skipped position at or past idx. -/
def skipSize (s : KVState) (skip : Option Nat) (idx : Nat) : Nat :=
  match skip with
  | some k =>
    if idx ≤ k then
      match s.ram_table.get? k with
      | some e => sizeOfEntry s e
      | none => 0
    else 0
  | none => 0

/-- Unfolding equations of gcCopySizes. -/
theorem gcCopySizes_zero (s : KVState) (skip : Option Nat) (idx : Nat) :
    gcCopySizes s skip 0 idx = 0 := rfl

theorem gcCopySizes_succ (s : KVState) (skip : Option Nat)
    (fuel idx : Nat) :
    gcCopySizes s skip (fuel + 1) idx =
      if h : idx < s.ram_table.length then
        if skip = some idx then gcCopySizes s skip fuel (idx + 1)
        else
          sizeOfEntry s (s.ram_table.get ⟨idx, h⟩) +
            gcCopySizes s skip fuel (idx + 1)
      else 0 := rfl

/-- Unfolding equations of skipSize. -/
theorem skipSize_none (s : KVState) (idx : Nat) :
    skipSize s none idx = 0 := rfl

theorem skipSize_some (s : KVState) (k idx : Nat) :
    skipSize s (some k) idx =
      if idx ≤ k then
        match s.ram_table.get? k with
        | some e => sizeOfEntry s e
        | none => 0
      else 0 := rfl

/-- A skipped position past the end of the table contributes nothing. -/
theorem skipSize_out (s : KVState) (skip : Option Nat) (idx : Nat)
    (h : s.ram_table.length ≤ idx) : skipSize s skip idx = 0 := by
  cases skip with
  | none => rfl
  | some k =>
    rw [skipSize_some]
    split
    · rw [List.get?_eq_none.mpr (by omega)]
    · rfl

/-- The copy total plus the skipped contribution account for every entry
from idx on. -/
theorem gcCopySizes_eq (s : KVState) (skip : Option Nat) :
    ∀ (fuel idx : Nat), s.ram_table.length ≤ fuel + idx →
    gcCopySizes s skip fuel idx + skipSize s skip idx =
      ((s.ram_table.drop idx).map (sizeOfEntry s)).sum := by
  intro fuel
  induction fuel with
  | zero =>
    intro idx hfuel
    rw [List.drop_eq_nil_of_le (by omega), skipSize_out s skip idx (by omega)]
    rfl
  | succ fuel ih =>
    intro idx hfuel
    unfold gcCopySizes
    split
    · rename_i hlt
      have hdrop : s.ram_table.drop idx =
          s.ram_table.get ⟨idx, hlt⟩ :: s.ram_table.drop (idx + 1) := by
        rw [List.drop_eq_getElem_cons hlt]
        rfl
      rw [hdrop]
      simp only [List.map_cons, List.sum_cons]
      have hrec := ih (idx + 1) (by omega)
      split
      · rename_i hskip
        subst hskip
        have hsk1 : skipSize s (some idx) idx =
            sizeOfEntry s (s.ram_table.get ⟨idx, hlt⟩) := by
          rw [skipSize_some, if_pos (le_refl idx), List.get?_eq_get hlt]
        have hsk2 : skipSize s (some idx) (idx + 1) = 0 := by
          rw [skipSize_some, if_neg (by omega)]
        rw [hsk2] at hrec
        rw [hsk1]
        omega
      · rename_i hskip
        have hsk : skipSize s skip (idx + 1) = skipSize s skip idx := by
          cases skip with
          | none => rfl
          | some k =>
            have hk : k ≠ idx := fun hcontra => hskip (by rw [hcontra])
            rw [skipSize_some, skipSize_some]
            by_cases hle : idx ≤ k
            · rw [if_pos (by omega), if_pos hle]
            · rw [if_neg (by omega), if_neg hle]
        omega
    · rename_i hge
      rw [List.drop_eq_nil_of_le (by omega),
        skipSize_out s skip idx (by omega)]
      rfl

/-- The copy total is invariant under state changes that preserve the table
entries and their record sizes from idx on. -/
theorem gcCopySizes_congr (s s2 : KVState) (skip : Option Nat)
    (hlen : s2.ram_table.length = s.ram_table.length) :
    ∀ (fuel idx : Nat),
    (∀ (j : Nat) (hj : j < s.ram_table.length)
      (hj2 : j < s2.ram_table.length), idx ≤ j →
      s2.ram_table.get ⟨j, hj2⟩ = s.ram_table.get ⟨j, hj⟩ ∧
        sizeOfEntry s2 (s2.ram_table.get ⟨j, hj2⟩) =
          sizeOfEntry s (s.ram_table.get ⟨j, hj⟩)) →
    gcCopySizes s2 skip fuel idx = gcCopySizes s skip fuel idx := by
  intro fuel
  induction fuel with
  | zero => intro idx _; rfl
  | succ fuel ih =>
    intro idx hsame
    unfold gcCopySizes
    by_cases hlt : idx < s.ram_table.length
    · rw [dif_pos hlt, dif_pos (by omega)]
      obtain ⟨hget, hsize⟩ := hsame idx hlt (by omega) (le_refl idx)
      have hrec := ih (idx + 1) (fun j hj hj2 hle => hsame j hj hj2 (by omega))
      split
      · exact hrec
      · rw [hrec, hsize]
    · rw [dif_neg hlt, dif_neg (by omega)]

/-- Reading back the entry a set wrote. -/
theorem get_set_self (a : RamEntry) : ∀ (l : List RamEntry) (i : Nat)
    (h : i < (l.set i a).length), (l.set i a).get ⟨i, h⟩ = a := by
  intro l
  induction l with
  | nil => intro i h; simp at h
  | cons x xs ih =>
    intro i h
    cases i with
    | zero => rfl
    | succ i => exact ih i (by simpa using h)

/-- Entries other than the set position are unchanged. -/
theorem get_set_ne (a : RamEntry) : ∀ (l : List RamEntry) (i j : Nat),
    i ≠ j → ∀ (h2 : j < (l.set i a).length) (h1 : j < l.length),
    (l.set i a).get ⟨j, h2⟩ = l.get ⟨j, h1⟩ := by
  intro l
  induction l with
  | nil => intro i j hne h2 h1; simp at h1
  | cons x xs ih =>
    intro i j hne h2 h1
    cases i with
    | zero =>
      cases j with
      | zero => exact absurd rfl hne
      | succ j => rfl
    | succ i =>
      cases j with
      | zero => rfl
      | succ j => exact ih i j (by omega) (by simpa using h2) (by simpa using h1)

/-- Media lookup through the erase filter: addresses outside the erased
window read as before, addresses inside it read as erased. -/
theorem mlookup_erased (m : List (Nat × Record)) (a lim x : Nat) :
    mlookup (m.filter (fun p => decide (p.1 < a ∨ a + lim ≤ p.1))) x =
      if x < a ∨ a + lim ≤ x then mlookup m x else none := by
  induction m with
  | nil => simp [mlookup]
  | cons p m ih =>
    rcases p with ⟨addr, r⟩
    by_cases hq : addr < a ∨ a + lim ≤ addr
    · rw [List.filter_cons_of_pos (by simpa using hq), mlookup_cons,
        mlookup_cons]
      by_cases hx : x = addr
      · subst hx
        rw [if_pos rfl, if_pos rfl, if_pos hq]
      · rw [if_neg hx, if_neg hx, ih]
    · rw [List.filter_cons_of_neg (by simpa using hq), ih, mlookup_cons]
      by_cases hx : x = addr
      · subst hx
        rw [if_pos rfl, if_neg hq, if_neg hq]
      · rw [if_neg hx]

/-- Inversion of a successful record copy whose source address is programmed:
the destination offset advances by the padded size of the source record,
which still fits the area, and the record is programmed at the destination
address. -/
theorem copy_record_ok (st : KVState) (sa so da dof : Nat) (df : Option Nat)
    (st1 : KVState) (next : Nat)
    (h : _mtb_kvstore_copy_record st sa so da dof df = (none, st1, next))
    (hl : (mlookup st.media (sa + so)).isSome) :
    ∃ r, mlookup st.media (sa + so) = some r ∧
      next = dof + _mtb_kvstore_get_record_size st.prog_size
        r.header.key_size r.header.data_size ∧
      next ≤ areaSize st ∧
      st1 = { st with media := (da + dof, r) :: st.media } := by
  unfold _mtb_kvstore_copy_record at h
  cases df with
  | some c => injection h with h1 h2; simp at h1
  | none =>
    cases hm : mlookup st.media (sa + so) with
    | none => rw [hm] at hl; simp at hl
    | some r =>
      rw [hm] at h
      dsimp only at h
      split at h
      · injection h with h1 h2; simp at h1
      · rename_i harea
        injection h with h1 h2
        injection h2 with h2 h3
        exact ⟨r, rfl, h3.symm, by omega, h2.symm⟩

/-- Full characterization of a successful compactor copy loop, run from a
state whose area geometry is A (active), G (spare), asz (area size), prog
(program size): the table length is preserved; entries before idx and the
skipped entry are untouched; every other entry keeps its hash and is
redirected to a fresh spare-area offset in [dst, d) at which the spare area
now holds exactly the record its old offset pointed at; media outside
[G + dst, G + asz) is untouched; and the final destination offset d is dst
plus the total padded size of the copied records, bounded by the area
size. -/
theorem gcCopyLoop_char (dev : GcDev) (skip : Option Nat)
    (A G asz prog : Nat) :
    ∀ (fuel : Nat) (s : KVState) (idx dst : Nat) (stO : KVState) (d : Nat),
    gcCopyLoop dev skip fuel s idx dst = (none, stO, d) →
    s.active_area_addr = A → s.gc_area_addr = G → areaSize s = asz →
    s.prog_size = prog → 0 < prog →
    s.ram_table.length ≤ fuel + idx →
    (∀ (j : Nat) (hj : j < s.ram_table.length), idx ≤ j →
      (s.ram_table.get ⟨j, hj⟩).offset < asz) →
    (∀ (j : Nat) (hj : j < s.ram_table.length), idx ≤ j → skip ≠ some j →
      (mlookup s.media (A + (s.ram_table.get ⟨j, hj⟩).offset)).isSome) →
    (∀ x y : Nat, x < asz → y < asz → A + x ≠ G + y) →
    stO.ram_table.length = s.ram_table.length ∧
    (∀ (j : Nat) (hj : j < s.ram_table.length)
      (hj2 : j < stO.ram_table.length), j < idx ∨ skip = some j →
      stO.ram_table.get ⟨j, hj2⟩ = s.ram_table.get ⟨j, hj⟩) ∧
    (∀ (j : Nat) (hj : j < s.ram_table.length)
      (hj2 : j < stO.ram_table.length), idx ≤ j → skip ≠ some j →
      (stO.ram_table.get ⟨j, hj2⟩).hash = (s.ram_table.get ⟨j, hj⟩).hash ∧
      dst ≤ (stO.ram_table.get ⟨j, hj2⟩).offset ∧
      (stO.ram_table.get ⟨j, hj2⟩).offset < d ∧
      mlookup stO.media (G + (stO.ram_table.get ⟨j, hj2⟩).offset) =
        mlookup s.media (A + (s.ram_table.get ⟨j, hj⟩).offset)) ∧
    (∀ a : Nat, a < G + dst ∨ G + asz ≤ a →
      mlookup stO.media a = mlookup s.media a) ∧
    dst ≤ d ∧ d ≤ max dst asz ∧
    d = dst + gcCopySizes s skip fuel idx := by
  intro fuel
  induction fuel with
  | zero =>
    intro s idx dst stO d h hA hG hasz hprog hp hfuel hoffs hlook hdisj
    injection h with h1 h2
    injection h2 with h2 h3
    subst h2
    subst h3
    refine ⟨rfl, fun j hj hj2 _ => rfl,
      fun j hj hj2 hle hsk => absurd hj (by omega),
      fun a _ => rfl, le_refl _, le_max_left _ _, by simp [gcCopySizes]⟩
  | succ fuel ih =>
    intro s idx dst stO d h hA hG hasz hprog hp hfuel hoffs hlook hdisj
    unfold gcCopyLoop at h
    split at h
    · rename_i hlt
      split at h
      · rename_i hskipEq
        have hrec := ih s (idx + 1) dst stO d h hA hG hasz hprog hp
          (by omega) (fun j hj hle => hoffs j hj (by omega))
          (fun j hj hle hsk => hlook j hj (by omega) hsk) hdisj
        obtain ⟨hc1, hc2, hc3, hc4, hc5, hc6, hc7⟩ := hrec
        refine ⟨hc1, ?_, ?_, hc4, hc5, hc6, ?_⟩
        · intro j hj hj2 hor
          rcases hor with hjlt | hjsk
          · exact hc2 j hj hj2 (Or.inl (by omega))
          · exact hc2 j hj hj2 (Or.inr hjsk)
        · intro j hj hj2 hle hsk
          have hne : j ≠ idx := by
            intro he
            exact hsk (by rw [hskipEq, he])
          exact hc3 j hj hj2 (by omega) hsk
        · have hgc : gcCopySizes s skip (fuel + 1) idx =
              gcCopySizes s skip fuel (idx + 1) := by
            rw [gcCopySizes_succ, dif_pos hlt, if_pos hskipEq]
          omega
      · rename_i hskipNe
        dsimp only at h
        split at h
        · rename_i e1 st1 d1 hc
          injection h with h1 h2
          simp at h1
        · rename_i st1 next hc
          have hlIdx : (mlookup s.media
              (s.active_area_addr +
                (s.ram_table.get ⟨idx, hlt⟩).offset)).isSome := by
            rw [hA]
            exact hlook idx hlt (le_refl idx) hskipNe
          obtain ⟨r, hm, hnext, hb, hst1⟩ := copy_record_ok s
            s.active_area_addr (s.ram_table.get ⟨idx, hlt⟩).offset
            s.gc_area_addr dst (dev.copyFail idx) st1 next hc hlIdx
          subst hst1
          have h2 : gcCopyLoop dev skip fuel
              { s with
                media := (s.gc_area_addr + dst, r) :: s.media
                ram_table := s.ram_table.set idx
                  { s.ram_table.get ⟨idx, hlt⟩ with offset := dst } }
              (idx + 1) next = (none, stO, d) := h
          have hrs : 0 < _mtb_kvstore_get_record_size s.prog_size
              r.header.key_size r.header.data_size :=
            get_record_size_pos _ _ _ (by rw [hprog]; exact hp)
          have hbz : next ≤ asz := by rw [← hasz]; exact hb
          have hdstlt : dst < asz := by omega
          have hrec := ih _ (idx + 1) next stO d h2
            (by dsimp only; exact hA) (by dsimp only; exact hG)
            (by dsimp only [areaSize] at hasz ⊢; exact hasz)
            (by dsimp only; exact hprog) hp
            (by dsimp only; rw [List.length_set]; omega)
            (by
              intro j hj hle
              dsimp only at hj ⊢
              have hj' : j < s.ram_table.length := by
                rw [List.length_set] at hj; exact hj
              rw [get_set_ne _ s.ram_table idx j (by omega) hj hj']
              exact hoffs j hj' (by omega))
            (by
              intro j hj hle hsk
              dsimp only at hj ⊢
              have hj' : j < s.ram_table.length := by
                rw [List.length_set] at hj; exact hj
              rw [get_set_ne _ s.ram_table idx j (by omega) hj hj',
                mlookup_cons]
              split
              · rfl
              · exact hlook j hj' (by omega) hsk)
            hdisj
          obtain ⟨hc1, hc2, hc3, hc4, hc5, hc6, hc7⟩ := hrec
          dsimp only at hc1 hc2 hc3 hc4 hc7
          rw [List.length_set] at hc1
          have hlen2 : ∀ j, j < s.ram_table.length →
              j < (s.ram_table.set idx
                { s.ram_table.get ⟨idx, hlt⟩ with offset := dst }).length := by
            intro j hj
            rw [List.length_set]
            exact hj
          refine ⟨hc1, ?_, ?_, ?_, by omega, by omega, ?_⟩
          · -- untouched entries
            intro j hj hj2 hor
            have hne : idx ≠ j := by
              intro he
              rcases hor with hjlt | hjsk
              · omega
              · exact hskipNe (by rw [hjsk, he])
            have hor2 : j < idx + 1 ∨ skip = some j := by
              rcases hor with hjlt | hjsk
              · exact Or.inl (by omega)
              · exact Or.inr hjsk
            rw [hc2 j (hlen2 j hj) hj2 hor2]
            exact get_set_ne _ s.ram_table idx j hne (hlen2 j hj) hj
          · -- copied entries
            intro j hj hj2 hle hsk
            by_cases hje : j = idx
            · subst hje
              have hgetO : stO.ram_table.get ⟨j, hj2⟩ =
                  { s.ram_table.get ⟨j, hlt⟩ with offset := dst } := by
                rw [hc2 j (hlen2 j hj) hj2 (Or.inl (by omega))]
                exact get_set_self _ s.ram_table j (hlen2 j hj)
              rw [hgetO]
              refine ⟨rfl, le_refl _, by dsimp only; omega, ?_⟩
              dsimp only
              have hlow := hc4 (G + dst) (Or.inl (by omega))
              rw [hlow, mlookup_cons, hG, if_pos rfl]
              rw [hA] at hm
              exact hm.symm
            · have hj2' := hlen2 j hj
              have hstep := hc3 j hj2' hj2 (by omega) hsk
              rw [get_set_ne _ s.ram_table idx j (by omega) hj2' hj] at hstep
              obtain ⟨hh, hlo, hhi, hmed⟩ := hstep
              refine ⟨hh, by omega, hhi, ?_⟩
              rw [hmed, mlookup_cons, hG,
                if_neg (hdisj _ _ (hoffs j hj (by omega)) hdstlt)]
          · -- media below dst and outside the area
            intro a ha
            have := hc4 a (by omega)
            rw [this, mlookup_cons, hG, if_neg (by omega)]
          · -- destination accounting
            have hgc : gcCopySizes s skip (fuel + 1) idx =
                sizeOfEntry s (s.ram_table.get ⟨idx, hlt⟩) +
                  gcCopySizes s skip fuel (idx + 1) := by
              rw [gcCopySizes_succ, dif_pos hlt, if_neg hskipNe]
            have hsz : sizeOfEntry s (s.ram_table.get ⟨idx, hlt⟩) =
                _mtb_kvstore_get_record_size s.prog_size
                  r.header.key_size r.header.data_size := by
              unfold sizeOfEntry entryRecord
              rw [hm]
            have hcongr : gcCopySizes
                { s with
                  media := (s.gc_area_addr + dst, r) :: s.media
                  ram_table := s.ram_table.set idx
                    { s.ram_table.get ⟨idx, hlt⟩ with offset := dst } }
                skip fuel (idx + 1) = gcCopySizes s skip fuel (idx + 1) := by
              apply gcCopySizes_congr
              · dsimp only
                rw [List.length_set]
              · intro j hj hj2 hle
                dsimp only at hj2 ⊢
                have hj2n : j < s.ram_table.length := by
                  rw [List.length_set] at hj2; exact hj2
                have hget := get_set_ne
                  ({ s.ram_table.get ⟨idx, hlt⟩ with offset := dst })
                  s.ram_table idx j (by omega) hj2 hj2n
                refine ⟨hget, ?_⟩
                rw [hget]
                unfold sizeOfEntry entryRecord
                dsimp only
                rw [mlookup_cons, hA, hG,
                  if_neg (hdisj _ _ (hoffs j hj (by omega)) hdstlt), ← hA]
            rw [hcongr] at hc7
            omega
    · rename_i hge
      injection h with h1 h2
      injection h2 with h2 h3
      subst h2
      subst h3
      refine ⟨rfl, fun j hj hj2 _ => rfl,
        fun j hj hj2 hle hsk => absurd hj (by omega),
        fun a _ => rfl, le_refl _, le_max_left _ _, ?_⟩
      rw [gcCopySizes_succ, dif_neg hge]
      omega

/-! Facts about the CRC, the records the writer builds, and the success
shapes of the low-level media operations. -/

/-- The CRC of the empty byte sequence is the (already masked) running
value. -/
theorem crc16_nil (c : Nat) (h : c < 65536) : _mtb_kvstore_crc16 [] c = c := by
  unfold _mtb_kvstore_crc16
  show c &&& 0xFFFF = c
  have h2 := Nat.and_pow_two_sub_one_eq_mod c 16
  norm_num at h2
  rw [h2]
  omega

/-- Every record the writer builds is fully well-formed: the reader's CRC
recomputation matches the stored CRC, and the header sizes agree with the
key and payload lengths. -/
theorem setup_record_wf (key : List Nat) (dataPtr : Option (List Nat))
    (size : Nat) (op : KvOp) (hk0 : 0 < key.length)
    (hk1 : key.length < MAX_KEY_SIZE)
    (hdata : dataPtr = none ∧ size = 0 ∨
      ∃ B, dataPtr = some B ∧ B.length = size) :
    wfRecord ⟨_mtb_kvstore_setup_record_header key dataPtr size op, key,
      dataPtr.getD []⟩ := by
  refine ⟨⟨rfl, hk0, hk1, ?_⟩, rfl, ?_⟩
  · show _mtb_kvstore_get_record_crc _ key dataPtr = _
    rcases hdata with ⟨hnone, hzero⟩ | ⟨B, hsome, hlen⟩
    · subst hnone
      subst hzero
      unfold _mtb_kvstore_get_record_crc
      dsimp only [Option.getD]
      rw [crc16_nil _ (crc16_lt _ _)]
      rfl
    · subst hsome
      unfold _mtb_kvstore_get_record_crc
      dsimp only [Option.getD]
      by_cases hsz : size = 0
      · have hB : B = [] := List.length_eq_zero.mp (by omega)
        subst hB
        rw [if_neg (by simp [hsz]), crc16_nil _ (crc16_lt _ _)]
        rfl
      · rw [if_pos hsz]
        rfl
  · show size = (dataPtr.getD []).length
    rcases hdata with ⟨hnone, hzero⟩ | ⟨B, hsome, hlen⟩
    · subst hnone; subst hzero; rfl
    · subst hsome; simpa using hlen.symm

/-- A successful area erase removes exactly the bindings inside the area. -/
theorem erase_area_ok (st : KVState) (a : Nat) (df : Option Nat)
    (st1 : KVState)
    (h : _mtb_kvstore_erase_area st a df = (none, st1)) :
    st1 = { st with
      media := st.media.filter
        (fun p => decide (p.1 < a ∨ a + areaSize st ≤ p.1)) } := by
  unfold _mtb_kvstore_erase_area at h
  cases df with
  | some c => injection h with h1 h2; simp at h1
  | none => injection h with h1 h2; exact h2.symm

/-- The record the anchor writer programs. -/
def anchorRecord (v : Nat) : Record :=
  ⟨_mtb_kvstore_setup_record_header areaRecKey (some (areaRecData v)) 4
    KvOp.add, areaRecKey, areaRecData v⟩

/-- A successful anchor write programs the anchor record at offset 0 of the
area and changes nothing else. -/
theorem write_area_record_ok (st : KVState) (a v : Nat) (df : Option Nat)
    (st1 : KVState)
    (h : _mtb_kvstore_write_area_record st a v df = (none, st1)) :
    st1 = { st with media := (a + 0, anchorRecord v) :: st.media } := by
  unfold _mtb_kvstore_write_area_record _mtb_kvstore_write_record at h
  cases df with
  | some c => injection h with h1 h2; simp at h1
  | none =>
    dsimp only at h
    rw [if_neg (by omega)] at h
    injection h with h1 h2
    exact h2.symm

/-- A successful non-anchor record write programs the written record at the
target address and applies the RAM-table and consumed-size updates. -/
theorem write_record_ok (st : KVState) (a off : Nat) (key : List Nat)
    (dp : Option (List Nat)) (ds : Nat) (op : KvOp) (rti : RamTblInfo)
    (si : SizeInfo) (df : Option Nat) (st1 : KVState) (hoff : off ≠ 0)
    (h : _mtb_kvstore_write_record st a off key dp ds op (some (rti, si))
      df = (none, st1)) :
    st1 = { st with
      media := (a + off,
        ⟨_mtb_kvstore_setup_record_header key dp ds op, key, dp.getD []⟩)
          :: st.media
      ram_table := _mtb_kvstore_update_ram_table st.ram_table op
        rti.ram_tbl_idx rti.entry
      consumed_size := _mtb_kvstore_update_consumed_size st.consumed_size op
        si.old_record_size si.new_record_size } := by
  unfold _mtb_kvstore_write_record at h
  cases df with
  | some c => injection h with h1 h2; simp at h1
  | none =>
    dsimp only at h
    rw [if_pos hoff] at h
    injection h with h1 h2
    exact h2.symm

/-! Sums of entry sizes under the RAM-table operations, and transfer of the
pairwise invariants along an index correspondence. -/

theorem map_sum_insertIdx (f : RamEntry → Nat) (a : RamEntry) :
    ∀ (l : List RamEntry) (i : Nat), i ≤ l.length →
    ((l.insertIdx i a).map f).sum = (l.map f).sum + f a := by
  intro l
  induction l with
  | nil =>
    intro i h
    have : i = 0 := by simpa using h
    subst this
    simp
  | cons x xs ih =>
    intro i h
    cases i with
    | zero => simp [Nat.add_comm]
    | succ i =>
      have hrec := ih i (by simpa using h)
      show ((x :: xs.insertIdx i a).map f).sum = _
      simp only [List.map_cons, List.sum_cons]
      omega

theorem map_sum_set (f : RamEntry → Nat) (a : RamEntry) :
    ∀ (l : List RamEntry) (i : Nat) (h : i < l.length),
    ((l.set i a).map f).sum + f (l.get ⟨i, h⟩) = (l.map f).sum + f a := by
  intro l
  induction l with
  | nil => intro i h; simp at h
  | cons x xs ih =>
    intro i h
    cases i with
    | zero => simp [Nat.add_comm, Nat.add_assoc, Nat.add_left_comm]
    | succ i =>
      have hrec := ih i (by simpa using h)
      show ((x :: xs.set i a).map f).sum + f (xs.get ⟨i, _⟩) = _
      simp only [List.map_cons, List.sum_cons]
      omega

theorem map_sum_eraseIdx (f : RamEntry → Nat) :
    ∀ (l : List RamEntry) (i : Nat) (h : i < l.length),
    ((l.eraseIdx i).map f).sum + f (l.get ⟨i, h⟩) = (l.map f).sum := by
  intro l
  induction l with
  | nil => intro i h; simp at h
  | cons x xs ih =>
    intro i h
    cases i with
    | zero => simp [Nat.add_comm]
    | succ i =>
      have hrec := ih i (by simpa using h)
      show ((x :: xs.eraseIdx i).map f).sum + f (xs.get ⟨i, _⟩) = _
      simp only [List.map_cons, List.sum_cons]
      omega

theorem map_sum_congr_mem (l : List RamEntry) (f g : RamEntry → Nat)
    (h : ∀ e ∈ l, f e = g e) : (l.map f).sum = (l.map g).sum := by
  induction l with
  | nil => rfl
  | cons x xs ih =>
    simp only [List.map_cons, List.sum_cons]
    rw [h x (by simp), ih (fun e he => h e (by simp [he]))]

theorem map_sum_corresp (l1 l2 : List RamEntry) (f g : RamEntry → Nat)
    (hlen : l2.length = l1.length)
    (h : ∀ (j : Nat) (hj1 : j < l1.length) (hj2 : j < l2.length),
      g (l2.get ⟨j, hj2⟩) = f (l1.get ⟨j, hj1⟩)) :
    (l2.map g).sum = (l1.map f).sum := by
  induction l1 generalizing l2 with
  | nil =>
    have : l2 = [] := List.length_eq_zero.mp (by simpa using hlen)
    subst this
    rfl
  | cons x xs ih =>
    cases l2 with
    | nil => simp at hlen
    | cons y ys =>
      simp only [List.map_cons, List.sum_cons]
      have h0 := h 0 (by simp) (by simp)
      have hrec := ih ys (by simpa using hlen)
        (fun j hj1 hj2 => h (j + 1) (by simpa using hj1) (by simpa using hj2))
      simp only [List.get] at h0
      omega

/-- Transfer of a pairwise invariant along an index correspondence. -/
theorem pairwise_of_corresp (R S : RamEntry → RamEntry → Prop)
    (l1 l2 : List RamEntry) (hlen : l2.length = l1.length)
    (h : ∀ (i j : Nat) (hi1 : i < l1.length) (hj1 : j < l1.length)
      (hi2 : i < l2.length) (hj2 : j < l2.length), i < j →
      R (l1.get ⟨i, hi1⟩) (l1.get ⟨j, hj1⟩) →
      S (l2.get ⟨i, hi2⟩) (l2.get ⟨j, hj2⟩))
    (hp : l1.Pairwise R) : l2.Pairwise S := by
  rw [List.pairwise_iff_get] at hp ⊢
  intro i j hij
  exact h i j (by omega) (by omega) i.isLt j.isLt hij
    (hp ⟨i, by omega⟩ ⟨j, by omega⟩ hij)

/-- Weakening of a pairwise invariant over the members of a list. -/
theorem pairwise_imp (R S : RamEntry → RamEntry → Prop) :
    ∀ l : List RamEntry, (∀ a ∈ l, ∀ b ∈ l, R a b → S a b) →
    l.Pairwise R → l.Pairwise S := by
  intro l
  induction l with
  | nil => intro _ _; simp
  | cons x xs ih =>
    intro h hp
    obtain ⟨hx, hxs⟩ := List.pairwise_cons.mp hp
    refine List.pairwise_cons.mpr ⟨?_, ?_⟩
    · intro b hb
      exact h x (by simp) b (by simp [hb]) (hx b hb)
    · exact ih (fun a ha b hb hr => h a (by simp [ha]) b (by simp [hb]) hr)
        hxs

/-! Characterization of a successful compaction, per pending-mutation
case. -/

/-- Plain compaction (no pending mutation): the areas swap, the version
increments, consumed_size is untouched, free_space_offset becomes the anchor
size plus the total padded size of the indexed records, and every index entry
keeps its hash and is redirected to a fresh in-bounds offset of the new
active area holding exactly the record it pointed at before. -/
theorem gc_none_ok (s : KVState) (dev : GcDev) (s2 : KVState)
    (h : _mtb_kvstore_garbage_collection s none dev = (none, s2))
    (hprog : 0 < s.prog_size)
    (hlay : s.active_area_addr = s.start_addr ∧
        s.gc_area_addr = s.start_addr + areaSize s ∨
      s.active_area_addr = s.start_addr + areaSize s ∧
        s.gc_area_addr = s.start_addr)
    (hanchor : anchorRecordSize s.prog_size ≤ areaSize s)
    (hoffs : ∀ e ∈ s.ram_table, e.offset < areaSize s)
    (hok : ∀ e ∈ s.ram_table, (entryRecord s e).isSome) :
    s2.start_addr = s.start_addr ∧ s2.length = s.length ∧
    s2.prog_size = s.prog_size ∧ s2.erase_size = s.erase_size ∧
    s2.active_area_addr = s.gc_area_addr ∧
    s2.gc_area_addr = s.active_area_addr ∧
    s2.consumed_size = s.consumed_size ∧
    s2.active_area_version = (s.active_area_version + 1) % 65536 ∧
    s2.free_space_offset =
      anchorRecordSize s.prog_size + (s.ram_table.map (sizeOfEntry s)).sum ∧
    s2.free_space_offset ≤ areaSize s ∧
    s2.ram_table.length = s.ram_table.length ∧
    (∀ (j : Nat) (hj : j < s.ram_table.length)
      (hj2 : j < s2.ram_table.length),
      (s2.ram_table.get ⟨j, hj2⟩).hash = (s.ram_table.get ⟨j, hj⟩).hash ∧
      0 < (s2.ram_table.get ⟨j, hj2⟩).offset ∧
      (s2.ram_table.get ⟨j, hj2⟩).offset < s2.free_space_offset ∧
      entryRecord s2 (s2.ram_table.get ⟨j, hj2⟩) =
        entryRecord s (s.ram_table.get ⟨j, hj⟩)) := by
  have hdisj : ∀ x y : Nat, x < areaSize s → y < areaSize s →
      s.active_area_addr + x ≠ s.gc_area_addr + y := by
    rcases hlay with ⟨h1, h2⟩ | ⟨h1, h2⟩ <;> (intro x y hx hy; omega)
  have hkept : ∀ off : Nat, off < areaSize s →
      s.active_area_addr + off < s.gc_area_addr ∨
        s.gc_area_addr + areaSize s ≤ s.active_area_addr + off := by
    rcases hlay with ⟨h1, h2⟩ | ⟨h1, h2⟩ <;> (intro off hoff; omega)
  have hanchor0 : 0 < anchorRecordSize s.prog_size :=
    anchorRecordSize_pos _ hprog
  unfold _mtb_kvstore_garbage_collection at h
  dsimp only at h
  rw [if_neg (by simp)] at h
  split at h
  · rename_i e1 st1 herase
    injection h with h1 h2
    simp at h1
  · rename_i st1 herase
    have hst1 := erase_area_ok _ _ _ _ herase
    subst hst1
    dsimp only at h
    split at h
    · rename_i e2 st2 d2 hloop
      injection h with h1 h2
      simp at h1
    · rename_i st2 dst1 hloop
      obtain ⟨m2, t2, hshape⟩ := gcCopyLoop_shape dev _ _ _ _ _ _ _ _ hloop
      subst hshape
      have hchar := gcCopyLoop_char dev none s.active_area_addr
        s.gc_area_addr (areaSize s) s.prog_size _ _ 0
        (anchorRecordSize s.prog_size) _ dst1 hloop rfl rfl rfl rfl hprog
        (by dsimp only; omega)
        (by
          intro j hj hle
          dsimp only at hj ⊢
          exact hoffs _ (List.get_mem _ _ _))
        (by
          intro j hj hle hsk
          dsimp only at hj ⊢
          rw [mlookup_erased]
          rw [if_pos (hkept _ (hoffs _ (List.get_mem _ _ _)))]
          have := hok _ (List.get_mem s.ram_table j hj)
          unfold entryRecord at this
          exact this)
        hdisj
      obtain ⟨hc1, hc2, hc3, hc4, hc5, hc6, hc7⟩ := hchar
      dsimp only at hc1 hc3 hc4 hc7 h
      split at h
      · rename_i e4 st5 hanch
        injection h with h1 h2
        simp at h1
      · rename_i st5 hanch
        have hst5 := write_area_record_ok _ _ _ _ _ hanch
        subst hst5
        injection h with h1 h2
        subst h2
        have hsizes : gcCopySizes
            { s with
              media := s.media.filter
                (fun p => decide (p.1 < s.gc_area_addr ∨
                  s.gc_area_addr + areaSize s ≤ p.1)) }
            none s.ram_table.length 0 =
            (s.ram_table.map (sizeOfEntry s)).sum := by
          have hcongr := gcCopySizes_congr s
            { s with
              media := s.media.filter
                (fun p => decide (p.1 < s.gc_area_addr ∨
                  s.gc_area_addr + areaSize s ≤ p.1)) }
            none rfl s.ram_table.length 0
            (by
              intro j hj hj2 _
              refine ⟨rfl, ?_⟩
              unfold sizeOfEntry entryRecord
              dsimp only
              rw [mlookup_erased,
                if_pos (hkept _ (hoffs _ (List.get_mem _ _ _)))])
          rw [hcongr]
          have heq := gcCopySizes_eq s none s.ram_table.length 0 (by omega)
          rw [skipSize_none, List.drop_zero] at heq
          omega
        have hfs : dst1 = anchorRecordSize s.prog_size +
            (s.ram_table.map (sizeOfEntry s)).sum := by
          rw [hc7, hsizes]
        refine ⟨rfl, rfl, rfl, rfl, rfl, rfl, rfl, rfl, hfs,
          by dsimp only; omega, hc1, ?_⟩
        intro j hj hj2
        have hstep := hc3 j hj hj2 (by omega) (by simp)
        obtain ⟨hh, hlo, hhi, hmed⟩ := hstep
        refine ⟨hh, by dsimp only; omega, hhi, ?_⟩
        show mlookup _ _ = entryRecord s (s.ram_table.get ⟨j, hj⟩)
        dsimp only
        rw [mlookup_cons, if_neg (by omega), hmed, mlookup_erased,
          if_pos (hkept _ (hoffs _ (List.get_mem _ _ _)))]
        rfl

/-- Removing an index entry keeps the list length plus one. -/
theorem length_eraseIdx_add_one : ∀ (l : List RamEntry) (i : Nat),
    i < l.length → (l.eraseIdx i).length + 1 = l.length := by
  intro l
  induction l with
  | nil => intro i h; simp at h
  | cons x xs ih =>
    intro i h
    cases i with
    | zero => rfl
    | succ i =>
      show ((x :: xs.eraseIdx i).length) + 1 = _
      have := ih i (by simpa using h)
      simp only [List.length_cons]
      omega

/-- Entries before the removed position are unchanged. -/
theorem get_eraseIdx_lt : ∀ (l : List RamEntry) (i j : Nat), j < i →
    ∀ (hj2 : j < (l.eraseIdx i).length) (hj : j < l.length),
    (l.eraseIdx i).get ⟨j, hj2⟩ = l.get ⟨j, hj⟩ := by
  intro l
  induction l with
  | nil => intro i j hji hj2 hj; simp at hj
  | cons x xs ih =>
    intro i j hji hj2 hj
    cases i with
    | zero => omega
    | succ i =>
      cases j with
      | zero => rfl
      | succ j =>
        exact ih i j (by omega) (by simpa using hj2) (by simpa using hj)

/-- Entries at or after the removed position shift down by one. -/
theorem get_eraseIdx_ge : ∀ (l : List RamEntry) (i j : Nat), i ≤ j →
    ∀ (hj2 : j < (l.eraseIdx i).length) (hj : j + 1 < l.length),
    (l.eraseIdx i).get ⟨j, hj2⟩ = l.get ⟨j + 1, hj⟩ := by
  intro l
  induction l with
  | nil => intro i j hij hj2 hj; simp at hj
  | cons x xs ih =>
    intro i j hij hj2 hj
    cases i with
    | zero => rfl
    | succ i =>
      cases j with
      | zero => omega
      | succ j =>
        exact ih i j (by omega) (by simpa using hj2) (by simpa using hj)

/-- Compaction with a pending delete: the areas swap, consumed_size drops by
the declared old record size, the skipped entry disappears from the index,
and every surviving entry keeps its hash and is redirected to a fresh
in-bounds offset of the new active area holding exactly the record it pointed
at before; the new free_space_offset plus the skipped record's size accounts
for all previously indexed records. -/
theorem gc_delete_ok (s : KVState) (i : GcRecordInfo) (dev : GcDev)
    (s2 : KVState)
    (h : _mtb_kvstore_garbage_collection s (some i) dev = (none, s2))
    (hupd : i.update_rec_info = none)
    (hidx : i.ram_tbl_idx < s.ram_table.length)
    (hprog : 0 < s.prog_size)
    (hlay : s.active_area_addr = s.start_addr ∧
        s.gc_area_addr = s.start_addr + areaSize s ∨
      s.active_area_addr = s.start_addr + areaSize s ∧
        s.gc_area_addr = s.start_addr)
    (hanchor : anchorRecordSize s.prog_size ≤ areaSize s)
    (hoffs : ∀ e ∈ s.ram_table, e.offset < areaSize s)
    (hok : ∀ e ∈ s.ram_table, (entryRecord s e).isSome) :
    s2.start_addr = s.start_addr ∧ s2.length = s.length ∧
    s2.prog_size = s.prog_size ∧ s2.erase_size = s.erase_size ∧
    s2.active_area_addr = s.gc_area_addr ∧
    s2.gc_area_addr = s.active_area_addr ∧
    s2.consumed_size = s.consumed_size - i.size_info.old_record_size ∧
    s2.free_space_offset +
        sizeOfEntry s (s.ram_table.get ⟨i.ram_tbl_idx, hidx⟩) =
      anchorRecordSize s.prog_size + (s.ram_table.map (sizeOfEntry s)).sum ∧
    anchorRecordSize s.prog_size ≤ s2.free_space_offset ∧
    s2.free_space_offset ≤ areaSize s ∧
    s2.ram_table.length + 1 = s.ram_table.length ∧
    (∀ (j : Nat) (hj2 : j < s2.ram_table.length) (hj0 : j < s.ram_table.length),
      j < i.ram_tbl_idx →
        (s2.ram_table.get ⟨j, hj2⟩).hash = (s.ram_table.get ⟨j, hj0⟩).hash ∧
        0 < (s2.ram_table.get ⟨j, hj2⟩).offset ∧
        (s2.ram_table.get ⟨j, hj2⟩).offset < s2.free_space_offset ∧
        entryRecord s2 (s2.ram_table.get ⟨j, hj2⟩) =
          entryRecord s (s.ram_table.get ⟨j, hj0⟩)) ∧
    (∀ (j : Nat) (hj2 : j < s2.ram_table.length)
      (hj0 : j + 1 < s.ram_table.length), i.ram_tbl_idx ≤ j →
        (s2.ram_table.get ⟨j, hj2⟩).hash =
          (s.ram_table.get ⟨j + 1, hj0⟩).hash ∧
        0 < (s2.ram_table.get ⟨j, hj2⟩).offset ∧
        (s2.ram_table.get ⟨j, hj2⟩).offset < s2.free_space_offset ∧
        entryRecord s2 (s2.ram_table.get ⟨j, hj2⟩) =
          entryRecord s (s.ram_table.get ⟨j + 1, hj0⟩)) := by
  have hdisj : ∀ x y : Nat, x < areaSize s → y < areaSize s →
      s.active_area_addr + x ≠ s.gc_area_addr + y := by
    rcases hlay with ⟨h1, h2⟩ | ⟨h1, h2⟩ <;> (intro x y hx hy; omega)
  have hkept : ∀ off : Nat, off < areaSize s →
      s.active_area_addr + off < s.gc_area_addr ∨
        s.gc_area_addr + areaSize s ≤ s.active_area_addr + off := by
    rcases hlay with ⟨h1, h2⟩ | ⟨h1, h2⟩ <;> (intro off hoff; omega)
  have hanchor0 : 0 < anchorRecordSize s.prog_size :=
    anchorRecordSize_pos _ hprog
  unfold _mtb_kvstore_garbage_collection at h
  dsimp only at h
  rw [if_neg (by simp [hupd])] at h
  split at h
  · rename_i e1 st1 herase
    injection h with h1 h2
    simp at h1
  · rename_i st1 herase
    have hst1 := erase_area_ok _ _ _ _ herase
    subst hst1
    dsimp only at h
    split at h
    · rename_i e2 st2 d2 hloop
      injection h with h1 h2
      simp at h1
    · rename_i st2 dst1 hloop
      obtain ⟨m2, t2, hshape⟩ := gcCopyLoop_shape dev _ _ _ _ _ _ _ _ hloop
      subst hshape
      have hchar := gcCopyLoop_char dev (some i.ram_tbl_idx)
        s.active_area_addr s.gc_area_addr (areaSize s) s.prog_size _ _ 0
        (anchorRecordSize s.prog_size) _ dst1 hloop rfl rfl rfl rfl hprog
        (by dsimp only; omega)
        (by
          intro j hj hle
          dsimp only at hj ⊢
          exact hoffs _ (List.get_mem _ _ _))
        (by
          intro j hj hle hsk
          dsimp only at hj ⊢
          rw [mlookup_erased]
          rw [if_pos (hkept _ (hoffs _ (List.get_mem _ _ _)))]
          have := hok _ (List.get_mem s.ram_table j hj)
          unfold entryRecord at this
          exact this)
        hdisj
      obtain ⟨hc1, hc2, hc3, hc4, hc5, hc6, hc7⟩ := hchar
      dsimp only at hc1 hc3 hc4 hc7 h
      rw [hupd] at h
      dsimp only [_mtb_kvstore_update_ram_table,
        _mtb_kvstore_update_consumed_size] at h
      split at h
      · rename_i e4 st5 hanch
        injection h with h1 h2
        simp at h1
      · rename_i st5 hanch
        have hst5 := write_area_record_ok _ _ _ _ _ hanch
        subst hst5
        injection h with h1 h2
        subst h2
        have hsizes : gcCopySizes
            { s with
              media := s.media.filter
                (fun p => decide (p.1 < s.gc_area_addr ∨
                  s.gc_area_addr + areaSize s ≤ p.1)) }
            (some i.ram_tbl_idx) s.ram_table.length 0 +
            sizeOfEntry s (s.ram_table.get ⟨i.ram_tbl_idx, hidx⟩) =
            (s.ram_table.map (sizeOfEntry s)).sum := by
          have hcongr := gcCopySizes_congr s
            { s with
              media := s.media.filter
                (fun p => decide (p.1 < s.gc_area_addr ∨
                  s.gc_area_addr + areaSize s ≤ p.1)) }
            (some i.ram_tbl_idx) rfl s.ram_table.length 0
            (by
              intro j hj hj2 _
              refine ⟨rfl, ?_⟩
              unfold sizeOfEntry entryRecord
              dsimp only
              rw [mlookup_erased,
                if_pos (hkept _ (hoffs _ (List.get_mem _ _ _)))])
          rw [hcongr]
          have heq := gcCopySizes_eq s (some i.ram_tbl_idx)
            s.ram_table.length 0 (by omega)
          rw [skipSize_some, if_pos (by omega), List.get?_eq_get hidx,
            List.drop_zero] at heq
          dsimp only at heq
          omega
        have hlen2 : t2.length = s.ram_table.length := hc1
        refine ⟨rfl, rfl, rfl, rfl, rfl, rfl, rfl, ?_, ?_, ?_, ?_, ?_, ?_⟩
        · show dst1 + _ = _
          omega
        · show anchorRecordSize s.prog_size ≤ dst1
          omega
        · show dst1 ≤ areaSize s
          omega
        · show (t2.eraseIdx i.ram_tbl_idx).length + 1 = s.ram_table.length
          rw [length_eraseIdx_add_one t2 i.ram_tbl_idx (by omega)]
          exact hlen2
        · intro j hj2 hj0 hjlt
          dsimp only at hj2 ⊢
          have hjt2 : j < t2.length := by omega
          have hget : (t2.eraseIdx i.ram_tbl_idx).get ⟨j, hj2⟩ =
              t2.get ⟨j, hjt2⟩ :=
            get_eraseIdx_lt t2 i.ram_tbl_idx j hjlt hj2 hjt2
          have hstep := hc3 j hj0 hjt2 (by omega) (by simp; omega)
          obtain ⟨hh, hlo, hhi, hmed⟩ := hstep
          refine ⟨?_, ?_, ?_, ?_⟩
          · rw [hget]; exact hh
          · rw [hget]; omega
          · rw [hget]; exact hhi
          · rw [hget]
            show mlookup _ _ = entryRecord s (s.ram_table.get ⟨j, hj0⟩)
            dsimp only
            rw [mlookup_cons, if_neg (by omega), hmed, mlookup_erased,
              if_pos (hkept _ (hoffs _ (List.get_mem _ _ _)))]
            rfl
        · intro j hj2 hj0 hjge
          dsimp only at hj2 ⊢
          have hjt2 : j < t2.length := by omega
          have hget : (t2.eraseIdx i.ram_tbl_idx).get ⟨j, hj2⟩ =
              t2.get ⟨j + 1, by omega⟩ :=
            get_eraseIdx_ge t2 i.ram_tbl_idx j (by omega) hj2 (by omega)
          have hstep := hc3 (j + 1) hj0 (by omega) (by omega)
            (by simp; omega)
          obtain ⟨hh, hlo, hhi, hmed⟩ := hstep
          refine ⟨?_, ?_, ?_, ?_⟩
          · rw [hget]; exact hh
          · rw [hget]; omega
          · rw [hget]; exact hhi
          · rw [hget]
            show mlookup _ _ = entryRecord s (s.ram_table.get ⟨j + 1, hj0⟩)
            dsimp only
            rw [mlookup_cons, if_neg (by omega), hmed, mlookup_erased,
              if_pos (hkept _ (hoffs _ (List.get_mem _ _ _)))]
            rfl

/-- Compaction with a pending update: the areas swap, consumed_size and
free_space_offset move to consumed - old + new (equal to each other), the
skipped entry is replaced by an entry carrying the pending hash whose offset
holds exactly the pending record in the new active area, and every other
entry keeps its hash and is redirected to a fresh in-bounds offset holding
the record it pointed at before. -/
theorem gc_update_ok (s : KVState) (i : GcRecordInfo) (u : UpdateRecInfo)
    (dev : GcDev) (s2 : KVState)
    (h : _mtb_kvstore_garbage_collection s (some i) dev = (none, s2))
    (hupd : i.update_rec_info = some u)
    (hidx : i.ram_tbl_idx < s.ram_table.length)
    (hprog : 0 < s.prog_size)
    (hlay : s.active_area_addr = s.start_addr ∧
        s.gc_area_addr = s.start_addr + areaSize s ∨
      s.active_area_addr = s.start_addr + areaSize s ∧
        s.gc_area_addr = s.start_addr)
    (hanchor : anchorRecordSize s.prog_size ≤ areaSize s)
    (hoffs : ∀ e ∈ s.ram_table, e.offset < areaSize s)
    (hok : ∀ e ∈ s.ram_table, (entryRecord s e).isSome)
    (hold : i.size_info.old_record_size =
      sizeOfEntry s (s.ram_table.get ⟨i.ram_tbl_idx, hidx⟩))
    (hconsEq : s.consumed_size = anchorRecordSize s.prog_size +
      (s.ram_table.map (sizeOfEntry s)).sum) :
    s2.start_addr = s.start_addr ∧ s2.length = s.length ∧
    s2.prog_size = s.prog_size ∧ s2.erase_size = s.erase_size ∧
    s2.active_area_addr = s.gc_area_addr ∧
    s2.gc_area_addr = s.active_area_addr ∧
    s2.consumed_size = s.consumed_size - i.size_info.old_record_size +
      i.size_info.new_record_size ∧
    s2.free_space_offset = s2.consumed_size ∧
    s2.free_space_offset ≤ areaSize s ∧
    s2.ram_table.length = s.ram_table.length ∧
    (∀ hj2 : i.ram_tbl_idx < s2.ram_table.length,
      (s2.ram_table.get ⟨i.ram_tbl_idx, hj2⟩).hash = u.key_hash ∧
      0 < (s2.ram_table.get ⟨i.ram_tbl_idx, hj2⟩).offset ∧
      (s2.ram_table.get ⟨i.ram_tbl_idx, hj2⟩).offset +
          i.size_info.new_record_size = s2.free_space_offset ∧
      entryRecord s2 (s2.ram_table.get ⟨i.ram_tbl_idx, hj2⟩) =
        some ⟨_mtb_kvstore_setup_record_header u.key u.dataPtr u.data_size
          KvOp.update, u.key, u.dataPtr.getD []⟩) ∧
    (∀ (j : Nat) (hj : j < s.ram_table.length)
      (hj2 : j < s2.ram_table.length), j ≠ i.ram_tbl_idx →
      (s2.ram_table.get ⟨j, hj2⟩).hash = (s.ram_table.get ⟨j, hj⟩).hash ∧
      0 < (s2.ram_table.get ⟨j, hj2⟩).offset ∧
      (s2.ram_table.get ⟨j, hj2⟩).offset + i.size_info.new_record_size <
        s2.free_space_offset ∧
      entryRecord s2 (s2.ram_table.get ⟨j, hj2⟩) =
        entryRecord s (s.ram_table.get ⟨j, hj⟩)) := by
  have hdisj : ∀ x y : Nat, x < areaSize s → y < areaSize s →
      s.active_area_addr + x ≠ s.gc_area_addr + y := by
    rcases hlay with ⟨h1, h2⟩ | ⟨h1, h2⟩ <;> (intro x y hx hy; omega)
  have hkept : ∀ off : Nat, off < areaSize s →
      s.active_area_addr + off < s.gc_area_addr ∨
        s.gc_area_addr + areaSize s ≤ s.active_area_addr + off := by
    rcases hlay with ⟨h1, h2⟩ | ⟨h1, h2⟩ <;> (intro off hoff; omega)
  have hanchor0 : 0 < anchorRecordSize s.prog_size :=
    anchorRecordSize_pos _ hprog
  unfold _mtb_kvstore_garbage_collection at h
  dsimp only at h
  by_cases hfc : (i.update_rec_info.isSome &&
      decide (areaSize s < s.consumed_size - i.size_info.old_record_size +
        i.size_info.new_record_size)) = true
  · rw [if_pos hfc] at h
    injection h with h1 h2
    simp at h1
  · rw [if_neg hfc] at h
    have hfull : s.consumed_size - i.size_info.old_record_size +
        i.size_info.new_record_size ≤ areaSize s := by
      rw [hupd] at hfc
      simp at hfc
      omega
    split at h
    · rename_i e1 st1 herase
      injection h with h1 h2
      simp at h1
    · rename_i st1 herase
      have hst1 := erase_area_ok _ _ _ _ herase
      subst hst1
      dsimp only at h
      split at h
      · rename_i e2 st2 d2 hloop
        injection h with h1 h2
        simp at h1
      · rename_i st2 dst1 hloop
        obtain ⟨m2, t2, hshape⟩ := gcCopyLoop_shape dev _ _ _ _ _ _ _ _ hloop
        subst hshape
        have hchar := gcCopyLoop_char dev (some i.ram_tbl_idx)
          s.active_area_addr s.gc_area_addr (areaSize s) s.prog_size _ _ 0
          (anchorRecordSize s.prog_size) _ dst1 hloop rfl rfl rfl rfl hprog
          (by dsimp only; omega)
          (by
            intro j hj hle
            dsimp only at hj ⊢
            exact hoffs _ (List.get_mem _ _ _))
          (by
            intro j hj hle hsk
            dsimp only at hj ⊢
            rw [mlookup_erased]
            rw [if_pos (hkept _ (hoffs _ (List.get_mem _ _ _)))]
            have := hok _ (List.get_mem s.ram_table j hj)
            unfold entryRecord at this
            exact this)
          hdisj
        obtain ⟨hc1, hc2, hc3, hc4, hc5, hc6, hc7⟩ := hchar
        dsimp only at hc1 hc3 hc4 hc7 h
        rw [hupd] at h
        dsimp only at h
        split at h
        · rename_i e3 st3p d3 hpend
          injection h with h1 h2
          simp at h1
        · rename_i st3p dst2 hpend
          split at hpend
          · rename_i e3 st3 hwr
            injection hpend with hp1 hp2
            simp at hp1
          · rename_i st3 hwr
            injection hpend with hp1 hp2
            injection hp2 with hp2 hp3
            subst hp2
            subst hp3
            have hst3 := write_record_ok _ _ _ _ _ _ _ _ _ _ _
              (by omega) hwr
            subst hst3
            dsimp only [_mtb_kvstore_update_ram_table,
              _mtb_kvstore_update_consumed_size] at h
            split at h
            · rename_i e4 st5 hanch
              injection h with h1 h2
              simp at h1
            · rename_i st5 hanch
              have hst5 := write_area_record_ok _ _ _ _ _ hanch
              subst hst5
              injection h with h1 h2
              subst h2
              have hsizes : gcCopySizes
                  { s with
                    media := s.media.filter
                      (fun p => decide (p.1 < s.gc_area_addr ∨
                        s.gc_area_addr + areaSize s ≤ p.1)) }
                  (some i.ram_tbl_idx) s.ram_table.length 0 +
                  sizeOfEntry s (s.ram_table.get ⟨i.ram_tbl_idx, hidx⟩) =
                  (s.ram_table.map (sizeOfEntry s)).sum := by
                have hcongr := gcCopySizes_congr s
                  { s with
                    media := s.media.filter
                      (fun p => decide (p.1 < s.gc_area_addr ∨
                        s.gc_area_addr + areaSize s ≤ p.1)) }
                  (some i.ram_tbl_idx) rfl s.ram_table.length 0
                  (by
                    intro j hj hj2 _
                    refine ⟨rfl, ?_⟩
                    unfold sizeOfEntry entryRecord
                    dsimp only
                    rw [mlookup_erased,
                      if_pos (hkept _ (hoffs _ (List.get_mem _ _ _)))])
                rw [hcongr]
                have heq := gcCopySizes_eq s (some i.ram_tbl_idx)
                  s.ram_table.length 0 (by omega)
                rw [skipSize_some, if_pos (by omega),
                  List.get?_eq_get hidx, List.drop_zero] at heq
                dsimp only at heq
                omega
              refine ⟨rfl, rfl, rfl, rfl, rfl, rfl, rfl, ?_, ?_, ?_,
                ?_, ?_⟩
              · show dst1 + i.size_info.new_record_size =
                  s.consumed_size - i.size_info.old_record_size +
                    i.size_info.new_record_size
                omega
              · show dst1 + i.size_info.new_record_size ≤ areaSize s
                omega
              · show (t2.set i.ram_tbl_idx _).length = s.ram_table.length
                rw [List.length_set]
                exact hc1
              · intro hj2
                dsimp only at hj2 ⊢
                have hjt2 : i.ram_tbl_idx < t2.length := by
                  rw [List.length_set] at hj2
                  exact hj2
                have hget : (t2.set i.ram_tbl_idx
                    ⟨u.key_hash, dst1⟩).get ⟨i.ram_tbl_idx, hj2⟩ =
                    ⟨u.key_hash, dst1⟩ :=
                  get_set_self _ t2 i.ram_tbl_idx hj2
                rw [hget]
                refine ⟨rfl, by dsimp only; omega, by dsimp only, ?_⟩
                show mlookup _ _ = _
                dsimp only
                rw [mlookup_cons, if_neg (by omega), mlookup_cons,
                  if_pos rfl]
              · intro j hj hj2 hne
                dsimp only at hj2 ⊢
                have hjt2 : j < t2.length := by
                  rw [List.length_set] at hj2
                  exact hj2
                have hget : (t2.set i.ram_tbl_idx
                    ⟨u.key_hash, dst1⟩).get ⟨j, hj2⟩ = t2.get ⟨j, hjt2⟩ :=
                  get_set_ne _ t2 i.ram_tbl_idx j (by omega) hj2 hjt2
                have hstep := hc3 j hj hjt2 (by omega) (by simp; omega)
                obtain ⟨hh, hlo, hhi, hmed⟩ := hstep
                rw [hget]
                refine ⟨hh, by omega, by omega, ?_⟩
                show mlookup _ _ = entryRecord s (s.ram_table.get ⟨j, hj⟩)
                dsimp only
                rw [mlookup_cons, if_neg (by omega), mlookup_cons,
                  if_neg (by omega), hmed, mlookup_erased,
                  if_pos (hkept _ (hoffs _ (List.get_mem _ _ _)))]
                rfl

/-! The append step of the mutation engine and the shape of the RAM table
after an insertion. -/

theorem length_insertIdx' (a : RamEntry) : ∀ (l : List RamEntry) (i : Nat),
    i ≤ l.length → (l.insertIdx i a).length = l.length + 1 := by
  intro l
  induction l with
  | nil =>
    intro i h
    have : i = 0 := by simpa using h
    subst this
    rfl
  | cons x xs ih =>
    intro i h
    cases i with
    | zero => rfl
    | succ i =>
      show (x :: xs.insertIdx i a).length = _
      have := ih i (by simpa using h)
      simp only [List.length_cons]
      omega

theorem mem_insertIdx' (a b : RamEntry) : ∀ (l : List RamEntry) (i : Nat),
    i ≤ l.length → (b ∈ l.insertIdx i a ↔ b = a ∨ b ∈ l) := by
  intro l
  induction l with
  | nil =>
    intro i h
    have : i = 0 := by simpa using h
    subst this
    simp
  | cons x xs ih =>
    intro i h
    cases i with
    | zero => simp
    | succ i =>
      show b ∈ x :: xs.insertIdx i a ↔ _
      rw [List.mem_cons, ih i (by simpa using h), List.mem_cons]
      tauto

theorem get_insertIdx_self (a : RamEntry) : ∀ (l : List RamEntry) (i : Nat),
    i ≤ l.length → ∀ (h2 : i < (l.insertIdx i a).length),
    (l.insertIdx i a).get ⟨i, h2⟩ = a := by
  intro l
  induction l with
  | nil =>
    intro i h h2
    have : i = 0 := by simpa using h
    subst this
    rfl
  | cons x xs ih =>
    intro i h h2
    cases i with
    | zero => rfl
    | succ i => exact ih i (by simpa using h) (by simpa using h2)

theorem insertIdx_decomp (a : RamEntry) : ∀ (l : List RamEntry) (i : Nat),
    i ≤ l.length → l.insertIdx i a = l.take i ++ a :: l.drop i := by
  intro l
  induction l with
  | nil =>
    intro i h
    have : i = 0 := by simpa using h
    subst this
    rfl
  | cons x xs ih =>
    intro i h
    cases i with
    | zero => rfl
    | succ i =>
      show x :: xs.insertIdx i a = _
      rw [ih i (by simpa using h)]
      rfl

/-- Insertion preserves a pairwise relation when the new element relates to
every list element in both directions. -/
theorem pairwise_insertIdx (R : RamEntry → RamEntry → Prop) (a : RamEntry) :
    ∀ (l : List RamEntry) (i : Nat), i ≤ l.length →
    (∀ b ∈ l, R a b ∧ R b a) → l.Pairwise R →
    (l.insertIdx i a).Pairwise R := by
  intro l
  induction l with
  | nil =>
    intro i h _ _
    have : i = 0 := by simpa using h
    subst this
    simp
  | cons x xs ih =>
    intro i h hab hp
    obtain ⟨hx, hxs⟩ := List.pairwise_cons.mp hp
    cases i with
    | zero =>
      refine List.pairwise_cons.mpr ⟨?_, hp⟩
      intro b hb
      exact (hab b hb).1
    | succ i =>
      show (x :: xs.insertIdx i a).Pairwise R
      refine List.pairwise_cons.mpr ⟨?_, ?_⟩
      · intro b hb
        rcases (mem_insertIdx' a b xs i (by simpa using h)).mp hb with
          rfl | hbxs
        · exact (hab x (by simp)).2
        · exact hx b hbxs
      · exact ih i (by simpa using h)
          (fun b hb => hab b (by simp [hb])) hxs

/-- Inserting at the position the scan returns keeps the table sorted by
descending hash. -/
theorem sorted_insertIdx (e : RamEntry) :
    ∀ l : List RamEntry, l.Pairwise (fun a b => b.hash ≤ a.hash) →
    (l.insertIdx
      (l.takeWhile (fun p => decide (e.hash ≤ p.hash))).length e).Pairwise
      (fun a b => b.hash ≤ a.hash) := by
  intro l
  induction l with
  | nil => intro _; simp
  | cons x xs ih =>
    intro hp
    obtain ⟨hx, hxs⟩ := List.pairwise_cons.mp hp
    by_cases hP : e.hash ≤ x.hash
    · rw [List.takeWhile_cons_of_pos (by simpa using hP)]
      show (x :: xs.insertIdx _ e).Pairwise _
      refine List.pairwise_cons.mpr ⟨?_, ih hxs⟩
      intro b hb
      have hlen : (xs.takeWhile
          (fun p => decide (e.hash ≤ p.hash))).length ≤ xs.length :=
        (List.takeWhile_sublist _).length_le
      rcases (mem_insertIdx' e b xs _ hlen).mp hb with rfl | hbxs
      · exact hP
      · exact hx b hbxs
    · rw [List.takeWhile_cons_of_neg (by simpa using hP)]
      show (e :: x :: xs).Pairwise _
      refine List.pairwise_cons.mpr ⟨?_, hp⟩
      intro b hb
      rcases List.mem_cons.mp hb with rfl | hbxs
      · omega
      · have := hx b hbxs
        omega

/-- One summand of a sum of mapped entry sizes. -/
theorem le_map_sum (f : RamEntry → Nat) (l : List RamEntry) (e : RamEntry)
    (h : e ∈ l) : f e ≤ (l.map f).sum := by
  induction l with
  | nil => simp at h
  | cons x xs ih =>
    simp only [List.map_cons, List.sum_cons]
    rcases List.mem_cons.mp h with rfl | hxs
    · omega
    · have := ih hxs
      omega

/-- Inversion of a successful RAM-table lookup (no well-formedness needed):
the table splits at the returned position into the skipped prefix and a
validated entry whose record stores the probed key, and the returned data
size is that record's data_size. -/
theorem find_ok (st : KVState) (key : List Nat)
    (hres : (_mtb_kvstore_find_record_in_ram_table st key).2.res = none) :
    ∃ (pre : List RamEntry) (e : RamEntry) (rest : List RamEntry)
      (r : Record),
      st.ram_table = pre ++ e :: rest ∧
      (∀ p ∈ pre, scanSkip st key (_mtb_kvstore_crc16 key CRC_INIT) p) ∧
      (_mtb_kvstore_find_record_in_ram_table st key).2.idx = pre.length ∧
      entryRecord st e = some r ∧ wfRecordW r ∧ key = r.key ∧
      key.length = r.header.key_size ∧
      e.hash = _mtb_kvstore_crc16 key CRC_INIT ∧
      (_mtb_kvstore_find_record_in_ram_table st key).2.ds =
        r.header.data_size := by
  unfold _mtb_kvstore_find_record_in_ram_table at hres ⊢
  dsimp only at hres ⊢
  obtain ⟨pre, rest, hsplit, hidx, hskips, hok2⟩ :=
    findFrom_run st key (_mtb_kvstore_crc16 key CRC_INIT) st.ram_table 0
  obtain ⟨e, rest2, hrest, hhash, hread, hds⟩ := hok2 hres
  obtain ⟨r, hm, hwf, hkey, hklen, heval⟩ :=
    read_record_validate_ok st st.active_area_addr e.offset key (some 0)
      hread
  refine ⟨pre, e, rest2, r, by rw [hsplit, hrest], hskips, by omega, hm,
    hwf, hkey, hklen, hhash, ?_⟩
  rw [hds]
  unfold readV
  rw [heval]
  rfl

/-- The success shape of the append step: the record is programmed at
free_space_offset of the active area, the classified RAM-table and
consumed-size updates are applied, and free_space_offset advances by the
declared record size. -/
theorem appendStep_ok (st : KVState) (key : List Nat)
    (dataPtr : Option (List Nat)) (size : Nat) (op : KvOp)
    (idx hash old rs : Nat) (df : Option Nat) (st' : KVState)
    (hfs0 : st.free_space_offset ≠ 0)
    (h : appendStep st key dataPtr size op idx hash old rs df =
      (none, st')) :
    st' = { st with
      media := (st.active_area_addr + st.free_space_offset,
        ⟨_mtb_kvstore_setup_record_header key dataPtr size op, key,
          dataPtr.getD []⟩) :: st.media
      ram_table := _mtb_kvstore_update_ram_table st.ram_table op idx
        ⟨hash, st.free_space_offset⟩
      consumed_size := _mtb_kvstore_update_consumed_size st.consumed_size op
        old rs
      free_space_offset := st.free_space_offset + rs } := by
  unfold appendStep at h
  dsimp only at h
  split at h
  · rename_i e1 st1 hwr
    injection h with h1 h2
    simp at h1
  · rename_i st1 hwr
    have hst1 := write_record_ok _ _ _ _ _ _ _ _ _ _ _ hfs0 hwr
    subst hst1
    injection h with h1 h2
    exact h2.symm

/-- Well-formedness after appending a fresh record for an absent key at the
scan's insertion position. -/
theorem wf_add (st : KVState) (key : List Nat) (dataPtr : Option (List Nat))
    (size idx : Nat) (hW : Wf st) (hk0 : 0 < key.length)
    (hk1 : key.length < MAX_KEY_SIZE)
    (hdata : dataPtr = none ∧ size = 0 ∨
      ∃ B, dataPtr = some B ∧ B.length = size)
    (habs : ∀ e ∈ st.ram_table, entryKeyOf st e ≠ some key)
    (hidx : idx = (st.ram_table.takeWhile
      (fun p =>
        decide (_mtb_kvstore_crc16 key CRC_INIT ≤ p.hash))).length)
    (hfit : st.free_space_offset +
      _mtb_kvstore_get_record_size st.prog_size key.length size ≤
        areaSize st) :
    Wf { st with
      media := (st.active_area_addr + st.free_space_offset,
        ⟨_mtb_kvstore_setup_record_header key dataPtr size KvOp.add, key,
          dataPtr.getD []⟩) :: st.media
      ram_table := st.ram_table.insertIdx idx
        ⟨_mtb_kvstore_crc16 key CRC_INIT, st.free_space_offset⟩
      consumed_size := st.consumed_size +
        _mtb_kvstore_get_record_size st.prog_size key.length size
      free_space_offset := st.free_space_offset +
        _mtb_kvstore_get_record_size st.prog_size key.length size } := by
  have hidxle : idx ≤ st.ram_table.length := by
    rw [hidx]
    exact (List.takeWhile_sublist _).length_le
  have hrs0 : 0 < _mtb_kvstore_get_record_size st.prog_size key.length size :=
    get_record_size_pos _ _ _ hW.prog_pos
  have hwfN : wfRecord ⟨_mtb_kvstore_setup_record_header key dataPtr size
      KvOp.add, key, dataPtr.getD []⟩ :=
    setup_record_wf key dataPtr size KvOp.add hk0 hk1 hdata
  have hpres : ∀ e ∈ st.ram_table,
      mlookup ((st.active_area_addr + st.free_space_offset,
        (⟨_mtb_kvstore_setup_record_header key dataPtr size KvOp.add, key,
          dataPtr.getD []⟩ : Record)) :: st.media)
        (st.active_area_addr + e.offset) = entryRecord st e := by
    intro e he
    have hlt := hW.offs_lt e he
    rw [mlookup_cons, if_neg (by omega)]
    rfl
  refine ⟨hW.prog_pos, hW.area_layout, hW.anchor_le, ?_, ?_, ?_, ?_, ?_,
    ?_, ?_⟩
  · show st.consumed_size + _ ≤ st.free_space_offset + _
    have := hW.cons_le
    omega
  · exact hfit
  · intro e he
    show e.offset < st.free_space_offset + _
    dsimp only at he
    rcases (mem_insertIdx' _ e st.ram_table idx hidxle).mp he with rfl | hold
    · show st.free_space_offset < _
      omega
    · have := hW.offs_lt e hold
      omega
  · intro e he
    dsimp only at he
    rcases (mem_insertIdx' _ e st.ram_table idx hidxle).mp he with rfl | hold
    · rw [entryOk_spec]
      refine ⟨_, ?_, hwfN, rfl⟩
      show mlookup _ _ = _
      dsimp only
      rw [mlookup_cons, if_pos rfl]
    · obtain ⟨r, hr, hwf, hhash⟩ := (entryOk_spec st e).mp
        (hW.entries_ok e hold)
      rw [entryOk_spec]
      refine ⟨r, ?_, hwf, hhash⟩
      show mlookup _ _ = some r
      dsimp only
      rw [hpres e hold]
      exact hr
  · show (st.ram_table.insertIdx idx _).Pairwise _
    rw [hidx]
    exact sorted_insertIdx _ st.ram_table hW.sorted
  · show (st.ram_table.insertIdx idx _).Pairwise _
    apply pairwise_insertIdx _ _ st.ram_table idx hidxle
    · intro b hb
      have hkb : entryKeyOf { st with
          media := (st.active_area_addr + st.free_space_offset,
            ⟨_mtb_kvstore_setup_record_header key dataPtr size KvOp.add,
              key, dataPtr.getD []⟩) :: st.media
          ram_table := st.ram_table.insertIdx idx
            ⟨_mtb_kvstore_crc16 key CRC_INIT, st.free_space_offset⟩
          consumed_size := st.consumed_size +
            _mtb_kvstore_get_record_size st.prog_size key.length size
          free_space_offset := st.free_space_offset +
            _mtb_kvstore_get_record_size st.prog_size key.length size } b =
          entryKeyOf st b := by
        unfold entryKeyOf entryRecord
        dsimp only
        rw [hpres b hb]
        rfl
      have hkN : entryKeyOf { st with
          media := (st.active_area_addr + st.free_space_offset,
            ⟨_mtb_kvstore_setup_record_header key dataPtr size KvOp.add,
              key, dataPtr.getD []⟩) :: st.media
          ram_table := st.ram_table.insertIdx idx
            ⟨_mtb_kvstore_crc16 key CRC_INIT, st.free_space_offset⟩
          consumed_size := st.consumed_size +
            _mtb_kvstore_get_record_size st.prog_size key.length size
          free_space_offset := st.free_space_offset +
            _mtb_kvstore_get_record_size st.prog_size key.length size }
          ⟨_mtb_kvstore_crc16 key CRC_INIT, st.free_space_offset⟩ =
          some key := by
        unfold entryKeyOf entryRecord
        dsimp only
        rw [mlookup_cons, if_pos rfl]
        rfl
      constructor
      · rw [hkN, hkb]
        exact fun hcontra => habs b hb hcontra.symm
      · rw [hkN, hkb]
        exact habs b hb
    · apply pairwise_imp (fun a b => entryKeyOf st a ≠ entryKeyOf st b) _
        st.ram_table _ hW.keys_distinct
      intro a ha b hb hr
      show entryKeyOf _ a ≠ entryKeyOf _ b
      unfold entryKeyOf entryRecord
      dsimp only
      rw [hpres a ha, hpres b hb]
      exact hr
  · show st.consumed_size + _ =
      anchorRecordSize st.prog_size +
        ((st.ram_table.insertIdx idx _).map _).sum
    rw [map_sum_insertIdx _ _ st.ram_table idx hidxle]
    have hcongr : (st.ram_table.map (sizeOfEntry { st with
        media := (st.active_area_addr + st.free_space_offset,
          ⟨_mtb_kvstore_setup_record_header key dataPtr size KvOp.add,
            key, dataPtr.getD []⟩) :: st.media
        ram_table := st.ram_table.insertIdx idx
          ⟨_mtb_kvstore_crc16 key CRC_INIT, st.free_space_offset⟩
        consumed_size := st.consumed_size +
          _mtb_kvstore_get_record_size st.prog_size key.length size
        free_space_offset := st.free_space_offset +
          _mtb_kvstore_get_record_size st.prog_size key.length size })).sum =
        (st.ram_table.map (sizeOfEntry st)).sum := by
      apply map_sum_congr_mem
      intro e he
      unfold sizeOfEntry entryRecord
      dsimp only
      rw [hpres e he]
      rfl
    have hszN : sizeOfEntry { st with
        media := (st.active_area_addr + st.free_space_offset,
          ⟨_mtb_kvstore_setup_record_header key dataPtr size KvOp.add,
            key, dataPtr.getD []⟩) :: st.media
        ram_table := st.ram_table.insertIdx idx
          ⟨_mtb_kvstore_crc16 key CRC_INIT, st.free_space_offset⟩
        consumed_size := st.consumed_size +
          _mtb_kvstore_get_record_size st.prog_size key.length size
        free_space_offset := st.free_space_offset +
          _mtb_kvstore_get_record_size st.prog_size key.length size }
        ⟨_mtb_kvstore_crc16 key CRC_INIT, st.free_space_offset⟩ =
        _mtb_kvstore_get_record_size st.prog_size key.length size := by
      unfold sizeOfEntry entryRecord
      dsimp only
      rw [mlookup_cons, if_pos rfl]
      rfl
    rw [hcongr, hszN]
    have := hW.consumed_eq
    omega

/-- Well-formedness after appending an update record for a stored key over
its index position. -/
theorem wf_update (st : KVState) (key : List Nat)
    (dataPtr : Option (List Nat)) (size idx : Nat) (hW : Wf st)
    (hk0 : 0 < key.length) (hk1 : key.length < MAX_KEY_SIZE)
    (hdata : dataPtr = none ∧ size = 0 ∨
      ∃ B, dataPtr = some B ∧ B.length = size)
    (hidx : idx < st.ram_table.length)
    (hkey : entryKeyOf st (st.ram_table.get ⟨idx, hidx⟩) = some key)
    (hfit : st.free_space_offset +
      _mtb_kvstore_get_record_size st.prog_size key.length size ≤
        areaSize st) :
    Wf { st with
      media := (st.active_area_addr + st.free_space_offset,
        ⟨_mtb_kvstore_setup_record_header key dataPtr size KvOp.update, key,
          dataPtr.getD []⟩) :: st.media
      ram_table := st.ram_table.set idx
        ⟨_mtb_kvstore_crc16 key CRC_INIT, st.free_space_offset⟩
      consumed_size := st.consumed_size -
        sizeOfEntry st (st.ram_table.get ⟨idx, hidx⟩) +
        _mtb_kvstore_get_record_size st.prog_size key.length size
      free_space_offset := st.free_space_offset +
        _mtb_kvstore_get_record_size st.prog_size key.length size } := by
  have hrs0 : 0 < _mtb_kvstore_get_record_size st.prog_size key.length size :=
    get_record_size_pos _ _ _ hW.prog_pos
  have hwfU : wfRecord ⟨_mtb_kvstore_setup_record_header key dataPtr size
      KvOp.update, key, dataPtr.getD []⟩ :=
    setup_record_wf key dataPtr size KvOp.update hk0 hk1 hdata
  have hpres : ∀ e ∈ st.ram_table,
      mlookup ((st.active_area_addr + st.free_space_offset,
        (⟨_mtb_kvstore_setup_record_header key dataPtr size KvOp.update, key,
          dataPtr.getD []⟩ : Record)) :: st.media)
        (st.active_area_addr + e.offset) = entryRecord st e := by
    intro e he
    have hlt := hW.offs_lt e he
    rw [mlookup_cons, if_neg (by omega)]
    rfl
  obtain ⟨rOld, hrOld, hwfOld, hhashOld⟩ := (entryOk_spec st _).mp
    (hW.entries_ok _ (List.get_mem st.ram_table idx hidx))
  have hkeyOld : rOld.key = key := by
    unfold entryKeyOf at hkey
    rw [hrOld] at hkey
    simpa using hkey
  have hhashEq : (st.ram_table.get ⟨idx, hidx⟩).hash =
      _mtb_kvstore_crc16 key CRC_INIT := by
    rw [hhashOld, hkeyOld]
  have hmemset : ∀ e, e ∈ st.ram_table.set idx
      ⟨_mtb_kvstore_crc16 key CRC_INIT, st.free_space_offset⟩ →
      e = (⟨_mtb_kvstore_crc16 key CRC_INIT, st.free_space_offset⟩ :
        RamEntry) ∨ e ∈ st.ram_table := by
    intro e he
    rcases List.mem_or_eq_of_mem_set he with h1 | h1
    · exact Or.inr h1
    · exact Or.inl h1
  refine ⟨hW.prog_pos, hW.area_layout, hW.anchor_le, ?_, ?_, ?_, ?_, ?_,
    ?_, ?_⟩
  · show st.consumed_size - _ + _ ≤ st.free_space_offset + _
    have := hW.cons_le
    omega
  · exact hfit
  · intro e he
    show e.offset < st.free_space_offset + _
    dsimp only at he
    rcases hmemset e he with rfl | hold
    · show st.free_space_offset < _
      omega
    · have := hW.offs_lt e hold
      omega
  · intro e he
    dsimp only at he
    rcases hmemset e he with rfl | hold
    · rw [entryOk_spec]
      refine ⟨_, ?_, hwfU, rfl⟩
      show mlookup _ _ = _
      dsimp only
      rw [mlookup_cons, if_pos rfl]
    · obtain ⟨r, hr, hwf, hhash⟩ := (entryOk_spec st e).mp
        (hW.entries_ok e hold)
      rw [entryOk_spec]
      refine ⟨r, ?_, hwf, hhash⟩
      show mlookup _ _ = some r
      dsimp only
      rw [hpres e hold]
      exact hr
  · show (st.ram_table.set idx _).Pairwise _
    apply pairwise_of_corresp (fun a b => b.hash ≤ a.hash)
      (fun a b => b.hash ≤ a.hash) st.ram_table _ (by rw [List.length_set])
      _ hW.sorted
    intro i2 j2 hi1 hj1 hi2 hj2 hij hR
    have hgi : ((st.ram_table.set idx
        ⟨_mtb_kvstore_crc16 key CRC_INIT, st.free_space_offset⟩).get
          ⟨i2, hi2⟩).hash = (st.ram_table.get ⟨i2, hi1⟩).hash := by
      by_cases hie : idx = i2
      · subst hie
        rw [get_set_self _ st.ram_table idx hi2]
        rw [← hhashEq]
      · rw [get_set_ne _ st.ram_table idx i2 hie hi2 hi1]
    have hgj : ((st.ram_table.set idx
        ⟨_mtb_kvstore_crc16 key CRC_INIT, st.free_space_offset⟩).get
          ⟨j2, hj2⟩).hash = (st.ram_table.get ⟨j2, hj1⟩).hash := by
      by_cases hje : idx = j2
      · subst hje
        rw [get_set_self _ st.ram_table idx hj2]
        rw [← hhashEq]
      · rw [get_set_ne _ st.ram_table idx j2 hje hj2 hj1]
    rw [hgi, hgj]
    exact hR
  · show (st.ram_table.set idx _).Pairwise _
    apply pairwise_of_corresp
      (fun a b => entryKeyOf st a ≠ entryKeyOf st b) _
      st.ram_table _ (by rw [List.length_set]) _ hW.keys_distinct
    intro i2 j2 hi1 hj1 hi2 hj2 hij hR
    have hnewkey : entryKeyOf { st with
        media := (st.active_area_addr + st.free_space_offset,
          ⟨_mtb_kvstore_setup_record_header key dataPtr size KvOp.update,
            key, dataPtr.getD []⟩) :: st.media
        ram_table := st.ram_table.set idx
          ⟨_mtb_kvstore_crc16 key CRC_INIT, st.free_space_offset⟩
        consumed_size := st.consumed_size -
          sizeOfEntry st (st.ram_table.get ⟨idx, hidx⟩) +
          _mtb_kvstore_get_record_size st.prog_size key.length size
        free_space_offset := st.free_space_offset +
          _mtb_kvstore_get_record_size st.prog_size key.length size }
        ⟨_mtb_kvstore_crc16 key CRC_INIT, st.free_space_offset⟩ =
        some key := by
      unfold entryKeyOf entryRecord
      dsimp only
      rw [mlookup_cons, if_pos rfl]
      rfl
    have hgk : ∀ (k2 : Nat) (hk2a : k2 < st.ram_table.length)
        (hk2b : k2 < (st.ram_table.set idx
          ⟨_mtb_kvstore_crc16 key CRC_INIT,
            st.free_space_offset⟩).length),
        entryKeyOf { st with
          media := (st.active_area_addr + st.free_space_offset,
            ⟨_mtb_kvstore_setup_record_header key dataPtr size KvOp.update,
              key, dataPtr.getD []⟩) :: st.media
          ram_table := st.ram_table.set idx
            ⟨_mtb_kvstore_crc16 key CRC_INIT, st.free_space_offset⟩
          consumed_size := st.consumed_size -
            sizeOfEntry st (st.ram_table.get ⟨idx, hidx⟩) +
            _mtb_kvstore_get_record_size st.prog_size key.length size
          free_space_offset := st.free_space_offset +
            _mtb_kvstore_get_record_size st.prog_size key.length size }
          ((st.ram_table.set idx
            ⟨_mtb_kvstore_crc16 key CRC_INIT, st.free_space_offset⟩).get
              ⟨k2, hk2b⟩) =
          entryKeyOf st (st.ram_table.get ⟨k2, hk2a⟩) := by
      intro k2 hk2a hk2b
      by_cases hke : idx = k2
      · subst hke
        rw [get_set_self _ st.ram_table idx hk2b, hnewkey, hkey]
      · rw [get_set_ne _ st.ram_table idx k2 hke hk2b hk2a]
        unfold entryKeyOf entryRecord
        dsimp only
        rw [hpres _ (List.get_mem st.ram_table k2 hk2a)]
        rfl
    rw [hgk i2 hi1 hi2, hgk j2 hj1 hj2]
    exact hR
  · show st.consumed_size - _ + _ =
      anchorRecordSize st.prog_size + ((st.ram_table.set idx _).map _).sum
    have hsum := map_sum_set (sizeOfEntry { st with
        media := (st.active_area_addr + st.free_space_offset,
          ⟨_mtb_kvstore_setup_record_header key dataPtr size KvOp.update,
            key, dataPtr.getD []⟩) :: st.media
        ram_table := st.ram_table.set idx
          ⟨_mtb_kvstore_crc16 key CRC_INIT, st.free_space_offset⟩
        consumed_size := st.consumed_size -
          sizeOfEntry st (st.ram_table.get ⟨idx, hidx⟩) +
          _mtb_kvstore_get_record_size st.prog_size key.length size
        free_space_offset := st.free_space_offset +
          _mtb_kvstore_get_record_size st.prog_size key.length size })
      ⟨_mtb_kvstore_crc16 key CRC_INIT, st.free_space_offset⟩
      st.ram_table idx hidx
    have hcongr : (st.ram_table.map (sizeOfEntry { st with
        media := (st.active_area_addr + st.free_space_offset,
          ⟨_mtb_kvstore_setup_record_header key dataPtr size KvOp.update,
            key, dataPtr.getD []⟩) :: st.media
        ram_table := st.ram_table.set idx
          ⟨_mtb_kvstore_crc16 key CRC_INIT, st.free_space_offset⟩
        consumed_size := st.consumed_size -
          sizeOfEntry st (st.ram_table.get ⟨idx, hidx⟩) +
          _mtb_kvstore_get_record_size st.prog_size key.length size
        free_space_offset := st.free_space_offset +
          _mtb_kvstore_get_record_size st.prog_size key.length size })).sum =
        (st.ram_table.map (sizeOfEntry st)).sum := by
      apply map_sum_congr_mem
      intro e he
      unfold sizeOfEntry entryRecord
      dsimp only
      rw [hpres e he]
      rfl
    have hszU : sizeOfEntry { st with
        media := (st.active_area_addr + st.free_space_offset,
          ⟨_mtb_kvstore_setup_record_header key dataPtr size KvOp.update,
            key, dataPtr.getD []⟩) :: st.media
        ram_table := st.ram_table.set idx
          ⟨_mtb_kvstore_crc16 key CRC_INIT, st.free_space_offset⟩
        consumed_size := st.consumed_size -
          sizeOfEntry st (st.ram_table.get ⟨idx, hidx⟩) +
          _mtb_kvstore_get_record_size st.prog_size key.length size
        free_space_offset := st.free_space_offset +
          _mtb_kvstore_get_record_size st.prog_size key.length size }
        ⟨_mtb_kvstore_crc16 key CRC_INIT, st.free_space_offset⟩ =
        _mtb_kvstore_get_record_size st.prog_size key.length size := by
      unfold sizeOfEntry entryRecord
      dsimp only
      rw [mlookup_cons, if_pos rfl]
      rfl
    have hszOld : sizeOfEntry { st with
        media := (st.active_area_addr + st.free_space_offset,
          ⟨_mtb_kvstore_setup_record_header key dataPtr size KvOp.update,
            key, dataPtr.getD []⟩) :: st.media
        ram_table := st.ram_table.set idx
          ⟨_mtb_kvstore_crc16 key CRC_INIT, st.free_space_offset⟩
        consumed_size := st.consumed_size -
          sizeOfEntry st (st.ram_table.get ⟨idx, hidx⟩) +
          _mtb_kvstore_get_record_size st.prog_size key.length size
        free_space_offset := st.free_space_offset +
          _mtb_kvstore_get_record_size st.prog_size key.length size }
        (st.ram_table.get ⟨idx, hidx⟩) =
        sizeOfEntry st (st.ram_table.get ⟨idx, hidx⟩) := by
      unfold sizeOfEntry entryRecord
      dsimp only
      rw [hpres _ (List.get_mem st.ram_table idx hidx)]
      rfl
    rw [hszU, hszOld] at hsum
    rw [hcongr] at hsum
    have hle := le_map_sum (sizeOfEntry st) st.ram_table _
      (List.get_mem st.ram_table idx hidx)
    have := hW.consumed_eq
    omega

/-- Well-formedness after appending a tombstone for a stored key and
dropping its index entry.  The programmed record itself is irrelevant: it is
not indexed. -/
theorem wf_delete (st : KVState) (rT : Record) (idx rs : Nat) (hW : Wf st)
    (hidx : idx < st.ram_table.length)
    (hfit : st.free_space_offset + rs ≤ areaSize st) :
    Wf { st with
      media := (st.active_area_addr + st.free_space_offset, rT) :: st.media
      ram_table := st.ram_table.eraseIdx idx
      consumed_size := st.consumed_size -
        sizeOfEntry st (st.ram_table.get ⟨idx, hidx⟩)
      free_space_offset := st.free_space_offset + rs } := by
  have hpres : ∀ e ∈ st.ram_table,
      mlookup ((st.active_area_addr + st.free_space_offset, rT) :: st.media)
        (st.active_area_addr + e.offset) = entryRecord st e := by
    intro e he
    have hlt := hW.offs_lt e he
    rw [mlookup_cons, if_neg (by omega)]
    rfl
  have hsub : ∀ e, e ∈ st.ram_table.eraseIdx idx → e ∈ st.ram_table :=
    fun e he => (List.eraseIdx_sublist st.ram_table idx).mem he
  refine ⟨hW.prog_pos, hW.area_layout, hW.anchor_le, ?_, ?_, ?_, ?_, ?_,
    ?_, ?_⟩
  · show st.consumed_size - _ ≤ st.free_space_offset + rs
    have := hW.cons_le
    omega
  · exact hfit
  · intro e he
    show e.offset < st.free_space_offset + rs
    dsimp only at he
    have := hW.offs_lt e (hsub e he)
    omega
  · intro e he
    dsimp only at he
    obtain ⟨r, hr, hwf, hhash⟩ := (entryOk_spec st e).mp
      (hW.entries_ok e (hsub e he))
    rw [entryOk_spec]
    refine ⟨r, ?_, hwf, hhash⟩
    show mlookup _ _ = some r
    dsimp only
    rw [hpres e (hsub e he)]
    exact hr
  · show (st.ram_table.eraseIdx idx).Pairwise _
    exact hW.sorted.sublist (List.eraseIdx_sublist st.ram_table idx)
  · show (st.ram_table.eraseIdx idx).Pairwise _
    have htrans : st.ram_table.Pairwise (fun a b =>
        entryKeyOf { st with
          media := (st.active_area_addr + st.free_space_offset, rT) ::
            st.media
          ram_table := st.ram_table.eraseIdx idx
          consumed_size := st.consumed_size -
            sizeOfEntry st (st.ram_table.get ⟨idx, hidx⟩)
          free_space_offset := st.free_space_offset + rs } a ≠
        entryKeyOf { st with
          media := (st.active_area_addr + st.free_space_offset, rT) ::
            st.media
          ram_table := st.ram_table.eraseIdx idx
          consumed_size := st.consumed_size -
            sizeOfEntry st (st.ram_table.get ⟨idx, hidx⟩)
          free_space_offset := st.free_space_offset + rs } b) := by
      apply pairwise_imp (fun a b => entryKeyOf st a ≠ entryKeyOf st b) _
        st.ram_table _ hW.keys_distinct
      intro a ha b hb hr
      show entryKeyOf _ a ≠ entryKeyOf _ b
      unfold entryKeyOf entryRecord
      dsimp only
      rw [hpres a ha, hpres b hb]
      exact hr
    exact htrans.sublist (List.eraseIdx_sublist st.ram_table idx)
  · show st.consumed_size - _ =
      anchorRecordSize st.prog_size +
        ((st.ram_table.eraseIdx idx).map _).sum
    have hsum := map_sum_eraseIdx (sizeOfEntry { st with
        media := (st.active_area_addr + st.free_space_offset, rT) ::
          st.media
        ram_table := st.ram_table.eraseIdx idx
        consumed_size := st.consumed_size -
          sizeOfEntry st (st.ram_table.get ⟨idx, hidx⟩)
        free_space_offset := st.free_space_offset + rs })
      st.ram_table idx hidx
    have hszOld : sizeOfEntry { st with
        media := (st.active_area_addr + st.free_space_offset, rT) ::
          st.media
        ram_table := st.ram_table.eraseIdx idx
        consumed_size := st.consumed_size -
          sizeOfEntry st (st.ram_table.get ⟨idx, hidx⟩)
        free_space_offset := st.free_space_offset + rs }
        (st.ram_table.get ⟨idx, hidx⟩) =
        sizeOfEntry st (st.ram_table.get ⟨idx, hidx⟩) := by
      unfold sizeOfEntry entryRecord
      dsimp only
      rw [hpres _ (List.get_mem st.ram_table idx hidx)]
      rfl
    have hcongr : (st.ram_table.map (sizeOfEntry { st with
        media := (st.active_area_addr + st.free_space_offset, rT) ::
          st.media
        ram_table := st.ram_table.eraseIdx idx
        consumed_size := st.consumed_size -
          sizeOfEntry st (st.ram_table.get ⟨idx, hidx⟩)
        free_space_offset := st.free_space_offset + rs })).sum =
        (st.ram_table.map (sizeOfEntry st)).sum := by
      apply map_sum_congr_mem
      intro e he
      unfold sizeOfEntry entryRecord
      dsimp only
      rw [hpres e he]
      rfl
    rw [hszOld, hcongr] at hsum
    have hle := le_map_sum (sizeOfEntry st) st.ram_table _
      (List.get_mem st.ram_table idx hidx)
    have := hW.consumed_eq
    omega

/-! Glue facts used to assemble the write-path postcondition. -/

/-- The add and update headers agree: the operation only affects the delete
flag. -/
theorem setup_update_eq_add (key : List Nat) (dataPtr : Option (List Nat))
    (size : Nat) :
    _mtb_kvstore_setup_record_header key dataPtr size KvOp.update =
      _mtb_kvstore_setup_record_header key dataPtr size KvOp.add := rfl

/-- Positional read in a table decomposed around a position. -/
theorem get_append_cons (pre : List RamEntry) (e : RamEntry)
    (rest : List RamEntry) (h : pre.length < (pre ++ e :: rest).length) :
    (pre ++ e :: rest).get ⟨pre.length, h⟩ = e := by
  have h1 := get?_append_cons pre e rest
  rw [List.get?_eq_get h] at h1
  exact Option.some.inj h1

/-- Overwriting the decomposition position. -/
theorem set_append_cons (e eN : RamEntry) :
    ∀ (pre rest : List RamEntry),
    (pre ++ e :: rest).set pre.length eN = pre ++ eN :: rest := by
  intro pre
  induction pre with
  | nil => intro rest; rfl
  | cons x xs ih =>
    intro rest
    show x :: (xs ++ e :: rest).set xs.length eN = _
    rw [ih rest]
    rfl

/-- On a well-formed state, the key of the entry at one position differs from
the key of the entry at any other position. -/
theorem keys_unique_at (st : KVState) (hW : Wf st) (idx : Nat)
    (hidx : idx < st.ram_table.length) (j : Nat)
    (hj : j < st.ram_table.length) (hne : j ≠ idx) :
    entryKeyOf st (st.ram_table.get ⟨j, hj⟩) ≠
      entryKeyOf st (st.ram_table.get ⟨idx, hidx⟩) := by
  have hp := hW.keys_distinct
  rw [List.pairwise_iff_get] at hp
  rcases Nat.lt_or_ge j idx with hlt | hge
  · exact hp ⟨j, hj⟩ ⟨idx, hidx⟩ (Fin.mk_lt_mk.mpr hlt)
  · have := hp ⟨idx, hidx⟩ ⟨j, hj⟩ (Fin.mk_lt_mk.mpr (by omega))
    exact fun hcontra => this hcontra.symm

/-- Sum bookkeeping for a table whose entries agree pointwise except at one
position. -/
theorem map_sum_update_idx (g f : RamEntry → Nat) (vN : Nat) :
    ∀ (l1 l2 : List RamEntry) (idx : Nat), l2.length = l1.length →
    ∀ (hidx : idx < l1.length),
    (∀ hj2 : idx < l2.length, g (l2.get ⟨idx, hj2⟩) = vN) →
    (∀ (j : Nat) (hj1 : j < l1.length) (hj2 : j < l2.length), j ≠ idx →
      g (l2.get ⟨j, hj2⟩) = f (l1.get ⟨j, hj1⟩)) →
    (l2.map g).sum + f (l1.get ⟨idx, hidx⟩) = (l1.map f).sum + vN := by
  intro l1
  induction l1 with
  | nil => intro l2 idx _ hidx; simp at hidx
  | cons x xs ih =>
    intro l2 idx hlen hidx hat hne
    cases l2 with
    | nil => simp at hlen
    | cons y ys =>
      cases idx with
      | zero =>
        have hy := hat (by simp)
        have hsum : (ys.map g).sum = (xs.map f).sum := by
          apply map_sum_corresp xs ys f g (by simpa using hlen)
          intro j hj1 hj2
          exact hne (j + 1) (by simpa using hj1) (by simpa using hj2)
            (by omega)
        simp only [List.map_cons, List.sum_cons, List.get]
        simp only [List.get] at hy
        omega
      | succ idx =>
        have hy : g y = f x := hne 0 (by simp) (by simp) (by omega)
        have hrec := ih ys idx (by simpa using hlen) (by simpa using hidx)
          (fun hj2 => hat (by simpa using hj2))
          (fun j hj1 hj2 hjne =>
            hne (j + 1) (by simpa using hj1) (by simpa using hj2)
              (by omega))
        simp only [List.map_cons, List.sum_cons, List.get]
        simp only [List.get] at hy
        omega

/-- The scan insertion point depends only on the entry hashes. -/
theorem takeWhile_length_congr (c : Nat) :
    ∀ (l1 l2 : List RamEntry), l2.length = l1.length →
    (∀ (j : Nat) (hj1 : j < l1.length) (hj2 : j < l2.length),
      (l2.get ⟨j, hj2⟩).hash = (l1.get ⟨j, hj1⟩).hash) →
    (l2.takeWhile (fun p => decide (c ≤ p.hash))).length =
      (l1.takeWhile (fun p => decide (c ≤ p.hash))).length := by
  intro l1
  induction l1 with
  | nil =>
    intro l2 hlen _
    have : l2 = [] := List.length_eq_zero.mp (by simpa using hlen)
    subst this
    rfl
  | cons x xs ih =>
    intro l2 hlen hh
    cases l2 with
    | nil => simp at hlen
    | cons y ys =>
      have h0 : y.hash = x.hash := by
        have := hh 0 (by simp) (by simp)
        simpa [List.get] using this
      have hrec := ih ys (by simpa using hlen)
        (fun j hj1 hj2 => hh (j + 1) (by simpa using hj1) (by simpa using hj2))
      by_cases hP : c ≤ x.hash
      · rw [List.takeWhile_cons_of_pos (by simp; omega),
          List.takeWhile_cons_of_pos (by simp; omega)]
        simp only [List.length_cons]
        omega
      · rw [List.takeWhile_cons_of_neg (by simp; omega),
          List.takeWhile_cons_of_neg (by simp; omega)]

/-- Any table decomposes around a position. -/
theorem decomp_at (l : List RamEntry) (idx : Nat) (hidx : idx < l.length) :
    l = l.take idx ++ l.get ⟨idx, hidx⟩ :: l.drop (idx + 1) ∧
      (l.take idx).length = idx := by
  constructor
  · conv_lhs => rw [← List.take_append_drop idx l]
    rw [List.drop_eq_getElem_cons hidx]
    rfl
  · rw [List.length_take]
    omega

/-- A lookup that reports ITEM_NOT_FOUND certifies that no index entry
stores the key. -/
theorem absent_of_notFound (st : KVState) (key : List Nat) (hW : Wf st)
    (hres : (_mtb_kvstore_find_record_in_ram_table st key).2.res =
      some KvErr.itemNotFound) :
    ∀ e ∈ st.ram_table, entryKeyOf st e ≠ some key := by
  intro e he hcontra
  obtain ⟨pre, rest, hsplit⟩ := List.append_of_mem he
  obtain ⟨r, hr⟩ : ∃ r, entryRecord st e = some r := by
    unfold entryKeyOf at hcontra
    cases hrec : entryRecord st e with
    | none => rw [hrec] at hcontra; simp at hcontra
    | some r => exact ⟨r, rfl⟩
  have hkey : r.key = key := by
    unfold entryKeyOf at hcontra
    rw [hr] at hcontra
    simpa using hcontra
  have := find_present st key pre e rest r hW hsplit hr hkey
  rw [this] at hres
  simp at hres

/-- When no index entry stores the key, every entry whose hash collides with
the key hash fails key validation. -/
theorem noMatch_of_absent (st : KVState) (key : List Nat)
    (hok : ∀ e ∈ st.ram_table, entryOk st e)
    (habs : ∀ e ∈ st.ram_table, entryKeyOf st e ≠ some key) :
    ∀ e ∈ st.ram_table, e.hash = _mtb_kvstore_crc16 key CRC_INIT →
      (readV st key e).res = some KvErr.itemNotFound := by
  intro e hmem _
  obtain ⟨r, hr, hwf, hhash⟩ := (entryOk_spec st e).mp (hok e hmem)
  have hkne : r.key ≠ key := by
    intro hcontra
    apply habs e hmem
    simp [entryKeyOf, hr, hcontra]
  have hev := read_record_validate_of_wf st st.active_area_addr e.offset key
    r (some 0) hr hwf.1
  unfold readV
  rw [hev, if_neg (by simp; intro _ hk; exact hkne hk.symm)]

/-- Plain compaction from a well-formed state yields a well-formed state
with the same consumed size, free_space_offset equal to the consumed size,
and an index holding the same hashes and keys. -/
theorem gc_none_wf (s : KVState) (dev : GcDev) (s2 : KVState) (hW : Wf s)
    (h : _mtb_kvstore_garbage_collection s none dev = (none, s2)) :
    Wf s2 ∧ areaSize s2 = areaSize s ∧ s2.prog_size = s.prog_size ∧
    s2.consumed_size = s.consumed_size ∧
    s2.free_space_offset = s.consumed_size ∧
    s2.ram_table.length = s.ram_table.length ∧
    (∀ (j : Nat) (hj : j < s.ram_table.length)
      (hj2 : j < s2.ram_table.length),
      (s2.ram_table.get ⟨j, hj2⟩).hash = (s.ram_table.get ⟨j, hj⟩).hash ∧
      entryKeyOf s2 (s2.ram_table.get ⟨j, hj2⟩) =
        entryKeyOf s (s.ram_table.get ⟨j, hj⟩)) := by
  obtain ⟨c1, c2, c3, c4, c5, c6, c7, c8, c9, c10, c11, c12⟩ :=
    gc_none_ok s dev s2 h hW.prog_pos hW.area_layout hW.anchor_le
      (fun e he => by
        have h1 := hW.offs_lt e he
        have h2 := hW.fs_le
        omega)
      (fun e he => by
        obtain ⟨r, hr, _, _⟩ := (entryOk_spec s e).mp (hW.entries_ok e he)
        rw [hr]
        rfl)
  have harea : areaSize s2 = areaSize s := by
    unfold areaSize
    rw [c2]
  have hfs2 : s2.free_space_offset = s.consumed_size := by
    rw [c9, hW.consumed_eq]
  have hrec : ∀ (j : Nat) (hj : j < s.ram_table.length)
      (hj2 : j < s2.ram_table.length),
      entryRecord s2 (s2.ram_table.get ⟨j, hj2⟩) =
        entryRecord s (s.ram_table.get ⟨j, hj⟩) :=
    fun j hj hj2 => (c12 j hj hj2).2.2.2
  have hkeyeq : ∀ (j : Nat) (hj : j < s.ram_table.length)
      (hj2 : j < s2.ram_table.length),
      entryKeyOf s2 (s2.ram_table.get ⟨j, hj2⟩) =
        entryKeyOf s (s.ram_table.get ⟨j, hj⟩) := by
    intro j hj hj2
    unfold entryKeyOf
    rw [hrec j hj hj2]
  have hsizeeq : ∀ (j : Nat) (hj : j < s.ram_table.length)
      (hj2 : j < s2.ram_table.length),
      sizeOfEntry s2 (s2.ram_table.get ⟨j, hj2⟩) =
        sizeOfEntry s (s.ram_table.get ⟨j, hj⟩) := by
    intro j hj hj2
    unfold sizeOfEntry
    rw [hrec j hj hj2, c3]
  refine ⟨⟨?_, ?_, ?_, ?_, ?_, ?_, ?_, ?_, ?_, ?_⟩, harea, c3, c7, hfs2,
    c11, fun j hj hj2 => ⟨(c12 j hj hj2).1, hkeyeq j hj hj2⟩⟩
  · rw [c3]
    exact hW.prog_pos
  · rw [c5, c6, c1, harea]
    rcases hW.area_layout with ⟨h1, h2⟩ | ⟨h1, h2⟩
    · exact Or.inr ⟨h2, h1⟩
    · exact Or.inl ⟨h2, h1⟩
  · rw [c3, harea]
    exact hW.anchor_le
  · rw [c7, hfs2]
  · rw [harea, hfs2]
    have h1 := hW.cons_le
    have h2 := hW.fs_le
    omega
  · intro e he
    obtain ⟨n, hn⟩ := List.mem_iff_get.mp he
    obtain ⟨_, _, hlt, _⟩ := c12 n.1 (by have := n.isLt; omega) n.isLt
    rw [← hn]
    exact hlt
  · intro e he
    obtain ⟨n, hn⟩ := List.mem_iff_get.mp he
    have hj : n.1 < s.ram_table.length := by have := n.isLt; omega
    obtain ⟨hh, _, _, hre⟩ := c12 n.1 hj n.isLt
    obtain ⟨r, hr, hwf, hhash⟩ := (entryOk_spec s _).mp
      (hW.entries_ok _ (List.get_mem s.ram_table n.1 hj))
    rw [← hn, entryOk_spec]
    refine ⟨r, ?_, hwf, ?_⟩
    · rw [hre]
      exact hr
    · rw [hh, hhash]
  · apply pairwise_of_corresp (fun a b => b.hash ≤ a.hash)
      (fun a b => b.hash ≤ a.hash) s.ram_table s2.ram_table c11 _ hW.sorted
    intro i2 j2 hi1 hj1 hi2 hj2 hij hR
    rw [(c12 i2 hi1 hi2).1, (c12 j2 hj1 hj2).1]
    exact hR
  · apply pairwise_of_corresp
      (fun a b => entryKeyOf s a ≠ entryKeyOf s b)
      (fun a b => entryKeyOf s2 a ≠ entryKeyOf s2 b)
      s.ram_table s2.ram_table c11 _ hW.keys_distinct
    intro i2 j2 hi1 hj1 hi2 hj2 hij hR
    rw [hkeyeq i2 hi1 hi2, hkeyeq j2 hj1 hj2]
    exact hR
  · rw [c7, hW.consumed_eq, c3]
    have hsum : (s2.ram_table.map (sizeOfEntry s2)).sum =
        (s.ram_table.map (sizeOfEntry s)).sum :=
      map_sum_corresp s.ram_table s2.ram_table (sizeOfEntry s)
        (sizeOfEntry s2) c11 (fun j hj1 hj2 => hsizeeq j hj1 hj2)
    rw [hsum]

/-- Compaction with a pending delete from a well-formed state yields a
well-formed state with consumed_size reduced by the deleted record size,
free_space_offset equal to the consumed size, and no index entry left
holding the deleted entry's key. -/
theorem gc_delete_wf (s : KVState) (i : GcRecordInfo) (dev : GcDev)
    (s2 : KVState) (hW : Wf s)
    (h : _mtb_kvstore_garbage_collection s (some i) dev = (none, s2))
    (hupd : i.update_rec_info = none)
    (hidx : i.ram_tbl_idx < s.ram_table.length)
    (hold : i.size_info.old_record_size =
      sizeOfEntry s (s.ram_table.get ⟨i.ram_tbl_idx, hidx⟩)) :
    Wf s2 ∧ areaSize s2 = areaSize s ∧
    s2.consumed_size = s.consumed_size - i.size_info.old_record_size ∧
    s2.free_space_offset = s2.consumed_size ∧
    (∀ e ∈ s2.ram_table, entryKeyOf s2 e ≠
      entryKeyOf s (s.ram_table.get ⟨i.ram_tbl_idx, hidx⟩)) := by
  obtain ⟨c1, c2, c3, c4, c5, c6, c7, c8, c9, c10, c11, c12a, c12b⟩ :=
    gc_delete_ok s i dev s2 h hupd hidx hW.prog_pos hW.area_layout
      hW.anchor_le
      (fun e he => by
        have h1 := hW.offs_lt e he
        have h2 := hW.fs_le
        omega)
      (fun e he => by
        obtain ⟨r, hr, _, _⟩ := (entryOk_spec s e).mp (hW.entries_ok e he)
        rw [hr]
        rfl)
  have harea : areaSize s2 = areaSize s := by
    unfold areaSize
    rw [c2]
  have hszle := le_map_sum (sizeOfEntry s) s.ram_table _
    (List.get_mem s.ram_table i.ram_tbl_idx hidx)
  have hfs2 : s2.free_space_offset =
      s.consumed_size - i.size_info.old_record_size := by
    have := hW.consumed_eq
    omega
  have hfacts : ∀ (j : Nat) (hj2 : j < s2.ram_table.length),
      ∃ (j0 : Nat) (hj0 : j0 < s.ram_table.length),
        (j < i.ram_tbl_idx → j0 = j) ∧
        (i.ram_tbl_idx ≤ j → j0 = j + 1) ∧
        (s2.ram_table.get ⟨j, hj2⟩).hash =
          (s.ram_table.get ⟨j0, hj0⟩).hash ∧
        0 < (s2.ram_table.get ⟨j, hj2⟩).offset ∧
        (s2.ram_table.get ⟨j, hj2⟩).offset < s2.free_space_offset ∧
        entryRecord s2 (s2.ram_table.get ⟨j, hj2⟩) =
          entryRecord s (s.ram_table.get ⟨j0, hj0⟩) := by
    intro j hj2
    by_cases hjlt : j < i.ram_tbl_idx
    · have hj0 : j < s.ram_table.length := by omega
      obtain ⟨hh, ho1, ho2, hre⟩ := c12a j hj2 hj0 hjlt
      exact ⟨j, hj0, fun _ => rfl, fun hcontra => absurd hcontra (by omega),
        hh, ho1, ho2, hre⟩
    · have hj0 : j + 1 < s.ram_table.length := by omega
      obtain ⟨hh, ho1, ho2, hre⟩ := c12b j hj2 hj0 (by omega)
      exact ⟨j + 1, hj0, fun hcontra => absurd hcontra hjlt, fun _ => rfl,
        hh, ho1, ho2, hre⟩
  have hkeyeq : ∀ (j : Nat) (hj2 : j < s2.ram_table.length),
      ∃ (j0 : Nat) (hj0 : j0 < s.ram_table.length),
        (j < i.ram_tbl_idx → j0 = j) ∧
        (i.ram_tbl_idx ≤ j → j0 = j + 1) ∧
        entryKeyOf s2 (s2.ram_table.get ⟨j, hj2⟩) =
          entryKeyOf s (s.ram_table.get ⟨j0, hj0⟩) := by
    intro j hj2
    obtain ⟨j0, hj0, hjeq1, hjeq2, _, _, _, hre⟩ := hfacts j hj2
    refine ⟨j0, hj0, hjeq1, hjeq2, ?_⟩
    unfold entryKeyOf
    rw [hre]
  have hmono : ∀ (a b ja jb : Nat), a < b →
      (a < i.ram_tbl_idx → ja = a) → (i.ram_tbl_idx ≤ a → ja = a + 1) →
      (b < i.ram_tbl_idx → jb = b) → (i.ram_tbl_idx ≤ b → jb = b + 1) →
      ja < jb ∧ ja ≠ i.ram_tbl_idx ∧ jb ≠ i.ram_tbl_idx := by
    intro a b ja jb hab ha1 ha2 hb1 hb2
    rcases Nat.lt_or_ge a i.ram_tbl_idx with hc1 | hc1 <;>
      rcases Nat.lt_or_ge b i.ram_tbl_idx with hc2 | hc2
    · rw [ha1 hc1, hb1 hc2]
      omega
    · rw [ha1 hc1, hb2 hc2]
      omega
    · omega
    · rw [ha2 hc1, hb2 hc2]
      omega
  refine ⟨⟨?_, ?_, ?_, ?_, ?_, ?_, ?_, ?_, ?_, ?_⟩, harea, c7, by omega,
    ?_⟩
  · rw [c3]
    exact hW.prog_pos
  · rw [c5, c6, c1, harea]
    rcases hW.area_layout with ⟨h1, h2⟩ | ⟨h1, h2⟩
    · exact Or.inr ⟨h2, h1⟩
    · exact Or.inl ⟨h2, h1⟩
  · rw [c3, harea]
    exact hW.anchor_le
  · omega
  · rw [harea]
    exact c10
  · intro e he
    obtain ⟨n, hn⟩ := List.mem_iff_get.mp he
    obtain ⟨j0, hj0, _, _, _, _, hlt, _⟩ := hfacts n.1 n.isLt
    rw [← hn]
    exact hlt
  · intro e he
    obtain ⟨n, hn⟩ := List.mem_iff_get.mp he
    obtain ⟨j0, hj0, _, _, hh, _, _, hre⟩ := hfacts n.1 n.isLt
    obtain ⟨r, hr, hwf, hhash⟩ := (entryOk_spec s _).mp
      (hW.entries_ok _ (List.get_mem s.ram_table j0 hj0))
    rw [← hn, entryOk_spec]
    refine ⟨r, ?_, hwf, ?_⟩
    · rw [hre]
      exact hr
    · rw [hh, hhash]
  · rw [List.pairwise_iff_get]
    intro a b hab
    obtain ⟨ja, hja, hja1, hja2, hha, _, _, _⟩ := hfacts a.1 a.isLt
    obtain ⟨jb, hjb, hjb1, hjb2, hhb, _, _, _⟩ := hfacts b.1 b.isLt
    have hs := hW.sorted
    rw [List.pairwise_iff_get] at hs
    have hablt : (a : Nat) < (b : Nat) := hab
    obtain ⟨hjj, _, _⟩ := hmono a.1 b.1 ja jb hablt hja1 hja2 hjb1 hjb2
    have := hs ⟨ja, hja⟩ ⟨jb, hjb⟩ (Fin.mk_lt_mk.mpr hjj)
    rw [hha, hhb]
    exact this
  · rw [List.pairwise_iff_get]
    intro a b hab
    obtain ⟨ja, hja, hja1, hja2, hka⟩ := hkeyeq a.1 a.isLt
    obtain ⟨jb, hjb, hjb1, hjb2, hkb⟩ := hkeyeq b.1 b.isLt
    have hs := hW.keys_distinct
    rw [List.pairwise_iff_get] at hs
    have hablt : (a : Nat) < (b : Nat) := hab
    obtain ⟨hjj, _, _⟩ := hmono a.1 b.1 ja jb hablt hja1 hja2 hjb1 hjb2
    have := hs ⟨ja, hja⟩ ⟨jb, hjb⟩ (Fin.mk_lt_mk.mpr hjj)
    rw [hka, hkb]
    exact this
  · have hsum : (s2.ram_table.map (sizeOfEntry s2)).sum =
        ((s.ram_table.eraseIdx i.ram_tbl_idx).map (sizeOfEntry s)).sum := by
      apply map_sum_corresp _ _ (sizeOfEntry s) (sizeOfEntry s2)
      · have := length_eraseIdx_add_one s.ram_table i.ram_tbl_idx hidx
        omega
      · intro j hj1 hj2
        obtain ⟨j0, hj0, hjeq1, hjeq2, _, _, _, hre⟩ := hfacts j hj2
        have hszeq : sizeOfEntry s2 (s2.ram_table.get ⟨j, hj2⟩) =
            sizeOfEntry s (s.ram_table.get ⟨j0, hj0⟩) := by
          unfold sizeOfEntry
          rw [hre, c3]
        rw [hszeq]
        by_cases hjlt : j < i.ram_tbl_idx
        · rw [get_eraseIdx_lt s.ram_table i.ram_tbl_idx j hjlt hj1
            (by omega)]
          congr 1
          apply congrArg
          rw [Fin.mk_eq_mk]
          exact hjeq1 hjlt
        · rw [get_eraseIdx_ge s.ram_table i.ram_tbl_idx j (by omega) hj1
            (by omega)]
          congr 1
          apply congrArg
          rw [Fin.mk_eq_mk]
          exact hjeq2 (by omega)
    have hsum2 := map_sum_eraseIdx (sizeOfEntry s) s.ram_table
      i.ram_tbl_idx hidx
    have := hW.consumed_eq
    rw [c7, c3]
    omega
  · intro e he
    obtain ⟨n, hn⟩ := List.mem_iff_get.mp he
    obtain ⟨j0, hj0, hjeq1, hjeq2, hka⟩ := hkeyeq n.1 n.isLt
    have hne : j0 ≠ i.ram_tbl_idx := by
      rcases Nat.lt_or_ge n.1 i.ram_tbl_idx with hc | hc
      · rw [hjeq1 hc]
        omega
      · rw [hjeq2 hc]
        omega
    rw [← hn, hka]
    exact keys_unique_at s hW i.ram_tbl_idx hidx j0 hj0 hne

/-- Compaction with a pending update from a well-formed state yields a
well-formed state whose consumed_size moves to consumed - old + new, with
free_space_offset equal to it, the table length preserved, and the skipped
position now holding exactly the pending record. -/
theorem gc_update_wf (s : KVState) (i : GcRecordInfo) (u : UpdateRecInfo)
    (dev : GcDev) (s2 : KVState) (hW : Wf s)
    (h : _mtb_kvstore_garbage_collection s (some i) dev = (none, s2))
    (hupd : i.update_rec_info = some u)
    (hidx : i.ram_tbl_idx < s.ram_table.length)
    (hold : i.size_info.old_record_size =
      sizeOfEntry s (s.ram_table.get ⟨i.ram_tbl_idx, hidx⟩))
    (hkeyu : entryKeyOf s (s.ram_table.get ⟨i.ram_tbl_idx, hidx⟩) =
      some u.key)
    (hhashu : u.key_hash = _mtb_kvstore_crc16 u.key CRC_INIT)
    (hk0 : 0 < u.key.length) (hk1 : u.key.length < MAX_KEY_SIZE)
    (hdatau : u.dataPtr = none ∧ u.data_size = 0 ∨
      ∃ B, u.dataPtr = some B ∧ B.length = u.data_size)
    (hnewu : i.size_info.new_record_size =
      _mtb_kvstore_get_record_size s.prog_size u.key.length u.data_size) :
    Wf s2 ∧ areaSize s2 = areaSize s ∧
    s2.consumed_size = s.consumed_size - i.size_info.old_record_size +
      i.size_info.new_record_size ∧
    s2.free_space_offset = s2.consumed_size ∧
    s2.ram_table.length = s.ram_table.length ∧
    (∀ hj2 : i.ram_tbl_idx < s2.ram_table.length,
      entryRecord s2 (s2.ram_table.get ⟨i.ram_tbl_idx, hj2⟩) =
        some ⟨_mtb_kvstore_setup_record_header u.key u.dataPtr u.data_size
          KvOp.update, u.key, u.dataPtr.getD []⟩) := by
  obtain ⟨c1, c2, c3, c4, c5, c6, c7, c8, c9, c10, c11, c12⟩ :=
    gc_update_ok s i u dev s2 h hupd hidx hW.prog_pos hW.area_layout
      hW.anchor_le
      (fun e he => by
        have h1 := hW.offs_lt e he
        have h2 := hW.fs_le
        omega)
      (fun e he => by
        obtain ⟨r, hr, _, _⟩ := (entryOk_spec s e).mp (hW.entries_ok e he)
        rw [hr]
        rfl)
      hold hW.consumed_eq
  have harea : areaSize s2 = areaSize s := by
    unfold areaSize
    rw [c2]
  have hnew0 : 0 < i.size_info.new_record_size := by
    rw [hnewu]
    exact get_record_size_pos _ _ _ hW.prog_pos
  obtain ⟨rOld, hrOld, hwfOld, hhashOld⟩ := (entryOk_spec s _).mp
    (hW.entries_ok _ (List.get_mem s.ram_table i.ram_tbl_idx hidx))
  have hkeyOld : rOld.key = u.key := by
    unfold entryKeyOf at hkeyu
    rw [hrOld] at hkeyu
    simpa using hkeyu
  have hsame : u.key_hash = (s.ram_table.get ⟨i.ram_tbl_idx, hidx⟩).hash := by
    rw [hhashOld, hkeyOld, hhashu]
  have hwfU : wfRecord ⟨_mtb_kvstore_setup_record_header u.key u.dataPtr
      u.data_size KvOp.update, u.key, u.dataPtr.getD []⟩ :=
    setup_record_wf u.key u.dataPtr u.data_size KvOp.update hk0 hk1 hdatau
  have hidx2 : i.ram_tbl_idx < s2.ram_table.length := by omega
  have hszle := le_map_sum (sizeOfEntry s) s.ram_table _
    (List.get_mem s.ram_table i.ram_tbl_idx hidx)
  have hhashj : ∀ (j : Nat) (hj : j < s.ram_table.length)
      (hj2 : j < s2.ram_table.length),
      (s2.ram_table.get ⟨j, hj2⟩).hash = (s.ram_table.get ⟨j, hj⟩).hash := by
    intro j hj hj2
    by_cases hje : j = i.ram_tbl_idx
    · subst hje
      rw [(c11 hj2).1, hsame]
    · exact (c12 j hj hj2 hje).1
  have hkeyj : ∀ (j : Nat) (hj : j < s.ram_table.length)
      (hj2 : j < s2.ram_table.length),
      entryKeyOf s2 (s2.ram_table.get ⟨j, hj2⟩) =
        entryKeyOf s (s.ram_table.get ⟨j, hj⟩) := by
    intro j hj hj2
    by_cases hje : j = i.ram_tbl_idx
    · subst hje
      have hleft : entryKeyOf s2
          (s2.ram_table.get ⟨i.ram_tbl_idx, hj2⟩) = some u.key := by
        unfold entryKeyOf
        rw [(c11 hj2).2.2.2]
        rfl
      rw [hleft]
      exact hkeyu.symm
    · unfold entryKeyOf
      rw [(c12 j hj hj2 hje).2.2.2]
  refine ⟨⟨?_, ?_, ?_, ?_, ?_, ?_, ?_, ?_, ?_, ?_⟩, harea, c7, c8,
    c10, fun hj2 => (c11 hj2).2.2.2⟩
  · rw [c3]
    exact hW.prog_pos
  · rw [c5, c6, c1, harea]
    rcases hW.area_layout with ⟨h1, h2⟩ | ⟨h1, h2⟩
    · exact Or.inr ⟨h2, h1⟩
    · exact Or.inl ⟨h2, h1⟩
  · rw [c3, harea]
    exact hW.anchor_le
  · rw [c8]
  · rw [harea]
    exact c9
  · intro e he
    obtain ⟨n, hn⟩ := List.mem_iff_get.mp he
    rw [← hn]
    by_cases hje : n.1 = i.ram_tbl_idx
    · have hj2 : i.ram_tbl_idx < s2.ram_table.length := hje ▸ n.isLt
      have hgetn : s2.ram_table.get n =
          s2.ram_table.get ⟨i.ram_tbl_idx, hj2⟩ := by
        apply congrArg
        rw [Fin.ext_iff]
        exact hje
      have hoff := (c11 hj2).2.2.1
      rw [hgetn]
      omega
    · have h2 : (s2.ram_table.get n).offset +
          i.size_info.new_record_size < s2.free_space_offset :=
        (c12 n.1 (by omega) n.isLt hje).2.2.1
      omega
  · intro e he
    obtain ⟨n, hn⟩ := List.mem_iff_get.mp he
    have hj : n.1 < s.ram_table.length := by omega
    rw [← hn, entryOk_spec]
    by_cases hje : n.1 = i.ram_tbl_idx
    · have hj2 : i.ram_tbl_idx < s2.ram_table.length := hje ▸ n.isLt
      have hgetn : s2.ram_table.get n =
          s2.ram_table.get ⟨i.ram_tbl_idx, hj2⟩ := by
        apply congrArg
        rw [Fin.ext_iff]
        exact hje
      have hrec := (c11 hj2).2.2.2
      have hh := (c11 hj2).1
      refine ⟨_, ?_, hwfU, ?_⟩
      · rw [hgetn]
        exact hrec
      · rw [hgetn, hh, hhashu]
    · obtain ⟨hh, _, _, hre⟩ := c12 n.1 hj n.isLt hje
      obtain ⟨r, hr, hwf, hhash⟩ := (entryOk_spec s _).mp
        (hW.entries_ok _ (List.get_mem s.ram_table n.1 hj))
      refine ⟨r, ?_, hwf, ?_⟩
      · rw [hre]
        exact hr
      · rw [hh, hhash]
  · apply pairwise_of_corresp (fun a b => b.hash ≤ a.hash)
      (fun a b => b.hash ≤ a.hash) s.ram_table s2.ram_table c10 _ hW.sorted
    intro i2 j2 hi1 hj1 hi2 hj2 hij hR
    rw [hhashj i2 hi1 hi2, hhashj j2 hj1 hj2]
    exact hR
  · apply pairwise_of_corresp
      (fun a b => entryKeyOf s a ≠ entryKeyOf s b)
      (fun a b => entryKeyOf s2 a ≠ entryKeyOf s2 b)
      s.ram_table s2.ram_table c10 _ hW.keys_distinct
    intro i2 j2 hi1 hj1 hi2 hj2 hij hR
    rw [hkeyj i2 hi1 hi2, hkeyj j2 hj1 hj2]
    exact hR
  · have hsum := map_sum_update_idx (sizeOfEntry s2) (sizeOfEntry s)
      i.size_info.new_record_size s.ram_table s2.ram_table i.ram_tbl_idx
      c10 hidx
      (fun hj2 => by
        unfold sizeOfEntry
        rw [(c11 hj2).2.2.2, c3, hnewu]
        rfl)
      (fun j hj1 hj2 hjne => by
        unfold sizeOfEntry
        rw [(c12 j hj1 hj2 hjne).2.2.2, c3])
    have := hW.consumed_eq
    rw [c7, c3]
    omega

theorem wwfBody_delete_found (st : KVState) (key : List Nat)
    (dataPtr : Option (List Nat)) (size : Nat) (idx hash ds : Nat)
    (dev : WDev) :
    wwfBody st key dataPtr size true true idx hash ds dev =
    (if areaSize st < st.free_space_offset +
        _mtb_kvstore_get_record_size st.prog_size key.length size then
      match _mtb_kvstore_garbage_collection st
          (some ⟨idx,
            ⟨_mtb_kvstore_get_record_size st.prog_size key.length ds,
              _mtb_kvstore_get_record_size st.prog_size key.length size⟩,
            none⟩) dev.gc with
      | (some e, st1) => (some e, st1)
      | (none, st1) => (none, st1)
    else appendStep st key dataPtr size KvOp.delete idx hash
      (_mtb_kvstore_get_record_size st.prog_size key.length ds)
      (_mtb_kvstore_get_record_size st.prog_size key.length size)
      dev.appendFail) := rfl

theorem wwfBody_update_found (st : KVState) (key : List Nat)
    (dataPtr : Option (List Nat)) (size : Nat) (idx hash ds : Nat)
    (dev : WDev) :
    wwfBody st key dataPtr size false true idx hash ds dev =
    (if (KvOp.update = KvOp.update ∨ KvOp.update = KvOp.add) ∧
        areaSize st < st.consumed_size -
          _mtb_kvstore_get_record_size st.prog_size key.length ds +
          _mtb_kvstore_get_record_size st.prog_size key.length size then
      (some KvErr.storageFull, st)
    else if areaSize st < st.free_space_offset +
        _mtb_kvstore_get_record_size st.prog_size key.length size then
      match _mtb_kvstore_garbage_collection st
          (some ⟨idx,
            ⟨_mtb_kvstore_get_record_size st.prog_size key.length ds,
              _mtb_kvstore_get_record_size st.prog_size key.length size⟩,
            some ⟨key, dataPtr, size, hash⟩⟩) dev.gc with
      | (some e, st1) => (some e, st1)
      | (none, st1) => (none, st1)
    else appendStep st key dataPtr size KvOp.update idx hash
      (_mtb_kvstore_get_record_size st.prog_size key.length ds)
      (_mtb_kvstore_get_record_size st.prog_size key.length size)
      dev.appendFail) := rfl

theorem wwfBody_add_case (st : KVState) (key : List Nat)
    (dataPtr : Option (List Nat)) (size : Nat) (idx hash ds : Nat)
    (dev : WDev) :
    wwfBody st key dataPtr size false false idx hash ds dev =
    (if (KvOp.add = KvOp.update ∨ KvOp.add = KvOp.add) ∧
        areaSize st < st.consumed_size - 0 +
          _mtb_kvstore_get_record_size st.prog_size key.length size then
      (some KvErr.storageFull, st)
    else if areaSize st < st.free_space_offset +
        _mtb_kvstore_get_record_size st.prog_size key.length size then
      match _mtb_kvstore_garbage_collection st none dev.gc with
      | (some e, st1) => (some e, st1)
      | (none, st1) => appendStep st1 key dataPtr size KvOp.add idx hash 0
          (_mtb_kvstore_get_record_size st.prog_size key.length size)
          dev.appendFail
    else appendStep st key dataPtr size KvOp.add idx hash 0
      (_mtb_kvstore_get_record_size st.prog_size key.length size)
      dev.appendFail) := rfl

/-- Postcondition of a successful _mtb_kvstore_write_with_flags run from a
well-formed state: the resulting state is well-formed with the same area
size; a write (del = false) leaves an index entry whose record is exactly
the written record; a delete (del = true) leaves no index entry holding the
key. -/
theorem wwf_success (st : KVState) (key : List Nat)
    (dataPtr : Option (List Nat)) (size : Nat) (del : Bool) (dev : WDev)
    (st' : KVState) (hW : Wf st)
    (hk : del = false → 0 < key.length ∧ key.length < MAX_KEY_SIZE)
    (hdata : del = false →
      (dataPtr = none ∧ size = 0 ∨ ∃ B, dataPtr = some B ∧ B.length = size))
    (h : _mtb_kvstore_write_with_flags st key dataPtr size del dev =
      (none, st')) :
    Wf st' ∧ areaSize st' = areaSize st ∧
    (del = false → ∃ (pre rest : List RamEntry) (eN : RamEntry),
      st'.ram_table = pre ++ eN :: rest ∧
      entryRecord st' eN =
        some ⟨_mtb_kvstore_setup_record_header key dataPtr size KvOp.add,
          key, dataPtr.getD []⟩) ∧
    (del = true → ∀ e ∈ st'.ram_table, entryKeyOf st' e ≠ some key) := by
  have hfs0 : st.free_space_offset ≠ 0 := by
    have h1 := hW.cons_le
    have h2 := hW.consumed_eq
    have h3 := anchorRecordSize_pos st.prog_size hW.prog_pos
    omega
  unfold _mtb_kvstore_write_with_flags at h
  dsimp only at h
  cases hres : (_mtb_kvstore_find_record_in_ram_table st key).2.res with
  | none =>
    -- the key is stored: update or tombstone over its index position
    rw [hres] at h
    dsimp only at h
    obtain ⟨pre, e, rest, r, htbl, hskips, hidxE, hrec, hwfr, hkeyr, hklen,
      hhashE, hdsE⟩ := find_ok st key hres
    have hmem : e ∈ st.ram_table := by rw [htbl]; simp
    obtain ⟨r2, hr2, hwfFull, hhash2⟩ := (entryOk_spec st e).mp
      (hW.entries_ok e hmem)
    rw [hrec] at hr2
    obtain rfl : r = r2 := Option.some.inj hr2
    have hk0 : 0 < key.length := by
      have := hwfFull.1.2.1
      omega
    have hk1 : key.length < MAX_KEY_SIZE := by
      have := hwfFull.1.2.2.1
      omega
    have hplen : pre.length < st.ram_table.length := by
      rw [htbl, List.length_append, List.length_cons]
      omega
    have hidxlt : (_mtb_kvstore_find_record_in_ram_table st key).2.idx <
        st.ram_table.length := by
      rw [hidxE]
      exact hplen
    have hgetp : st.ram_table.get ⟨pre.length, hplen⟩ = e := by
      have h2 : st.ram_table.get? pre.length = some e := by
        rw [htbl]
        exact get?_append_cons pre e rest
      rw [List.get?_eq_get hplen] at h2
      exact Option.some.inj h2
    have hgetIdx : st.ram_table.get
        ⟨(_mtb_kvstore_find_record_in_ram_table st key).2.idx, hidxlt⟩ =
        e := by
      have hfin : (⟨(_mtb_kvstore_find_record_in_ram_table st key).2.idx,
          hidxlt⟩ : Fin st.ram_table.length) = ⟨pre.length, hplen⟩ := by
        rw [Fin.ext_iff]
        exact hidxE
      rw [hfin]
      exact hgetp
    have hkeyE : entryKeyOf st (st.ram_table.get
        ⟨(_mtb_kvstore_find_record_in_ram_table st key).2.idx, hidxlt⟩) =
        some key := by
      rw [hgetIdx]
      unfold entryKeyOf
      rw [hrec]
      simp [hkeyr]
    have hold2 : _mtb_kvstore_get_record_size st.prog_size key.length
        (_mtb_kvstore_find_record_in_ram_table st key).2.ds =
        sizeOfEntry st (st.ram_table.get
          ⟨(_mtb_kvstore_find_record_in_ram_table st key).2.idx,
            hidxlt⟩) := by
      rw [hgetIdx]
      unfold sizeOfEntry
      rw [hrec, hdsE, hklen]
    cases del with
    | true =>
      -- tombstone path
      rw [wwfBody_delete_found] at h
      by_cases hgc : areaSize st < st.free_space_offset +
          _mtb_kvstore_get_record_size st.prog_size key.length size
      · -- compaction with a pending delete
        rw [if_pos hgc] at h
        split at h
        · rename_i e1 st1 hgcr
          injection h with h1 h2
          simp at h1
        · rename_i st1 hgcr
          injection h with h1 h2
          subst h2
          obtain ⟨hW1, harea1, hcons1, hfs1, habs1⟩ :=
            gc_delete_wf st ⟨(_mtb_kvstore_find_record_in_ram_table st
                key).2.idx,
              ⟨_mtb_kvstore_get_record_size st.prog_size key.length
                (_mtb_kvstore_find_record_in_ram_table st key).2.ds,
                _mtb_kvstore_get_record_size st.prog_size key.length size⟩,
              none⟩ dev.gc st1 hW hgcr rfl hidxlt hold2
          refine ⟨hW1, harea1, fun hcontra => absurd hcontra (by decide),
            fun _ => ?_⟩
          intro e2 he2 hcontra
          apply habs1 e2 he2
          rw [hcontra, hkeyE]
      · -- direct tombstone append
        rw [if_neg hgc] at h
        have happ := appendStep_ok _ _ _ _ _ _ _ _ _ _ _ hfs0 h
        subst happ
        have hWd := wf_delete st
          ⟨_mtb_kvstore_setup_record_header key dataPtr size KvOp.delete,
            key, dataPtr.getD []⟩
          (_mtb_kvstore_find_record_in_ram_table st key).2.idx
          (_mtb_kvstore_get_record_size st.prog_size key.length size)
          hW hidxlt (by omega)
        refine ⟨?_, rfl, fun hcontra => absurd hcontra (by decide),
          fun _ => ?_⟩
        · show Wf _
          rw [hold2]
          exact hWd
        · intro e2 he2 hcontra
          have he3 : e2 ∈ st.ram_table.eraseIdx
              (_mtb_kvstore_find_record_in_ram_table st key).2.idx := he2
          obtain ⟨n, hn⟩ := List.mem_iff_get.mp he3
          have hkpres : entryKeyOf st e2 = some key := by
            have hmem2 : e2 ∈ st.ram_table :=
              (List.eraseIdx_sublist st.ram_table _).mem he3
            have hlt := hW.offs_lt e2 hmem2
            unfold entryKeyOf entryRecord at hcontra ⊢
            rw [← hcontra]
            show _ = Option.map _ (mlookup _ _)
            dsimp only
            rw [mlookup_cons, if_neg (by omega)]
          have hlenE := length_eraseIdx_add_one st.ram_table
            (_mtb_kvstore_find_record_in_ram_table st key).2.idx hidxlt
          by_cases hjlt : n.1 <
              (_mtb_kvstore_find_record_in_ram_table st key).2.idx
          · have hj0 : n.1 < st.ram_table.length := by
              have := n.isLt
              omega
            have hget := get_eraseIdx_lt st.ram_table _ n.1 hjlt n.isLt hj0
            have := keys_unique_at st hW _ hidxlt n.1 hj0 (by omega)
            apply this
            rw [← hget]
            have hn2 : (st.ram_table.eraseIdx
                (_mtb_kvstore_find_record_in_ram_table st
                  key).2.idx).get n = e2 := hn
            rw [show (st.ram_table.eraseIdx
                (_mtb_kvstore_find_record_in_ram_table st key).2.idx).get
                ⟨n.1, n.isLt⟩ = e2 from hn2]
            rw [hkpres, hkeyE]
          · have hj0 : n.1 + 1 < st.ram_table.length := by
              have := n.isLt
              omega
            have hget := get_eraseIdx_ge st.ram_table _ n.1 (by omega)
              n.isLt hj0
            have := keys_unique_at st hW _ hidxlt (n.1 + 1) hj0 (by omega)
            apply this
            rw [← hget]
            have hn2 : (st.ram_table.eraseIdx
                (_mtb_kvstore_find_record_in_ram_table st
                  key).2.idx).get n = e2 := hn
            rw [show (st.ram_table.eraseIdx
                (_mtb_kvstore_find_record_in_ram_table st key).2.idx).get
                ⟨n.1, n.isLt⟩ = e2 from hn2]
            rw [hkpres, hkeyE]
    | false =>
      -- update path
      rw [wwfBody_update_found] at h
      by_cases hfull : areaSize st < st.consumed_size -
          _mtb_kvstore_get_record_size st.prog_size key.length
            (_mtb_kvstore_find_record_in_ram_table st key).2.ds +
          _mtb_kvstore_get_record_size st.prog_size key.length size
      · rw [if_pos ⟨Or.inl rfl, hfull⟩] at h
        injection h with h1 h2
        simp at h1
      · rw [if_neg (fun hcontra => hfull hcontra.2)] at h
        by_cases hgc : areaSize st < st.free_space_offset +
            _mtb_kvstore_get_record_size st.prog_size key.length size
        · -- compaction with the pending update
          rw [if_pos hgc] at h
          split at h
          · rename_i e1 st1 hgcr
            injection h with h1 h2
            simp at h1
          · rename_i st1 hgcr
            injection h with h1 h2
            subst h2
            obtain ⟨hW1, harea1, hcons1, hfs1, hlen1, hentry1⟩ :=
              gc_update_wf st
                ⟨(_mtb_kvstore_find_record_in_ram_table st key).2.idx,
                  ⟨_mtb_kvstore_get_record_size st.prog_size key.length
                    (_mtb_kvstore_find_record_in_ram_table st key).2.ds,
                    _mtb_kvstore_get_record_size st.prog_size key.length
                      size⟩,
                  some ⟨key, dataPtr, size,
                    (_mtb_kvstore_find_record_in_ram_table st key).1⟩⟩
                ⟨key, dataPtr, size,
                  (_mtb_kvstore_find_record_in_ram_table st key).1⟩
                dev.gc st1 hW hgcr rfl hidxlt hold2 hkeyE rfl hk0 hk1
                (hdata rfl) rfl
            have hidx1 : (_mtb_kvstore_find_record_in_ram_table st
                key).2.idx < st1.ram_table.length := by omega
            obtain ⟨hdec, hdeclen⟩ := decomp_at st1.ram_table _ hidx1
            refine ⟨hW1, harea1, fun _ => ?_,
              fun hcontra => absurd hcontra (by decide)⟩
            refine ⟨st1.ram_table.take
              (_mtb_kvstore_find_record_in_ram_table st key).2.idx,
              st1.ram_table.drop
                ((_mtb_kvstore_find_record_in_ram_table st key).2.idx + 1),
              st1.ram_table.get ⟨_, hidx1⟩, hdec, ?_⟩
            rw [hentry1 hidx1]
            rw [setup_update_eq_add]
        · -- direct update append
          rw [if_neg hgc] at h
          have happ := appendStep_ok _ _ _ _ _ _ _ _ _ _ _ hfs0 h
          subst happ
          have hWu := wf_update st key dataPtr size
            (_mtb_kvstore_find_record_in_ram_table st key).2.idx hW hk0 hk1
            (hdata rfl) hidxlt hkeyE (by omega)
          have hset : st.ram_table.set
              (_mtb_kvstore_find_record_in_ram_table st key).2.idx
              ⟨(_mtb_kvstore_find_record_in_ram_table st key).1,
                st.free_space_offset⟩ =
              pre ++ ⟨(_mtb_kvstore_find_record_in_ram_table st key).1,
                st.free_space_offset⟩ :: rest := by
            rw [hidxE, htbl, set_append_cons]
          refine ⟨?_, rfl, fun _ => ?_,
            fun hcontra => absurd hcontra (by decide)⟩
          · show Wf _
            rw [hold2]
            exact hWu
          · refine ⟨pre, rest,
              ⟨(_mtb_kvstore_find_record_in_ram_table st key).1,
                st.free_space_offset⟩, hset, ?_⟩
            show mlookup _ _ = _
            dsimp only
            rw [mlookup_cons, if_pos rfl, setup_update_eq_add]
  | some e0 =>
    rw [hres] at h
    dsimp only at h
    by_cases he0 : e0 = KvErr.itemNotFound
    · subst he0
      rw [if_pos rfl] at h
      cases del with
      | true =>
        rw [if_pos rfl] at h
        injection h with h1 h2
        subst h2
        refine ⟨hW, rfl, fun hcontra => absurd hcontra (by decide),
          fun _ => ?_⟩
        exact absent_of_notFound st key hW hres
      | false =>
        rw [if_neg (by decide)] at h
        obtain ⟨hk0, hk1⟩ := hk rfl
        have habs := absent_of_notFound st key hW hres
        have habs2 := noMatch_of_absent st key hW.entries_ok habs
        have hfind := findFrom_insertion st key
          (_mtb_kvstore_crc16 key CRC_INIT) st.ram_table 0 habs2
        have hidxEq : (_mtb_kvstore_find_record_in_ram_table st key).2.idx =
            (st.ram_table.takeWhile
              (fun p => decide (_mtb_kvstore_crc16 key CRC_INIT ≤
                p.hash))).length := by
          show (findFrom st key (_mtb_kvstore_crc16 key CRC_INIT)
            st.ram_table 0).idx = _
          rw [hfind]
          simp
        have hidxle : (_mtb_kvstore_find_record_in_ram_table st key).2.idx ≤
            st.ram_table.length := by
          rw [hidxEq]
          exact (List.takeWhile_sublist _).length_le
        rw [wwfBody_add_case] at h
        by_cases hfull : areaSize st < st.consumed_size - 0 +
            _mtb_kvstore_get_record_size st.prog_size key.length size
        · rw [if_pos ⟨Or.inr rfl, hfull⟩] at h
          injection h with h1 h2
          simp at h1
        · rw [if_neg (fun hcontra => hfull hcontra.2)] at h
          have hfull2 : st.consumed_size +
              _mtb_kvstore_get_record_size st.prog_size key.length size ≤
              areaSize st := by omega
          by_cases hgc : areaSize st < st.free_space_offset +
              _mtb_kvstore_get_record_size st.prog_size key.length size
          · -- compaction for an add, then the append
            rw [if_pos hgc] at h
            split at h
            · rename_i e1 st1 hgcr
              injection h with h1 h2
              simp at h1
            · rename_i st1 hgcr
              obtain ⟨hW1, harea1, hprog1, hcons1, hfs1, hlen1, hcorr1⟩ :=
                gc_none_wf st dev.gc st1 hW hgcr
              have hfs10 : st1.free_space_offset ≠ 0 := by
                have h2 := hW.consumed_eq
                have h3 := anchorRecordSize_pos st.prog_size hW.prog_pos
                omega
              have happ := appendStep_ok _ _ _ _ _ _ _ _ _ _ _ hfs10 h
              subst happ
              have habs1 : ∀ e ∈ st1.ram_table,
                  entryKeyOf st1 e ≠ some key := by
                intro e2 he2
                obtain ⟨n, hn⟩ := List.mem_iff_get.mp he2
                have hj : n.1 < st.ram_table.length := by
                  have := n.isLt
                  omega
                rw [← hn, (hcorr1 n.1 hj n.isLt).2]
                exact habs _ (List.get_mem st.ram_table n.1 hj)
              have hidx1 : (_mtb_kvstore_find_record_in_ram_table st
                  key).2.idx =
                  (st1.ram_table.takeWhile
                    (fun p => decide (_mtb_kvstore_crc16 key CRC_INIT ≤
                      p.hash))).length := by
                rw [hidxEq, takeWhile_length_congr
                  (_mtb_kvstore_crc16 key CRC_INIT) st.ram_table
                  st1.ram_table hlen1
                  (fun j hj1 hj2 => (hcorr1 j hj1 hj2).1)]
              have hfit1 : st1.free_space_offset +
                  _mtb_kvstore_get_record_size st1.prog_size key.length
                    size ≤ areaSize st1 := by
                rw [hprog1, harea1, hfs1]
                exact hfull2
              have hWa := wf_add st1 key dataPtr size
                (_mtb_kvstore_find_record_in_ram_table st key).2.idx hW1
                hk0 hk1 (hdata rfl) habs1 hidx1 hfit1
              have hidxle1 : (_mtb_kvstore_find_record_in_ram_table st
                  key).2.idx ≤ st1.ram_table.length := by omega
              refine ⟨?_, harea1, fun _ => ?_,
                fun hcontra => absurd hcontra (by decide)⟩
              · rw [show _mtb_kvstore_get_record_size st.prog_size
                    key.length size = _mtb_kvstore_get_record_size
                    st1.prog_size key.length size from by rw [hprog1]]
                exact hWa
              refine ⟨st1.ram_table.take
                (_mtb_kvstore_find_record_in_ram_table st key).2.idx,
                st1.ram_table.drop
                  (_mtb_kvstore_find_record_in_ram_table st key).2.idx,
                ⟨(_mtb_kvstore_find_record_in_ram_table st key).1,
                  st1.free_space_offset⟩, ?_, ?_⟩
              · show st1.ram_table.insertIdx _ _ = _
                rw [insertIdx_decomp _ st1.ram_table _ hidxle1]
              · show mlookup _ _ = _
                dsimp only
                rw [mlookup_cons, if_pos rfl]
          · -- direct add append
            rw [if_neg hgc] at h
            have happ := appendStep_ok _ _ _ _ _ _ _ _ _ _ _ hfs0 h
            subst happ
            have hWa := wf_add st key dataPtr size
              (_mtb_kvstore_find_record_in_ram_table st key).2.idx hW hk0
              hk1 (hdata rfl) habs hidxEq (by omega)
            refine ⟨hWa, rfl, fun _ => ?_,
              fun hcontra => absurd hcontra (by decide)⟩
            refine ⟨st.ram_table.take
              (_mtb_kvstore_find_record_in_ram_table st key).2.idx,
              st.ram_table.drop
                (_mtb_kvstore_find_record_in_ram_table st key).2.idx,
              ⟨(_mtb_kvstore_find_record_in_ram_table st key).1,
                st.free_space_offset⟩, ?_, ?_⟩
            · show st.ram_table.insertIdx _ _ = _
              rw [insertIdx_decomp _ st.ram_table _ hidxle]
            · show mlookup _ _ = _
              dsimp only
              rw [mlookup_cons, if_pos rfl]
    · rw [if_neg he0] at h
      injection h with h1 h2
      simp at h1

/-- C3, amended: any device failure inside the compactor surfaces an error,
and the active/spare area addresses and free_space_offset are unchanged
because the swap and the free_space_offset assignment happen only after the
new anchor is programmed; the media, the RAM table, the consumed size, and
the in-RAM area version may already have changed. -/
theorem C3_gc_failure_amended (st : KVState) (info : Option GcRecordInfo)
    (dev : GcDev) (e : KvErr) (stE : KVState)
    (h : _mtb_kvstore_garbage_collection st info dev = (some e, stE)) :
    stE.active_area_addr = st.active_area_addr ∧
    stE.gc_area_addr = st.gc_area_addr ∧
    stE.free_space_offset = st.free_space_offset := by
  unfold _mtb_kvstore_garbage_collection at h
  rcases info with _ | i
  · -- no pending mutation
    dsimp only at h
    rw [if_neg (by simp)] at h
    split at h
    · rename_i e1 st1 herase
      injection h with h1 h2
      subst h2
      obtain ⟨m, hshape⟩ := erase_area_shape _ _ _ _ _ herase
      rw [hshape]
      exact ⟨rfl, rfl, rfl⟩
    · rename_i st1 herase
      obtain ⟨m1, hshape1⟩ := erase_area_shape _ _ _ _ _ herase
      split at h
      · rename_i e2 st2 _ hloop
        injection h with h1 h2
        subst h2
        obtain ⟨m2, t2, hshape2⟩ := gcCopyLoop_shape dev _ _ _ _ _ _ _ _ hloop
        rw [hshape2, hshape1]
        exact ⟨rfl, rfl, rfl⟩
      · rename_i st2 dst1 hloop
        obtain ⟨m2, t2, hshape2⟩ := gcCopyLoop_shape dev _ _ _ _ _ _ _ _ hloop
        split at h
        · rename_i e4 st5 hanchor
          injection h with h1 h2
          subst h2
          obtain ⟨m5, hw5⟩ := write_area_record_shape _ _ _ _ _ _ hanchor
          rw [hw5, hshape2, hshape1]
          exact ⟨rfl, rfl, rfl⟩
        · injection h with h1
          simp at h1
  · -- pending mutation i
    dsimp only at h
    by_cases hfc : (i.update_rec_info.isSome &&
        decide (areaSize st < st.consumed_size - i.size_info.old_record_size +
          i.size_info.new_record_size)) = true
    · rw [if_pos hfc] at h
      injection h with h1 h2
      subst h2
      exact ⟨rfl, rfl, rfl⟩
    · rw [if_neg hfc] at h
      split at h
      · rename_i e1 st1 herase
        injection h with h1 h2
        subst h2
        obtain ⟨m, hshape⟩ := erase_area_shape _ _ _ _ _ herase
        rw [hshape]
        exact ⟨rfl, rfl, rfl⟩
      · rename_i st1 herase
        obtain ⟨m1, hshape1⟩ := erase_area_shape _ _ _ _ _ herase
        split at h
        · rename_i e2 st2 _ hloop
          injection h with h1 h2
          subst h2
          obtain ⟨m2, t2, hshape2⟩ :=
            gcCopyLoop_shape dev _ _ _ _ _ _ _ _ hloop
          rw [hshape2, hshape1]
          exact ⟨rfl, rfl, rfl⟩
        · rename_i st2 dst1 hloop
          obtain ⟨m2, t2, hshape2⟩ :=
            gcCopyLoop_shape dev _ _ _ _ _ _ _ _ hloop
          rcases hu : i.update_rec_info with _ | u
          · rw [hu] at h
            dsimp only at h
            split at h
            · rename_i e4 st5 hanchor
              injection h with h1 h2
              subst h2
              obtain ⟨m5, hw5⟩ := write_area_record_shape _ _ _ _ _ _ hanchor
              rw [hw5, hshape2, hshape1]
              exact ⟨rfl, rfl, rfl⟩
            · injection h with h1
              simp at h1
          · rw [hu] at h
            dsimp only at h
            split at h
            · rename_i err st3p dstp hwr
              injection h with h1 h2
              subst h2
              split at hwr
              · rename_i e3 st4 hwr2
                injection hwr with hw1 hw2
                injection hw2 with hw2 hw3
                subst hw2
                obtain ⟨m4, t4, c4, hw4⟩ :=
                  write_record_shape _ _ _ _ _ _ _ _ _ _ _ hwr2
                rw [hw4, hshape2, hshape1]
                exact ⟨rfl, rfl, rfl⟩
              · rename_i st4 hwr2
                injection hwr with hw1 hw2
                simp at hw1
            · rename_i st3p dst2 hwr
              split at hwr
              · rename_i e3 st4 hwr2
                injection hwr with hw1 hw2
                simp at hw1
              · rename_i st4 hwr2
                injection hwr with hw1 hw2
                injection hw2 with hw2 hw3
                subst hw2
                obtain ⟨m4, t4, c4, hw4⟩ :=
                  write_record_shape _ _ _ _ _ _ _ _ _ _ _ hwr2
                split at h
                · rename_i e4 st5 hanchor
                  injection h with h1 h2
                  subst h2
                  obtain ⟨m5, hw5⟩ :=
                    write_area_record_shape _ _ _ _ _ _ hanchor
                  rw [hw5, hw4, hshape2, hshape1]
                  exact ⟨rfl, rfl, rfl⟩
                · injection h with h1
                  simp at h1

/-- C3, witness for the amended theorem: on stLive, plain compaction under
the anchor-failing device surfaces device error 7 with the area addresses
and free_space_offset untouched. -/
theorem C3_gc_failure_amended_witness :
    ((_mtb_kvstore_garbage_collection stLive none
        devAnchorFail).2).active_area_addr = stLive.active_area_addr ∧
    ((_mtb_kvstore_garbage_collection stLive none
        devAnchorFail).2).gc_area_addr = stLive.gc_area_addr ∧
    ((_mtb_kvstore_garbage_collection stLive none
        devAnchorFail).2).free_space_offset = stLive.free_space_offset :=
  C3_gc_failure_amended stLive none devAnchorFail (KvErr.dev 7)
    (_mtb_kvstore_garbage_collection stLive none devAnchorFail).2 (by decide)

/-- C1, counterexample.  The claim quantifies over every byte sequence B and
every input *size >= |B|; with B empty and *size = 0 a successful
mtb_kvstore_write is followed by a read that fails with BAD_PARAM (the
data != NULL, *size == 0 guard) instead of succeeding: on the empty store
st0, write([65], [], 0) succeeds, yet read([65], buf, &size) with *size = 0
returns BAD_PARAM. -/
theorem C1_roundtrip_cex :
    (mtb_kvstore_write st0 (some [65]) (some []) 0 allOkW).1 = none ∧
    List.length ([] : List Nat) ≤ 0 ∧
    (mtb_kvstore_read (mtb_kvstore_write st0 (some [65]) (some []) 0 allOkW).2
      (some [65]) true (some 0)).res = some KvErr.badParam := by
  decide

/-- C3, counterexample.  A block-device failure while the compactor programs
the new anchor surfaces the error with the swap not performed, but the RAM
state is not left consistent with the old active area: on stLive (one live
record at active offset 56), plain compaction under devAnchorFail returns
device error 7 while the RAM index entry has already been redirected to the
spare-area offset 34; and compaction with the pending update infoUpd75 under
the same failing device returns the error with consumed_size already changed
from 57 to 59. -/
theorem C3_gc_failure_cex :
    ((_mtb_kvstore_garbage_collection stLive none devAnchorFail).1 =
        some (KvErr.dev 7) ∧
      (_mtb_kvstore_garbage_collection stLive none devAnchorFail).2.ram_table ≠
        stLive.ram_table) ∧
    ((_mtb_kvstore_garbage_collection stLive (some infoUpd75) devAnchorFail).1 =
        some (KvErr.dev 7) ∧
      (_mtb_kvstore_garbage_collection stLive (some infoUpd75)
          devAnchorFail).2.consumed_size ≠ stLive.consumed_size) := by
  decide

/-- C4.  The wraparound rule of _mtb_kvstore_setup_areas is implemented only
for area 1: with area 1 holding version 65535 and area 2 holding the wrapped
version 0 (the configuration the version parity actually produces, since
area 1 starts at version 1 and versions alternate between the areas), the
code activates area 1, although the claimed rule - version 0 is strictly
greater than any non-zero version - requires area 2 (at address 512) to
become active.  The rule does fire in the unreachable mirror image where
area 1 holds version 0. -/
theorem C4_wraparound_divergence :
    (_mtb_kvstore_setup_areas (bothValidState 65535 0) allOkGc).1 = none ∧
    (_mtb_kvstore_setup_areas (bothValidState 65535 0)
        allOkGc).2.active_area_addr = 0 ∧
    (_mtb_kvstore_setup_areas (bothValidState 65535 0)
        allOkGc).2.active_area_version = 65535 ∧
    (bothValidState 65535 0).start_addr + areaSize (bothValidState 65535 0) =
      512 ∧
    (_mtb_kvstore_setup_areas (bothValidState 0 65535)
        allOkGc).2.active_area_addr = 0 := by
  decide

/-- C5, counterexample.  The claim describes a scan over a hash-ascending
table: skip while index[i].hash < h, stop with ITEM_NOT_FOUND at the first
index[i].hash > h, and return the first slot with index[i].hash >= h as the
insertion point.  On stC5 (one entry whose hash exceeds h) the claimed scan
stops at position 0, but the code skips the entry (its guard is
key_hash < entry.hash => continue) and returns position 1 = count: the
comparisons are mirrored, the table is hash-descending. -/
theorem C5_scan_direction_cex :
    (_mtb_kvstore_find_record_in_ram_table stC5 [65]).2.res =
      some KvErr.itemNotFound ∧
    (_mtb_kvstore_find_record_in_ram_table stC5 [65]).2.idx = 1 ∧
    specAscendingInsertionPoint stC5 [65] = 0 := by
  decide

/-- C6, counterexample.  sizeof(_mtb_kvstore_record_header_t) is not 16: the
seven fields total 18 bytes and natural alignment inserts 2 padding bytes
before data_size, so the header the code writes (and stores in its
header_size field) is 20 bytes, and the padded record size formula uses 20,
not 16: record_size for key_size 5, data_size 3, program size 8 is
align_up(28, 8) = 32, not align_up(24, 8) = 24. -/
theorem C6_header_size_cex :
    headerSizeof ≠ 16 ∧
    _mtb_kvstore_get_record_size 8 5 3 ≠ _mtb_kvstore_align_up (16 + 5 + 3) 8 := by
  decide

/-- C6, amended: the record header is 20 bytes (18 bytes of fields plus 2
alignment padding bytes), the header_size field of every record the code
builds stores 20, and the padded on-media size of a record is
align_up(20 + key_size + data_size, program_size). -/
theorem C6_header_and_record_size :
    headerSizeof = 20 ∧
    (∀ (key : List Nat) (dataPtr : Option (List Nat)) (ds : Nat) (op : KvOp),
      (_mtb_kvstore_setup_record_header key dataPtr ds op).header_size = 20) ∧
    (∀ prog ks ds : Nat,
      _mtb_kvstore_get_record_size prog ks ds =
        _mtb_kvstore_align_up (20 + ks + ds) prog) := by
  refine ⟨by decide, fun key dataPtr ds op => rfl, fun prog ks ds => rfl⟩

/-- The state stLive is well-formed; used to instantiate the claim theorems
at a concrete reachable store. -/
theorem wf_stLive : Wf stLive := by
  constructor <;> decide

/-- The live record of stLive: key [75], payload [1, 2], written by the add
path of the mutation engine. -/
def rec75 : Record :=
  ⟨_mtb_kvstore_setup_record_header [75] (some [1, 2]) 2 KvOp.add,
    [75], [1, 2]⟩

/-- C5, amended: the scan works over a hash-descending table.  On a
well-formed state, (a) when no index entry stores the key, the scan returns
ITEM_NOT_FOUND at the position just past the leading entries whose hash is at
least the key hash (the insertion point of a hash-descending sorted table,
skipping equal-hash entries that fail key validation); (b) when an entry
stores the key, the scan validates at the first hash match or continues past
colliding entries, succeeding at the position of that entry with its stored
data size. -/
theorem C5_scan_descending :
    (∀ (st : KVState) (key : List Nat), Wf st →
      (∀ e ∈ st.ram_table, entryKeyOf st e ≠ some key) →
      (_mtb_kvstore_find_record_in_ram_table st key).2 =
        ⟨(st.ram_table.takeWhile
            (fun e =>
              decide (_mtb_kvstore_crc16 key CRC_INIT ≤ e.hash))).length,
          some KvErr.itemNotFound, 0⟩) ∧
    (∀ (st : KVState) (key : List Nat) (pre : List RamEntry) (e : RamEntry)
        (rest : List RamEntry) (r : Record), Wf st →
      st.ram_table = pre ++ e :: rest → entryRecord st e = some r →
      r.key = key →
      (_mtb_kvstore_find_record_in_ram_table st key).2 =
        ⟨pre.length, none, r.header.data_size⟩) := by
  constructor
  · intro st key hW habs
    unfold _mtb_kvstore_find_record_in_ram_table
    dsimp only
    rw [findFrom_insertion]
    · simp
    · intro e hmem _
      obtain ⟨r, hr, hwf, _⟩ := (entryOk_spec st e).mp (hW.entries_ok e hmem)
      have hkne : r.key ≠ key := by
        intro hcontra
        apply habs e hmem
        simp [entryKeyOf, hr, hcontra]
      have hev := read_record_validate_of_wf st st.active_area_addr e.offset
        key r (some 0) hr hwf.1
      unfold readV
      rw [hev, if_neg (by simp; intro _ hk; exact hkne hk.symm)]
  · intro st key pre e rest r hW htbl hr hkey
    have := find_present st key pre e rest r hW htbl hr hkey
    exact congrArg Prod.snd this

/-- C5, witness for the amended theorem, on the reachable state stLive with
one entry for key [75]: the scan for the absent key [65] (hash below the
entry hash) stops at position 0, and the scan for [75] succeeds at position 0
with the stored size 2. -/
theorem C5_scan_descending_witness :
    (_mtb_kvstore_find_record_in_ram_table stLive [65]).2 =
      ⟨(stLive.ram_table.takeWhile
          (fun e =>
            decide (_mtb_kvstore_crc16 [65] CRC_INIT ≤ e.hash))).length,
        some KvErr.itemNotFound, 0⟩ ∧
    (_mtb_kvstore_find_record_in_ram_table stLive [75]).2 =
      ⟨0, none, rec75.header.data_size⟩ :=
  ⟨C5_scan_descending.1 stLive [65] wf_stLive (by decide),
    C5_scan_descending.2 stLive [75] [] ⟨6239, 56⟩ [] rec75 wf_stLive
      (by decide) (by decide) (by decide)⟩

/-- C10: the size-query mode of mtb_kvstore_read.  For a key present in a
well-formed store, read(key, NULL, &size) with any incoming *size (including
0) is accepted (the BAD_PARAM guard requires a data buffer), copies no data,
succeeds, and writes the stored data_size back through the size pointer. -/
theorem C10_size_query (st : KVState) (key : List Nat) (s : Nat)
    (pre : List RamEntry) (e : RamEntry) (rest : List RamEntry) (r : Record)
    (hW : Wf st) (htbl : st.ram_table = pre ++ e :: rest)
    (hr : entryRecord st e = some r) (hkey : r.key = key) :
    mtb_kvstore_read st (some key) false (some s) =
      ⟨none, none, some r.header.data_size⟩ := by
  have hmem : e ∈ st.ram_table := by rw [htbl]; simp
  obtain ⟨r2, hr2, hwf, hhash⟩ := (entryOk_spec st e).mp (hW.entries_ok e hmem)
  rw [hr] at hr2
  obtain rfl : r = r2 := Option.some.inj hr2
  have hkl : key.length = r.header.key_size := by
    rw [hwf.2.1, hkey]
  have hvalid : _mtb_kvstore_is_valid_key (some key) = true := by
    have h1 := hwf.1.2.1
    have h2 := hwf.1.2.2.1
    unfold _mtb_kvstore_is_valid_key MAX_KEY_SIZE
    unfold MAX_KEY_SIZE at h2
    simp only [Bool.and_eq_true, decide_eq_true_eq]
    omega
  unfold mtb_kvstore_read
  rw [if_neg (by simp [hvalid])]
  rw [if_neg (by simp)]
  dsimp only
  rw [find_present st key pre e rest r hW htbl hr hkey]
  dsimp only
  rw [htbl, get?_append_cons]
  dsimp only
  rw [read_record_validate_of_wf st st.active_area_addr e.offset key r
    (some s) hr hwf.1, if_pos ⟨hkl, hkey.symm⟩]
  rfl

/-- C10, witness: on stLive, read([75], NULL, &size) with incoming *size = 0
succeeds with no data copied and *size set to the stored size 2. -/
theorem C10_size_query_witness :
    mtb_kvstore_read stLive (some [75]) false (some 0) =
      ⟨none, none, some rec75.header.data_size⟩ :=
  C10_size_query stLive [75] 0 [] ⟨6239, 56⟩ [] rec75 wf_stLive (by decide)
    (by decide) (by decide)

/-- C1, amended: round-trip with a non-zero incoming size.  For every key K
with 0 < |K| < MTB_KVSTORE_MAX_KEY_SIZE and every byte sequence B, after a
successful mtb_kvstore_write(K, B, |B|) from a well-formed store,
mtb_kvstore_read(K, buf, &size) with an incoming *size that is at least |B|
and non-zero succeeds, copies exactly B into the caller buffer, and writes
|B| back through the size pointer.  (The original claim admits *size = 0,
which the read path rejects with BAD_PARAM whenever a data buffer is
supplied: see the counterexample.) -/
theorem C1_roundtrip_amended (st : KVState) (K B : List Nat) (s : Nat)
    (dev : WDev) (st' : KVState) (hW : Wf st)
    (hw : mtb_kvstore_write st (some K) (some B) B.length dev = (none, st'))
    (hs : B.length ≤ s) (hs0 : s ≠ 0) :
    mtb_kvstore_read st' (some K) true (some s) =
      ⟨none, some B, some B.length⟩ := by
  unfold mtb_kvstore_write at hw
  by_cases hvk : _mtb_kvstore_is_valid_key (some K) = true
  · rw [if_neg (by simp [hvk])] at hw
    dsimp only at hw
    have hk01 : 0 < K.length ∧ K.length < MAX_KEY_SIZE := by
      unfold _mtb_kvstore_is_valid_key at hvk
      simp only [Bool.and_eq_true, decide_eq_true_eq] at hvk
      exact hvk
    obtain ⟨hW', harea, hdec, _⟩ := wwf_success st K (some B) B.length false
      dev st' hW (fun _ => hk01) (fun _ => Or.inr ⟨B, rfl, rfl⟩) hw
    obtain ⟨pre, rest, eN, htbl', hrec'⟩ := hdec rfl
    have hmem' : eN ∈ st'.ram_table := by rw [htbl']; simp
    obtain ⟨r2, hr2, hwfFull, hhash⟩ := (entryOk_spec st' eN).mp
      (hW'.entries_ok eN hmem')
    rw [hrec'] at hr2
    have hr2' := Option.some.inj hr2
    unfold mtb_kvstore_read
    rw [if_neg (by simp [hvk])]
    rw [if_neg (by simp [hs0])]
    dsimp only
    rw [find_present st' K pre eN rest
      ⟨_mtb_kvstore_setup_record_header K (some B) B.length KvOp.add, K,
        (some B).getD []⟩ hW' htbl' hrec' rfl]
    dsimp only
    rw [htbl', get?_append_cons]
    dsimp only
    rw [read_record_validate_full st' st'.active_area_addr eN.offset
      ⟨_mtb_kvstore_setup_record_header K (some B) B.length KvOp.add, K,
        (some B).getD []⟩ s true hrec' (by rw [hr2']; exact hwfFull.1) rfl
      hs]
    rfl
  · rw [if_pos (by simp [hvk])] at hw
    injection hw with h1 h2
    simp at h1

/-- C1, witness for the amended theorem: on the live store, after writing
key [65] with payload [1, 2], a read of [65] with incoming *size = 2
returns the payload and size 2. -/
theorem C1_roundtrip_amended_witness :
    mtb_kvstore_read
        (mtb_kvstore_write stLive (some [65]) (some [1, 2]) 2 allOkW).2
        (some [65]) true (some 2) =
      ⟨none, some [1, 2], some 2⟩ :=
  C1_roundtrip_amended stLive [65] [1, 2] 2 allOkW
    (mtb_kvstore_write stLive (some [65]) (some [1, 2]) 2 allOkW).2
    wf_stLive rfl (by decide) (by decide)

theorem delete_absent (st : KVState) (key : List Nat) (dev : WDev)
    (hW : Wf st)
    (habs : ∀ e ∈ st.ram_table, entryKeyOf st e ≠ some key) :
    mtb_kvstore_delete st key dev = (none, st) := by
  have hfind := findFrom_insertion st key
    (_mtb_kvstore_crc16 key CRC_INIT) st.ram_table 0
    (noMatch_of_absent st key hW.entries_ok habs)
  have hres : (_mtb_kvstore_find_record_in_ram_table st key).2.res =
      some KvErr.itemNotFound := by
    show (findFrom st key (_mtb_kvstore_crc16 key CRC_INIT)
      st.ram_table 0).res = _
    rw [hfind]
  unfold mtb_kvstore_delete _mtb_kvstore_write_with_flags
  dsimp only
  rw [hres]
  dsimp only
  rw [if_pos rfl, if_pos rfl]

/-- C8: delete is idempotent.  A delete of a key absent from the RAM index
of a well-formed store returns success with the state untouched, and after
any successful delete the key is absent, so an immediately repeated delete
of the same key returns success and leaves the store (media, RAM index,
consumed_size, free_space_offset) unchanged. -/
theorem C8_delete_idempotent :
    (∀ (st : KVState) (key : List Nat) (dev : WDev), Wf st →
      (∀ e ∈ st.ram_table, entryKeyOf st e ≠ some key) →
      mtb_kvstore_delete st key dev = (none, st)) ∧
    (∀ (st : KVState) (key : List Nat) (dev dev2 : WDev) (st1 : KVState),
      Wf st → mtb_kvstore_delete st key dev = (none, st1) →
      mtb_kvstore_delete st1 key dev2 = (none, st1)) := by
  constructor
  · exact fun st key dev hW habs => delete_absent st key dev hW habs
  · intro st key dev dev2 st1 hW h
    unfold mtb_kvstore_delete at h
    obtain ⟨hW1, _, _, habs1⟩ := wwf_success st key none 0 true dev st1 hW
      (fun hc => absurd hc (by decide)) (fun hc => absurd hc (by decide)) h
    exact delete_absent st1 key dev2 hW1 (habs1 rfl)

/-- C8, witness: on the live store, delete of the absent key [66] is an
exact no-op, and after deleting the present key [75] a second delete of
[75] returns success and leaves the state unchanged. -/
theorem C8_delete_idempotent_witness :
    mtb_kvstore_delete stLive [66] allOkW = (none, stLive) ∧
    mtb_kvstore_delete (mtb_kvstore_delete stLive [75] allOkW).2 [75]
        allOkW =
      (none, (mtb_kvstore_delete stLive [75] allOkW).2) :=
  ⟨C8_delete_idempotent.1 stLive [66] allOkW wf_stLive (by decide),
    C8_delete_idempotent.2 stLive [75] allOkW allOkW
      (mtb_kvstore_delete stLive [75] allOkW).2 wf_stLive rfl⟩

/-- C9, counterexample.  The claim includes init among the operations that
establish free_space_offset <= area_size, but the RAM-table build scan sums
record sizes without bounding the running offset by the area size: on a
region whose active area holds a valid anchor followed by a CRC-valid
record whose padded 31-byte size runs past the 64-byte area end, init
succeeds and leaves free_space_offset = 65 > area_size = 64 (while
consumed_size <= free_space_offset still holds). -/
theorem C9_invariant_cex :
    (mtb_kvstore_init 0 128 1 64 evilMedia allOkGc).1 = none ∧
    areaSize (mtb_kvstore_init 0 128 1 64 evilMedia allOkGc).2 = 64 ∧
    (mtb_kvstore_init 0 128 1 64 evilMedia
      allOkGc).2.free_space_offset = 65 ∧
    (mtb_kvstore_init 0 128 1 64 evilMedia allOkGc).2.consumed_size ≤
      (mtb_kvstore_init 0 128 1 64 evilMedia
        allOkGc).2.free_space_offset ∧
    ¬ ((mtb_kvstore_init 0 128 1 64 evilMedia
        allOkGc).2.free_space_offset ≤
      areaSize (mtb_kvstore_init 0 128 1 64 evilMedia allOkGc).2) := by
  decide

/-- C9, amended: after every successful write, delete, or reset from a
well-formed store (the write called under the C buffer contract that data
points to size bytes), the state invariant holds: consumed_size <=
free_space_offset and free_space_offset <= area_size.  Init is excluded:
the build scan does not bound the offset it accumulates (see the
counterexample). -/
theorem C9_invariant_amended :
    (∀ (st : KVState) (keyPtr dataPtr : Option (List Nat)) (size : Nat)
        (dev : WDev) (st' : KVState), Wf st →
      (dataPtr = none ∧ size = 0 ∨ ∃ B, dataPtr = some B ∧ B.length = size) →
      mtb_kvstore_write st keyPtr dataPtr size dev = (none, st') →
      st'.consumed_size ≤ st'.free_space_offset ∧
        st'.free_space_offset ≤ areaSize st') ∧
    (∀ (st : KVState) (key : List Nat) (dev : WDev) (st' : KVState),
      Wf st → mtb_kvstore_delete st key dev = (none, st') →
      st'.consumed_size ≤ st'.free_space_offset ∧
        st'.free_space_offset ≤ areaSize st') ∧
    (∀ (st : KVState) (dev : GcDev) (st' : KVState),
      Wf st → mtb_kvstore_reset st dev = (none, st') →
      st'.consumed_size ≤ st'.free_space_offset ∧
        st'.free_space_offset ≤ areaSize st') := by
  refine ⟨?_, ?_, ?_⟩
  · intro st keyPtr dataPtr size dev st' hW hbuf h
    unfold mtb_kvstore_write at h
    by_cases hvk : _mtb_kvstore_is_valid_key keyPtr = true
    · have hguard : ¬ (¬ _mtb_kvstore_is_valid_key keyPtr = true ∨
          (dataPtr = none ∧ size ≠ 0)) := by
        rintro (hc | ⟨hnone, hsz⟩)
        · exact hc hvk
        · rcases hbuf with ⟨-, h0⟩ | ⟨B, hB, -⟩
          · exact hsz h0
          · rw [hnone] at hB
            exact Option.noConfusion hB
      rw [if_neg hguard] at h
      cases keyPtr with
      | none => simp [_mtb_kvstore_is_valid_key] at hvk
      | some K =>
        dsimp only at h
        have hk01 : 0 < K.length ∧ K.length < MAX_KEY_SIZE := by
          unfold _mtb_kvstore_is_valid_key at hvk
          simp only [Bool.and_eq_true, decide_eq_true_eq] at hvk
          exact hvk
        obtain ⟨hW', _, _, _⟩ := wwf_success st K dataPtr size false dev st'
          hW (fun _ => hk01) (fun _ => hbuf) h
        exact ⟨hW'.cons_le, hW'.fs_le⟩
    · rw [if_pos (by simp [hvk])] at h
      injection h with h1 h2
      simp at h1
  · intro st key dev st' hW h
    unfold mtb_kvstore_delete at h
    obtain ⟨hW', _, _, _⟩ := wwf_success st key none 0 true dev st' hW
      (fun hc => absurd hc (by decide)) (fun hc => absurd hc (by decide)) h
    exact ⟨hW'.cons_le, hW'.fs_le⟩
  · intro st dev st' hW h
    unfold mtb_kvstore_reset at h
    dsimp only at h
    split at h
    · rename_i e1 st2 hgcr
      injection h with h1 h2
      simp at h1
    · rename_i st2 hgcr
      have hc := gc_none_ok { st with ram_table := [] } dev st2 hgcr
        hW.prog_pos hW.area_layout hW.anchor_le
        (by intro e he; exact absurd he (List.not_mem_nil e))
        (by intro e he; exact absurd he (List.not_mem_nil e))
      obtain ⟨-, hlen2, -, -, -, -, -, -, hfs2, hfs2le, -, -⟩ := hc
      injection h with h1 h2
      subst h2
      refine ⟨Nat.le_refl _, ?_⟩
      show st2.free_space_offset ≤ areaSize _
      have harea : areaSize { st2 with
          consumed_size := st2.free_space_offset } = areaSize st := by
        unfold areaSize
        dsimp only
        rw [hlen2]
      rw [harea]
      exact hfs2le

/-- C9, witness for the amended theorem: the invariant holds after a write
of key [65] to the live store, after a delete of key [75] from it, and
after a reset of it. -/
theorem C9_invariant_amended_witness :
    ((mtb_kvstore_write stLive (some [65]) (some [1, 2]) 2
        allOkW).2.consumed_size ≤
      (mtb_kvstore_write stLive (some [65]) (some [1, 2]) 2
        allOkW).2.free_space_offset ∧
      (mtb_kvstore_write stLive (some [65]) (some [1, 2]) 2
        allOkW).2.free_space_offset ≤
      areaSize (mtb_kvstore_write stLive (some [65]) (some [1, 2]) 2
        allOkW).2) ∧
    ((mtb_kvstore_delete stLive [75] allOkW).2.consumed_size ≤
      (mtb_kvstore_delete stLive [75] allOkW).2.free_space_offset ∧
      (mtb_kvstore_delete stLive [75] allOkW).2.free_space_offset ≤
      areaSize (mtb_kvstore_delete stLive [75] allOkW).2) ∧
    ((mtb_kvstore_reset stLive allOkGc).2.consumed_size ≤
      (mtb_kvstore_reset stLive allOkGc).2.free_space_offset ∧
      (mtb_kvstore_reset stLive allOkGc).2.free_space_offset ≤
      areaSize (mtb_kvstore_reset stLive allOkGc).2) :=
  ⟨C9_invariant_amended.1 stLive (some [65]) (some [1, 2]) 2 allOkW
      (mtb_kvstore_write stLive (some [65]) (some [1, 2]) 2 allOkW).2
      wf_stLive (Or.inr ⟨[1, 2], rfl, rfl⟩) rfl,
    C9_invariant_amended.2.1 stLive [75] allOkW
      (mtb_kvstore_delete stLive [75] allOkW).2 wf_stLive rfl,
    C9_invariant_amended.2.2 stLive allOkGc
      (mtb_kvstore_reset stLive allOkGc).2 wf_stLive rfl⟩

/-- C7, counterexample.  mtb_kvstore_delete performs no key validation at
all: called with the empty key (invalid per _mtb_kvstore_is_valid_key) on
the empty store st0 it returns success, not BAD_PARAM. -/
theorem C7_delete_no_validation_cex :
    mtb_kvstore_delete st0 [] allOkW = (none, st0) ∧
    _mtb_kvstore_is_valid_key (some []) = false := by
  decide

/-- C7, amended: only mtb_kvstore_write validates its arguments - an invalid
key (empty or of length >= MTB_KVSTORE_MAX_KEY_SIZE, and the C dereferences
a null key before testing it) or a null data pointer with a non-zero size
fails with BAD_PARAM before any lookup or media access (the state is
returned untouched); mtb_kvstore_delete reaches the lookup with no
validation, and on a store whose RAM index is empty it returns success even
for the invalid empty key. -/
theorem C7_validation :
    (∀ (st : KVState) (keyPtr dataPtr : Option (List Nat)) (size : Nat)
        (dev : WDev),
      (¬ _mtb_kvstore_is_valid_key keyPtr ∨ (dataPtr = none ∧ size ≠ 0)) →
      mtb_kvstore_write st keyPtr dataPtr size dev = (some KvErr.badParam, st)) ∧
    (∀ (st : KVState) (dev : WDev), st.ram_table = [] →
      mtb_kvstore_delete st [] dev = (none, st)) := by
  constructor
  · intro st keyPtr dataPtr size dev h
    unfold mtb_kvstore_write
    rw [if_pos h]
  · intro st dev h
    unfold mtb_kvstore_delete _mtb_kvstore_write_with_flags
    simp [_mtb_kvstore_find_record_in_ram_table, h, findFrom]

/-- C7, witness for the amended theorem: write with the oversized 64-byte
key on st0 fails with BAD_PARAM, and delete of the empty key on st0
succeeds. -/
theorem C7_validation_witness :
    mtb_kvstore_write st0 (some (List.replicate 64 65)) (some [1]) 1 allOkW =
      (some KvErr.badParam, st0) ∧
    mtb_kvstore_delete st0 [] allOkW = (none, st0) :=
  ⟨C7_validation.1 st0 (some (List.replicate 64 65)) (some [1]) 1 allOkW
      (Or.inl (by decide)),
    C7_validation.2 st0 allOkW (by decide)⟩

/-- C2: when the live bytes (consumed_size, minus the old padded record size
for an update) plus the padded size of the new record exceed the area size,
mtb_kvstore_write fails with STORAGE_FULL and the state is returned
untouched; and the same condition checked by the compactor for a pending
update fails with STORAGE_FULL before the spare area is touched. -/
theorem C2_storage_full :
    (∀ (st : KVState) (key B : List Nat) (dev : WDev) (old : Nat),
      _mtb_kvstore_is_valid_key (some key) = true →
      lookupOldRecordSize st key = some old →
      areaSize st < st.consumed_size - old +
        _mtb_kvstore_get_record_size st.prog_size key.length B.length →
      mtb_kvstore_write st (some key) (some B) B.length dev =
        (some KvErr.storageFull, st)) ∧
    (∀ (st : KVState) (i : GcRecordInfo) (dev : GcDev),
      i.update_rec_info.isSome = true →
      areaSize st < st.consumed_size - i.size_info.old_record_size +
        i.size_info.new_record_size →
      _mtb_kvstore_garbage_collection st (some i) dev =
        (some KvErr.storageFull, st)) := by
  constructor
  · intro st key B dev old hval hold hfull
    unfold mtb_kvstore_write
    rw [if_neg (by simp [hval])]
    unfold _mtb_kvstore_write_with_flags
    unfold lookupOldRecordSize at hold
    rcases hres : (_mtb_kvstore_find_record_in_ram_table st key).2.res with
      _ | e
    · simp only [hres] at hold ⊢
      obtain rfl : _mtb_kvstore_get_record_size st.prog_size key.length
          (_mtb_kvstore_find_record_in_ram_table st key).2.ds = old := by
        simpa using hold
      norm_num [wwfBody]
      intro hle
      rw [if_neg (by decide : ¬ (KvOp.update = KvOp.add))] at hle
      exact absurd hle (by omega)
    · cases e
      case itemNotFound =>
        simp only [hres] at hold ⊢
        obtain rfl : (0 : Nat) = old := by simpa using hold
        rw [if_pos trivial, if_neg (by decide : ¬ (false = true))]
        norm_num [wwfBody]
        intro hle
        exact absurd hle (by omega)
      all_goals simp [hres] at hold
  · intro st i dev hupd hfull
    unfold _mtb_kvstore_garbage_collection
    rw [if_pos (by simp [hupd, hfull])]

/-- C2, witness: on the empty store st0 (area size 512, consumed 34), a
501-byte value for the one-byte key [65] needs a 522-byte record; the write
fails with STORAGE_FULL and the state is unchanged; and the compactor guard
fires on st0 for a pending update declaring old size 0 and new size 600. -/
theorem C2_storage_full_witness :
    mtb_kvstore_write st0 (some [65]) (some (List.replicate 501 0)) 501 allOkW =
      (some KvErr.storageFull, st0) ∧
    _mtb_kvstore_garbage_collection st0
        (some ⟨0, ⟨0, 600⟩, some ⟨[65], some [], 0, 0⟩⟩) allOkGc =
      (some KvErr.storageFull, st0) :=
  ⟨C2_storage_full.1 st0 [65] (List.replicate 501 0) allOkW 0 (by decide)
      (by decide) (by decide),
    C2_storage_full.2 st0 ⟨0, ⟨0, 600⟩, some ⟨[65], some [], 0, 0⟩⟩ allOkGc
      (by decide) (by decide)⟩

end KvSpec
